import Mathlib

/-!
Verification of core components of the Xaya X adapter: the chainstate
block-tree store, the sync worker, the ZMQ publisher, the pending-moves
gate, the in-memory block cache and the RPC handling of game update
requests.  The definitions mirror the corresponding C++ source functions
of the repository (chainstate.cpp, sync.cpp, zmqpub.cpp, pending.cpp,
blockcache.cpp, controller.cpp).
-/

namespace XayaX

/-- Basic block data as used by the chainstate and the caches: block hash,
parent hash and height.  The further payload fields of the C++ BlockData
(rngseed, metadata, moves) are carried along unchanged by every operation
modelled here and are therefore omitted from the model. -/
structure BlockData where
  hash : String
  parent : String
  height : Nat
deriving DecidableEq, Repr

/-! ### In-memory block cache (InMemoryBlockStorage, blockcache.cpp) -/

/-- One entry of the ordered map in InMemoryBlockStorage: the key (a
height) together with the stored block. -/
abbrev CacheEntry := Nat × BlockData

/-- The ordered std map of InMemoryBlockStorage, modelled as the list of
its entries in increasing key order (the iteration order of std map). -/
abbrev CacheMap := List CacheEntry

/-- Insertion into the ordered map with the semantics of std map emplace:
if the key is already present, the map is left unchanged; otherwise the
entry is inserted at its position in key order. -/
def cacheEmplace (k : Nat) (b : BlockData) : CacheMap → CacheMap
  | [] => [(k, b)]
  | (k1, b1) :: rest =>
      if k < k1 then (k, b) :: (k1, b1) :: rest
      else if k = k1 then (k1, b1) :: rest
      else (k1, b1) :: cacheEmplace k b rest

/-- InMemoryBlockStorage.Store: emplace every given block, keyed by its
height. -/
def cacheStore (m : CacheMap) (blocks : List BlockData) : CacheMap :=
  blocks.foldl (fun acc b => cacheEmplace b.height b acc) m

/-- The iterator loop of InMemoryBlockStorage.GetRange: while the result
is shorter than count, move to the next entry in key order; on a gap in
the heights or at the end of the map, return the empty list instead. -/
def cacheGetRangeLoop (count : Nat) (acc : List BlockData) : CacheMap → List BlockData
  | [] => if acc.length < count then [] else acc
  | (_, b) :: tl =>
      if acc.length < count then
        match acc.getLast? with
        | none => []
        | some lastB =>
            if b.height = lastB.height + 1 then cacheGetRangeLoop count (acc ++ [b]) tl
            else []
      else acc

/-- InMemoryBlockStorage.GetRange: look for the starting height and, if
found, collect a consecutive range from there. -/
def cacheGetRange (m : CacheMap) (start count : Nat) : List BlockData :=
  match m with
  | [] => []
  | (k, b) :: tl =>
      if k = start then cacheGetRangeLoop count [b] tl
      else cacheGetRange tl start count

/-! ### Tracked games (ZmqPub.TrackGame / ZmqPub.UntrackGame, zmqpub.cpp) -/

/-- The tracked-games map of ZmqPub: game ids mapped to their current
positive tracking depth. -/
abbrev GamesMap := List (String × Nat)

/-- Current depth of a game in the map, zero when not present. -/
def depthOf (gs : GamesMap) (g : String) : Nat :=
  match gs.find? (fun e => e.1 = g) with
  | none => 0
  | some e => e.2

/-- ZmqPub.TrackGame: insert the game with depth one, or increment the
depth of an existing entry. -/
def trackGame (gs : GamesMap) (g : String) : GamesMap :=
  match gs.find? (fun e => e.1 = g) with
  | none => gs ++ [(g, 1)]
  | some e => gs.map (fun q => if q.1 = g then (q.1, e.2 + 1) else q)

/-- ZmqPub.UntrackGame: decrement the depth of an existing entry, erasing
it when the depth reaches zero; for an untracked game this is a no-op. -/
def untrackGame (gs : GamesMap) (g : String) : GamesMap :=
  match gs.find? (fun e => e.1 = g) with
  | none => gs
  | some e =>
      if e.2 - 1 = 0 then gs.filter (fun q => q.1 ≠ g)
      else gs.map (fun q => if q.1 = g then (q.1, e.2 - 1) else q)

/-- One TrackGame or UntrackGame call for a fixed game id. -/
inductive TrackOp where
  | track
  | untrack
deriving DecidableEq, Repr

/-- Apply a sequence of TrackGame / UntrackGame calls for game g. -/
def applyTrackOps (g : String) (gs : GamesMap) : List TrackOp → GamesMap
  | [] => gs
  | .track :: rest => applyTrackOps g (trackGame gs g) rest
  | .untrack :: rest => applyTrackOps g (untrackGame gs g) rest

/-- The topic strings of the messages sent by ZmqPub.SendBlock: one
message per currently tracked game, with topic command plus " json " plus
the game id. -/
def sendBlockTopics (gs : GamesMap) (cmd : String) : List String :=
  gs.map (fun e => cmd ++ " json " ++ e.1)

/-! ### ZMQ sequence numbers (ZmqPub.SendMessage, zmqpub.cpp) -/

/-- One attempted ZMQ publication: the topic string of the message and
whether the send of its first frame succeeds. -/
structure SendAttempt where
  topic : String
  firstOk : Bool
deriving DecidableEq, Repr

/-- The nextSeq counter map of ZmqPub: the next sequence value for each
topic string.  The counters are 32-bit unsigned integers in the source;
every stored value is below 2 ^ 32. -/
def SeqState := String → Nat

/-- Initial counter state: a topic not seen before gets counter zero. -/
def initSeq : SeqState := fun _ => 0

/-- Counter update after a fully successful send on a topic: the 32-bit
counter for that topic is incremented, wrapping at 2 ^ 32. -/
def seqSend (st : SeqState) (t : String) : SeqState :=
  Function.update st t ((st t + 1) % 2 ^ 32)

/-- ZmqPub.SendMessage over a run of attempts: a failed first frame
leaves the counters unchanged, a successful send increments the counter
of its topic after the message went out. -/
def zmqRun (st : SeqState) : List SendAttempt → SeqState
  | [] => st
  | a :: rest => zmqRun (if a.firstOk then seqSend st a.topic else st) rest

/-- The sequence values published as the third frame on topic t during a
run, in order.  A successful send publishes the current counter value of
its topic. -/
def publishedSeqs (st : SeqState) (run : List SendAttempt) (t : String) : List Nat :=
  match run with
  | [] => []
  | a :: rest =>
      if a.firstOk then
        (if a.topic = t then [st a.topic] else [])
          ++ publishedSeqs (seqSend st a.topic) rest t
      else publishedSeqs st rest t

/-- Number of attempts in the run that successfully send on topic t. -/
def successCount (run : List SendAttempt) (t : String) : Nat :=
  (run.filter (fun a => a.firstOk && a.topic == t)).length

/-! ### Pending-moves gate (PendingManager, pending.cpp) -/

/-- Events consumed by the PendingManager: upstream tip notifications,
pending move batches (of an arbitrary payload type) and chainstate tip
updates coming from the sync worker callback. -/
inductive PendingEvent (α : Type) where
  | notifiedTip (tip : String)
  | pendingMoves (batch : α)
  | chainstateTip (tip : String)
deriving DecidableEq, Repr

/-- State of the PendingManager: the last committed chainstate tip, the
last announced upstream tip, and the queue of held-back batches. -/
structure PendingState (α : Type) where
  chainstateTip : String := ""
  notificationTip : String := ""
  pendingsQueue : List α := []
deriving DecidableEq, Repr

/-- Initial PendingManager state: both tips empty, no queued batches. -/
def pendingInit (α : Type) : PendingState α := {}

/-- One step of the PendingManager: the resulting state together with the
batches forwarded to the publisher by this event, in order.  The result
is none when a CHECK in the source would abort the process (an empty tip
hash, or a non-empty queue while both tips agree). -/
def pendingStep (st : PendingState α) : PendingEvent α → Option (PendingState α × List α)
  | .notifiedTip tip =>
      if tip = "" then none
      else some ({ st with pendingsQueue := [], notificationTip := tip }, [])
  | .pendingMoves batch =>
      if st.chainstateTip = "" then some (st, [])
      else if st.chainstateTip = st.notificationTip then
        match st.pendingsQueue with
        | [] => some (st, [batch])
        | _ :: _ => none
      else some ({ st with pendingsQueue := st.pendingsQueue ++ [batch] }, [])
  | .chainstateTip tip =>
      if tip = "" then none
      else
        if tip = st.notificationTip then
          some ({ st with chainstateTip := tip, pendingsQueue := [] }, st.pendingsQueue)
        else some ({ st with chainstateTip := tip }, [])

/-- Run the PendingManager over a list of events, collecting everything
forwarded to the publisher in order. -/
def pendingRun (st : PendingState α) : List (PendingEvent α) → Option (PendingState α × List α)
  | [] => some (st, [])
  | e :: rest =>
      match pendingStep st e with
      | none => none
      | some (st1, out) =>
          match pendingRun st1 rest with
          | none => none
          | some (st2, outs) => some (st2, out ++ outs)

/-- Whether an event carries a non-empty tip hash (batches always do). -/
def goodEvent : PendingEvent α → Prop
  | .notifiedTip tip => tip ≠ ""
  | .pendingMoves _ => True
  | .chainstateTip tip => tip ≠ ""

/-- Whether an event is a chainstate tip update. -/
def isChainstateTip : PendingEvent α → Prop
  | .chainstateTip _ => True
  | _ => False

/-! ### Chainstate block tree (chainstate.cpp) -/

/-- One row of the blocks table: hash (the primary key), parent hash,
height and the branch label, which is zero exactly for the main chain. -/
structure BlockRec where
  hash : String
  parent : String
  height : Nat
  branch : Nat
deriving DecidableEq, Repr

/-- The blocks table of the chainstate database. -/
abbrev Store := List BlockRec

/-- The block data carried by a row. -/
def BlockRec.toData (r : BlockRec) : BlockData :=
  ⟨r.hash, r.parent, r.height⟩

/-- Lookup of a row by block hash (SELECT ... WHERE hash = ?). -/
def findByHash (s : Store) (h : String) : Option BlockRec :=
  s.find? (fun r => r.hash = h)

/-- The main-chain rows (branch zero). -/
def mainRows (s : Store) : List BlockRec :=
  s.filter (fun r => r.branch = 0)

/-- GetTipHeight: the largest main-chain height, or -1 when there is no
main-chain block at all. -/
def getTipHeight (s : Store) : Int :=
  match ((mainRows s).map (fun r => r.height)).max? with
  | none => -1
  | some h => h

/-- GetLowestUnprunedHeight: the smallest main-chain height, or -1 when
there is no main-chain block at all. -/
def getLowestUnprunedHeight (s : Store) : Int :=
  match ((mainRows s).map (fun r => r.height)).min? with
  | none => -1
  | some h => h

/-- Descending insertion by height, the auxiliary step of sortDesc. -/
def insertDesc (r : BlockRec) : List BlockRec → List BlockRec
  | [] => [r]
  | q :: tl => if q.height ≤ r.height then r :: q :: tl else q :: insertDesc r tl

/-- Rows ordered by descending height (ORDER BY height DESC). -/
def sortDesc : List BlockRec → List BlockRec
  | [] => []
  | r :: tl => insertDesc r (sortDesc tl)

/-- The row returned by SELECT ... WHERE branch = 0 ORDER BY height DESC
LIMIT 1: the current tip row, if any. -/
def tipRow (s : Store) : Option BlockRec :=
  (sortDesc (mainRows s)).head?

/-- GetFreeBranchNumber: one more than the largest branch number of any
row, or one when there are no rows at all. -/
def getFreeBranchNumber (s : Store) : Nat :=
  match (s.map (fun r => r.branch)).max? with
  | none => 1
  | some b => b + 1

/-- InsertBlock: append a new row carrying the given branch label. -/
def insertBlock (s : Store) (blk : BlockData) (branch : Nat) : Store :=
  s ++ [⟨blk.hash, blk.parent, blk.height, branch⟩]

/-- UPDATE blocks SET branch = br WHERE p: relabel all rows satisfying
the predicate. -/
def relabel (s : Store) (p : BlockRec → Bool) (br : Nat) : Store :=
  s.map (fun r => if p r then { r with branch := br } else r)

/-- The segment query inside GetForkBranch: all rows of the given branch
with height at most h, by descending height. -/
def branchSegment (s : Store) (br : Nat) (h : Nat) : List BlockRec :=
  sortDesc (s.filter (fun r => decide (r.branch = br ∧ r.height ≤ h)))

/-- The loop of GetForkBranch, with explicit fuel.  Fuel exhaustion
(which models non-termination of the source loop and cannot happen on a
well-formed store) and an unknown initial hash both give none. -/
def getForkBranchGo (s : Store) : Nat → String → List BlockRec → Option (List BlockRec)
  | 0, _, _ => none
  | fuel + 1, cur, acc =>
      match findByHash s cur with
      | none => if acc.isEmpty then none else some acc
      | some r =>
          if r.branch = 0 then some acc
          else
            let seg := branchSegment s r.branch r.height
            match seg.getLast? with
            | none => none
            | some lastR => getForkBranchGo s fuel lastR.parent (acc ++ seg)

/-- GetForkBranch: the branch of blocks connecting the given hash down to
the main chain or the pruning horizon, the block itself first; none when
the hash is unknown. -/
def getForkBranch (s : Store) (h : String) : Option (List BlockRec) :=
  getForkBranchGo s (s.length + 1) h []

/-- MarkAsTip: mark an existing block as the current tip, relabelling the
branches accordingly.  The result is none when a CHECK of the source
would abort the process. -/
def markAsTip (s : Store) (blk : BlockData) : Option Store :=
  match findByHash s blk.hash with
  | none => none
  | some r =>
      if r.branch = 0 then
        some (relabel s (fun q => decide (q.branch = 0 ∧ blk.height < q.height))
                (getFreeBranchNumber s))
      else
        match getForkBranch s blk.hash with
        | none => none
        | some path =>
            match path.getLast? with
            | none => none
            | some lastR =>
                let s1 := relabel s (fun q => decide (q.branch = 0 ∧ lastR.height ≤ q.height))
                            (getFreeBranchNumber s)
                some (path.foldl (fun acc d => relabel acc (fun q => q.hash = d.hash) 0) s1)

/-- Result of Chainstate.SetTip: the two failure returns (false in the
source, leaving the store untouched), a CHECK abort, or success with the
new store and the hash of the previous tip. -/
inductive SetTipResult where
  | noBlocks
  | parentUnknown
  | abort
  | ok (s : Store) (oldTip : String)
deriving DecidableEq, Repr

/-- Chainstate.SetTip: attach a block as the new best tip.  Fails with
noBlocks when there is no main-chain row, relabels when the block is
already stored (aborting on mismatched parent or height), and otherwise
inserts the block if its parent is present (aborting on a height
mismatch), failing with parentUnknown when it is not. -/
def setTip (s : Store) (blk : BlockData) : SetTipResult :=
  match tipRow s with
  | none => .noBlocks
  | some tip =>
      match findByHash s blk.hash with
      | some r =>
          if blk.parent = r.parent ∧ blk.height = r.height then
            match markAsTip s blk with
            | none => .abort
            | some s1 => .ok s1 tip.hash
          else .abort
      | none =>
          match findByHash s blk.parent with
          | none => .parentUnknown
          | some p =>
              if blk.height = p.height + 1 then
                match markAsTip (insertBlock s blk (getFreeBranchNumber s)) blk with
                | none => .abort
                | some s1 => .ok s1 tip.hash
              else .abort

/-- Modelled from the spec: the body of Chainstate.ImportTip is not among
the sources (only its declaration in private/chainstate.hpp, its callers
in sync.cpp and its tests are), so it is modelled from the specification
wording: the block is installed as main-chain tip without requiring its
parent to be present; if the block already exists it is relabelled to
branch zero, otherwise it is inserted on branch zero; afterwards every
main-chain block strictly below the height of the block is pruned. -/
def importTip (s : Store) (blk : BlockData) : Store :=
  let s1 :=
    match findByHash s blk.hash with
    | some _ => relabel s (fun q => q.hash = blk.hash) 0
    | none => insertBlock s blk 0
  s1.filter (fun r => !(decide (r.branch = 0 ∧ r.height < blk.height)))

/-- Chainstate.Prune: delete every main-chain row at or below the given
height. -/
def pruneStore (s : Store) (u : Nat) : Store :=
  s.filter (fun r => !(decide (r.branch = 0 ∧ r.height ≤ u)))

/-- One chainstate operation: ImportTip, SetTip or Prune. -/
inductive ChainOp where
  | importOp (blk : BlockData)
  | setTipOp (blk : BlockData)
  | pruneOp (u : Nat)
deriving DecidableEq, Repr

/-- Apply one operation; none models a fatal CHECK abort.  A failing
SetTip (noBlocks or parentUnknown) returns false in the source and
leaves the store unchanged. -/
def applyOp (s : Store) : ChainOp → Option Store
  | .importOp blk => some (importTip s blk)
  | .setTipOp blk =>
      match setTip s blk with
      | .noBlocks => some s
      | .parentUnknown => some s
      | .abort => none
      | .ok s1 _ => some s1
  | .pruneOp u => some (pruneStore s u)

/-- Apply a sequence of operations. -/
def applyOps (s : Store) : List ChainOp → Option Store
  | [] => some s
  | op :: rest =>
      match applyOp s op with
      | none => none
      | some s1 => applyOps s1 rest

/-! ### The branch invariant of the chainstate (SanityCheck, claim C2) -/

/-- Every branch, read by descending height, has contiguous heights: a
row with another row of the same branch strictly below it has an
immediate predecessor at the next lower height. -/
def contiguousBranches (s : Store) : Prop :=
  ∀ r ∈ s, ∀ q ∈ s, r.branch = q.branch → q.height < r.height →
    ∃ p ∈ s, p.branch = r.branch ∧ p.height + 1 = r.height

/-- Within a branch, the parent hash of a row is the hash of the row of
the same branch one height below. -/
def parentLinks (s : Store) : Prop :=
  ∀ r ∈ s, ∀ q ∈ s, r.branch = q.branch → r.height = q.height + 1 → r.parent = q.hash

/-- The row is the deepest one of its branch. -/
def isBottom (s : Store) (r : BlockRec) : Prop :=
  ∀ q ∈ s, q.branch = r.branch → r.height ≤ q.height

/-- Terminal condition of the non-zero branches: the deepest row of such
a branch chains to a stored row of a different branch one height below,
or to an absent row while being at most at the lowest unpruned height. -/
def branchTerminals (s : Store) : Prop :=
  ∀ r ∈ s, r.branch ≠ 0 → isBottom s r →
    ((∃ p ∈ s, p.hash = r.parent ∧ p.branch ≠ r.branch ∧ p.height + 1 = r.height) ∨
      ((∀ q ∈ s, q.hash ≠ r.parent) ∧ (r.height : Int) ≤ getLowestUnprunedHeight s))

/-- Terminal condition of the main chain: its deepest row chains to an
absent row. -/
def mainTerminal (s : Store) : Prop :=
  ∀ r ∈ s, r.branch = 0 → isBottom s r → ∀ q ∈ s, q.hash ≠ r.parent

/-- The branch invariant exactly as claimed: contiguous parent-linked
branches, terminating branches, and a main chain ending in a pruned or
absent block. -/
def branchInvariant (s : Store) : Prop :=
  contiguousBranches s ∧ parentLinks s ∧ branchTerminals s ∧ mainTerminal s

instance (s : Store) : Decidable (contiguousBranches s) := by
  unfold contiguousBranches; infer_instance

instance (s : Store) : Decidable (parentLinks s) := by
  unfold parentLinks; infer_instance

instance (s : Store) (r : BlockRec) : Decidable (isBottom s r) := by
  unfold isBottom; infer_instance

instance (s : Store) : Decidable (branchTerminals s) := by
  unfold branchTerminals isBottom; infer_instance

instance (s : Store) : Decidable (mainTerminal s) := by
  unfold mainTerminal isBottom; infer_instance

instance (s : Store) : Decidable (branchInvariant s) := by
  unfold branchInvariant; infer_instance

/-- A strictly descending parent-linked chain of rows: each row sits one
height above the next and names it as parent. -/
def StrictChain : List BlockRec → Prop
  | [] => True
  | [_] => True
  | x :: y :: rest => (x.height = y.height + 1 ∧ x.parent = y.hash) ∧ StrictChain (y :: rest)

instance instDecStrictChain : (l : List BlockRec) → Decidable (StrictChain l)
  | [] => isTrue trivial
  | [_] => isTrue trivial
  | _ :: y :: rest =>
      have : Decidable (StrictChain (y :: rest)) := instDecStrictChain (y :: rest)
      inferInstanceAs (Decidable (_ ∧ _))

/-- The inductive invariant of the chainstate store: no duplicate rows,
hash is a primary key, branch and height together are unique, branches
are contiguous and parent-linked, a non-empty store has a main-chain
row, and the terminal conditions of the branches and the main chain
hold. -/
structure ChainInv (s : Store) : Prop where
  nodup : s.Nodup
  uniqHash : ∀ r ∈ s, ∀ q ∈ s, r.hash = q.hash → r = q
  uniqBH : ∀ r ∈ s, ∀ q ∈ s, r.branch = q.branch → r.height = q.height → r = q
  contig : contiguousBranches s
  link : parentLinks s
  mainPresent : s ≠ [] → ∃ r ∈ s, r.branch = 0
  branchTerm : branchTerminals s
  mainTerm : mainTerminal s

/-- Terminal condition on a fork branch as required for an invariant
preserving SetTip: the walk ended on a stored main-chain block, or on an
absent block while the deepest walked block sits exactly at the lowest
unpruned height. -/
def pathTerminalOk (s : Store) : Option (List BlockRec) → Prop
  | none => False
  | some path =>
      match path.getLast? with
      | none => True
      | some lastR =>
          (∃ p ∈ s, p.hash = lastR.parent ∧ p.branch = 0) ∨
          ((∀ q ∈ s, q.hash ≠ lastR.parent) ∧ (lastR.height : Int) = getLowestUnprunedHeight s)

instance (s : Store) (o : Option (List BlockRec)) : Decidable (pathTerminalOk s o) := by
  unfold pathTerminalOk
  split
  · exact isFalse (fun h => h)
  · split
    · exact isTrue trivial
    · exact inferInstanceAs (Decidable (_ ∨ _))

/-- Conditions under which an ImportTip call preserves the invariant:
the block is not its own parent; every main-chain row is strictly below
the imported height (the header requires the current tip to be an
ancestor of the imported block); a stored row of the same hash agrees
with the block and is the deepest row of its branch; a stored parent of
the block lies on the main chain; and for a fresh hash, any row naming
the new block as parent is a main-chain row (to be pruned) or sits
directly above the block. -/
def importOk (s : Store) (blk : BlockData) : Prop :=
  blk.parent ≠ blk.hash ∧
  (∀ r ∈ s, r.branch = 0 → r.height < blk.height) ∧
  (∀ r ∈ s, r.hash = blk.hash →
      (r.height = blk.height ∧ r.parent = blk.parent ∧
        (∀ q ∈ s, q.branch = r.branch → blk.height ≤ q.height))) ∧
  (∀ p ∈ s, p.hash = blk.parent → p.branch = 0) ∧
  ((∀ r ∈ s, r.hash ≠ blk.hash) →
      ∀ q ∈ s, q.parent = blk.hash → q.branch = 0 ∨ q.height = blk.height + 1)

/-- Conditions under which a SetTip call preserves the invariant: the
call does not hit an aborting CHECK; when it re-activates a stored
branch block, the fork walk of that block ends on the main chain or
exactly at the pruning horizon; and when it attaches a fresh block, no
stored non-main row other than one directly above names it as parent,
and the fork walk of the freshly inserted block ends on the main chain
or exactly at the pruning horizon. -/
def setTipOk (s : Store) (blk : BlockData) : Prop :=
  setTip s blk ≠ .abort ∧
  (∀ r ∈ s, r.hash = blk.hash → r.branch ≠ 0 →
    pathTerminalOk s (getForkBranch s blk.hash)) ∧
  ((∀ r ∈ s, r.hash ≠ blk.hash) →
    ((∀ q ∈ s, q.parent = blk.hash → (q.branch ≠ 0 ∧ q.height = blk.height + 1)) ∧
      (∀ p ∈ s, p.hash = blk.parent →
        pathTerminalOk (insertBlock s blk (getFreeBranchNumber s))
          (getForkBranch (insertBlock s blk (getFreeBranchNumber s)) blk.hash))))

/-- Condition under which a Prune call preserves the invariant: at least
the main-chain tip stays (the controller prunes up to the tip height
minus the maximum reorg depth minus one). -/
def pruneOk (s : Store) (u : Nat) : Prop :=
  (u : Int) < getTipHeight s

/-- The per-operation conditions. -/
def opOk (s : Store) : ChainOp → Prop
  | .importOp blk => importOk s blk
  | .setTipOp blk => setTipOk s blk
  | .pruneOp u => pruneOk s u

/-- The conditions along a whole operation sequence. -/
def opsOk (s : Store) : List ChainOp → Prop
  | [] => True
  | op :: rest =>
      opOk s op ∧
      match applyOp s op with
      | none => True
      | some s1 => opsOk s1 rest

instance (s : Store) (blk : BlockData) : Decidable (importOk s blk) := by
  unfold importOk; infer_instance

instance (s : Store) (blk : BlockData) : Decidable (setTipOk s blk) := by
  unfold setTipOk; infer_instance

instance (s : Store) (u : Nat) : Decidable (pruneOk s u) := by
  unfold pruneOk; infer_instance

instance (s : Store) : (op : ChainOp) → Decidable (opOk s op)
  | .importOp blk => inferInstanceAs (Decidable (importOk s blk))
  | .setTipOp blk => inferInstanceAs (Decidable (setTipOk s blk))
  | .pruneOp u => inferInstanceAs (Decidable (pruneOk s u))

instance instDecOpsOk : (s : Store) → (ops : List ChainOp) → Decidable (opsOk s ops)
  | _, [] => isTrue trivial
  | s, op :: rest => by
      unfold opsOk
      rcases happ : applyOp s op with _ | s1
      · exact inferInstanceAs (Decidable (_ ∧ _))
      · have : Decidable (opsOk s1 rest) := instDecOpsOk s1 rest
        exact inferInstanceAs (Decidable (_ ∧ _))

/-- Structure of a fork-branch walk result: a strictly descending
parent-linked chain of stored non-main rows that is downward closed per
visited branch. -/
def pathProps (s : Store) (l : List BlockRec) : Prop :=
  StrictChain l ∧ (∀ x ∈ l, x ∈ s ∧ x.branch ≠ 0) ∧
  (∀ x ∈ l, ∀ y ∈ s, y.branch = x.branch → y.height ≤ x.height → y ∈ l)

/-- Terminal structure of a fork-branch walk result: the deepest row
chains to a main-chain row directly below it, or to an absent row while
sitting at most at the lowest unpruned height. -/
def pathEnd (s : Store) (l : List BlockRec) : Prop :=
  ∀ z, l.getLast? = some z →
    ((∃ p ∈ s, p.hash = z.parent ∧ p.branch = 0 ∧ p.height + 1 = z.height) ∨
      ((∀ q ∈ s, q.hash ≠ z.parent) ∧ (z.height : Int) ≤ getLowestUnprunedHeight s))

/-- The net row transformation of MarkAsTip in its branch case: path
rows move to the main chain, main rows at or above the fork-bottom
height move to the fresh branch, everything else stays. -/
def phiBranch (path : List BlockRec) (beta f : Nat) (q : BlockRec) : BlockRec :=
  if path.any (fun d => q.hash = d.hash) then { q with branch := 0 }
  else if q.branch = 0 ∧ beta ≤ q.height then { q with branch := f }
  else q

/-! ### Sync worker (sync.cpp) -/

/-- The pull interface of the base chain used by the sync worker and the
controller: the current tip height, block ranges of the current main
chain, and the main-chain height of a hash (-1 when unknown). -/
structure BaseChain where
  tipHeight : Nat
  blockRange : Nat → Nat → List BlockData
  mainchainHeight : String → Int

/-- Mutable state of the sync worker across update steps: the current
batch size and the next start height (-1 when unset). -/
structure SyncState where
  numBlocks : Nat
  nextStartHeight : Int
deriving DecidableEq, Repr

/-- Sync.IncreaseNumBlocks: double the batch size, capping it at the
configured block range. -/
def increaseNumBlocks (blockRangeFlag : Nat) (n : Nat) : Nat :=
  min blockRangeFlag (n * 2)

/-- Callback events emitted by the sync worker towards the controller. -/
inductive SyncEvent where
  | tipUpdatedFrom (oldTip : String) (attaches : List BlockData)
deriving DecidableEq, Repr

/-- Sync.ImportNewTip: fetch the single block at the given height from
the base chain and import it as the new tip; the boolean result is false
when no block could be fetched.  None models the CHECK on the size of
the fetched range. -/
def importNewTip (base : BaseChain) (s : Store) (height : Nat) :
    Option (Store × List SyncEvent × Bool) :=
  match base.blockRange height 1 with
  | [] => some (s, [], false)
  | [blk] => some (importTip s blk, [.tipUpdatedFrom "" [blk]], true)
  | _ => none

/-- The batched attach loop of Sync.UpdateStep for all blocks after the
first one, with the CHECK assertions of the source: every attach must
succeed and return the previous block of the range as old tip. -/
def attachRest (s : Store) (prevHash : String) : List BlockData → Option Store
  | [] => some s
  | b :: rest =>
      match setTip s b with
      | .ok s1 prev =>
          if prev = b.parent ∧ prev = prevHash then attachRest s1 b.hash rest
          else none
      | _ => none

/-- The failure branch of Sync.UpdateStep, taken when the fetched range
was empty or its first block could not be attached: grow the batch size,
move the next start height down (not below the lowest unpruned height)
and request another step; a start height that did not decrease is a
reorg beyond the pruning depth and aborts. -/
def syncFailPath (blockRangeFlag : Nat) (st : SyncState) (s : Store)
    (startHeight num : Nat) : Option (Store × SyncState × List SyncEvent × Bool) :=
  let newNum := increaseNumBlocks blockRangeFlag st.numBlocks
  let nextStart := max (getLowestUnprunedHeight s) ((startHeight : Int) - num)
  if nextStart < (startHeight : Int) then some (s, ⟨newNum, nextStart⟩, [], true)
  else none

/-- Sync.UpdateStep: one update step of the sync worker, returning the
new store, the new sync state, the emitted callback events and the
more-steps flag; none models a fatal CHECK abort. -/
def updateStep (blockRangeFlag pruningDepth : Nat) (base : BaseChain)
    (st : SyncState) (s : Store) :
    Option (Store × SyncState × List SyncEvent × Bool) :=
  let baseTip := base.tipHeight
  let genesisHeight := if baseTip < pruningDepth then 0 else baseTip - pruningDepth
  if st.nextStartHeight = -1 ∧ getTipHeight s = -1 then
    (importNewTip base s genesisHeight).map (fun r => (r.1, st, r.2.1, r.2.2))
  else
    let startHeightI : Int :=
      if st.nextStartHeight = -1 then getTipHeight s else st.nextStartHeight
    if startHeightI < 0 then none
    else
      let startHeight := startHeightI.toNat
      let num := max st.numBlocks 3
      let blocks := base.blockRange startHeight num
      let oldForkBranch :=
        match blocks with
        | [] => []
        | b :: _ => (getForkBranch s b.parent).getD []
      match blocks with
      | [] => syncFailPath blockRangeFlag st s startHeight num
      | b0 :: rest =>
          match setTip s b0 with
          | .abort => none
          | .noBlocks => syncFailPath blockRangeFlag st s startHeight num
          | .parentUnknown => syncFailPath blockRangeFlag st s startHeight num
          | .ok s1 oldTip =>
              match attachRest s1 b0.hash rest with
              | none => none
              | some s2 =>
                  let lastBlk := blocks.getLast?.getD b0
                  let events :=
                    if oldTip ≠ lastBlk.hash then
                      [SyncEvent.tipUpdatedFrom oldTip
                        (oldForkBranch.reverse.map BlockRec.toData ++ blocks)]
                    else []
                  if blocks.length < num then some (s2, ⟨1, -1⟩, events, false)
                  else if lastBlk.height < genesisHeight then
                    match importNewTip base s2 genesisHeight with
                    | none => none
                    | some (s3, evs, true) =>
                        some (s3, ⟨st.numBlocks, -1⟩, events ++ evs, true)
                    | some (s3, evs, false) =>
                        some (s3, ⟨increaseNumBlocks blockRangeFlag st.numBlocks, -1⟩,
                              events ++ evs, true)
                  else
                    some (s2, ⟨increaseNumBlocks blockRangeFlag st.numBlocks, -1⟩,
                          events, true)

/-! ### Controller RPC surface (controller.cpp) -/

/-- A JSON value, as far as the modelled RPC results need it. -/
inductive JVal where
  | jstr (s : String)
  | jint (n : Int)
  | jbool (b : Bool)
  | jobj (fields : List (String × JVal))

/-- Lookup of an object member. -/
def getField (fields : List (String × JVal)) (k : String) : Option JVal :=
  (fields.find? (fun e => e.1 = k)).map (fun e => e.2)

/-- Whether an object has a member of the given name. -/
def hasField (fields : List (String × JVal)) (k : String) : Bool :=
  (fields.find? (fun e => e.1 = k)).isSome

/-- The members of an object value. -/
def JVal.objFields : JVal → Option (List (String × JVal))
  | .jobj fs => some fs
  | _ => none

/-- Read an optional JSON value as a string. -/
def jStr? : Option JVal → Option String
  | some (.jstr v) => some v
  | _ => none

/-- Read an optional JSON value as an integer. -/
def jInt? : Option JVal → Option Int
  | some (.jint v) => some v
  | _ => none

/-- Read an optional JSON value as an object. -/
def jObj? : Option JVal → Option (List (String × JVal))
  | some (.jobj fs) => some fs
  | _ => none

/-- A ZMQ notification pushed by the controller. -/
inductive ZmqMsg where
  | blockAttach (blk : BlockData) (reqtoken : String)
  | blockDetach (blk : BlockData) (reqtoken : String)
deriving DecidableEq, Repr

/-- The attach loop of Controller RunData.PushZmqBlocks when attach
blocks were supplied by the sync worker: send every block above the fork
height, abort when the block just above the fork point does not chain to
it, and record whether the fork point was found at all. -/
def pushAttachLoop (forkHeight : Nat) (forkPoint reqtoken : String) :
    List BlockData → Option (List ZmqMsg × Bool)
  | [] => some ([], false)
  | blk :: rest =>
      if blk.height = forkHeight + 1 ∧ blk.parent ≠ forkPoint then none
      else
        match pushAttachLoop forkHeight forkPoint reqtoken rest with
        | none => none
        | some (msgs, found) =>
            let here := if forkHeight < blk.height then [ZmqMsg.blockAttach blk reqtoken] else []
            some (here ++ msgs, decide (blk.height = forkHeight + 1) || found)

/-- The part of Controller RunData.PushZmqBlocks after the detach blocks
are determined: compute the fork point, then either walk the supplied
attaches or query the base chain for attach blocks, with the CHECK
assertions of the source.  Returns the detach blocks, the queried attach
blocks and the pushed messages. -/
def pushWithDetaches (base : BaseChain) (s : Store) (frm : String)
    (attaches : List BlockData) (num : Nat) (reqtoken : String)
    (detach : List BlockData) (mh : Option Int) :
    Option (List BlockData × List BlockData × List ZmqMsg) :=
  let detachMsgs := detach.map (fun b => ZmqMsg.blockDetach b reqtoken)
  let fk : Option (Nat × String) :=
    match mh with
    | some h => some (h.toNat, frm)
    | none =>
        match detach.getLast? with
        | none => (findByHash s frm).map (fun r => (r.height, frm))
        | some lastD => some (lastD.height - 1, lastD.parent)
  match fk with
  | none => none
  | some (forkHeight, forkPoint) =>
      match attaches with
      | _ :: _ =>
          if detach ≠ [] ∧ (attaches.getLast?.map (fun b => b.hash))
              = (detach.getLast?.map (fun b => b.parent)) then
            some (detach, [], detachMsgs)
          else
            match pushAttachLoop forkHeight forkPoint reqtoken attaches with
            | none => none
            | some (msgs, found) =>
                if found then some (detach, [], detachMsgs ++ msgs) else none
      | [] =>
          let tipHeight := getTipHeight s
          if tipHeight < (forkHeight : Int) then none
          else
            let num2 := min num (tipHeight - forkHeight).toNat
            let queried := base.blockRange (forkHeight + 1) num2
            match queried with
            | [] => some (detach, [], detachMsgs)
            | q0 :: _ =>
                if q0.parent ≠ forkPoint then some (detach, [], detachMsgs)
                else if getLowestUnprunedHeight s < 0 then none
                else
                  match queried.getLast? with
                  | none => none
                  | some qLast =>
                      if getLowestUnprunedHeight s ≤ (qLast.height : Int) then
                        match findByHash s qLast.hash with
                        | none => some (detach, [], detachMsgs)
                        | some r =>
                            if r.height = qLast.height then
                              some (detach, queried, detachMsgs
                                ++ queried.map (fun b => ZmqMsg.blockAttach b reqtoken))
                            else none
                      else
                        some (detach, queried, detachMsgs
                          ++ queried.map (fun b => ZmqMsg.blockAttach b reqtoken))

/-- Controller RunData.PushZmqBlocks: push detach and attach messages to
walk from the given block onto the current main chain.  An empty from
hash just pushes the supplied attaches.  Otherwise the detach blocks are
the fork branch of the from block; when that is unknown, the base chain
main-chain height of the from block is consulted, and if that fails as
well, nothing is pushed at all. -/
def pushZmqBlocks (base : BaseChain) (s : Store) (frm : String)
    (attaches : List BlockData) (num : Nat) (reqtoken : String) :
    Option (List BlockData × List BlockData × List ZmqMsg) :=
  if frm = "" then
    some ([], [], attaches.map (fun b => ZmqMsg.blockAttach b reqtoken))
  else
    match getForkBranch s frm with
    | none =>
        let mh := base.mainchainHeight frm
        if mh = -1 then some ([], [], [])
        else pushWithDetaches base s frm attaches num reqtoken [] (some mh)
    | some rows =>
        pushWithDetaches base s frm attaches num reqtoken
          (rows.map BlockRec.toData) none

/-- Controller RpcServer.game_sendupdates3: the three-argument form of
game_sendupdates.  The source asserts CHECK_EQ on the toblock argument
being empty, which aborts the process otherwise (modelled as none); on
success the JSON result and the pushed messages are returned. -/
def gameSendUpdates3 (base : BaseChain) (s : Store) (frm gameId toB reqtoken : String)
    (blockRangeFlag : Nat) : Option (JVal × List ZmqMsg) :=
  let _ := gameId
  if toB ≠ "" then none
  else
    match pushZmqBlocks base s frm [] blockRangeFlag reqtoken with
    | none => none
    | some (detaches, attaches, msgs) =>
        let toBlock :=
          match attaches.getLast? with
          | some a => a.hash
          | none =>
              match detaches.getLast? with
              | some d => d.parent
              | none => frm
        some (.jobj [("reqtoken", .jstr reqtoken), ("toblock", .jstr toBlock),
                ("steps", .jobj [("detach", .jint detaches.length),
                  ("attach", .jint attaches.length)])], msgs)

/-- Fill in a missing toblock member with the empty string, as done for
game_sendupdates inputs in HandleMethodCall. -/
def fixSendUpdatesInput : JVal → JVal
  | .jobj fs => if hasField fs "toblock" then .jobj fs else .jobj (fs ++ [("toblock", .jstr "")])
  | v => v

/-- Whether an object member exists and is a string. -/
def isStrField (fs : List (String × JVal)) (k : String) : Bool :=
  match getField fs k with
  | some (.jstr _) => true
  | _ => false

/-- Parameter validation against the by-name procedure with the three
string parameters fromblock, gameid and toblock. -/
def validateSendUpdatesParams : JVal → Bool
  | .jobj fs => isStrField fs "fromblock" && isStrField fs "gameid" && isStrField fs "toblock"
  | _ => false

/-- Read a string member, defaulting to the empty string. -/
def getStr (fs : List (String × JVal)) (k : String) : String :=
  match getField fs k with
  | some (.jstr v) => v
  | _ => ""

/-- Outcome of one RPC dispatch: a JSON result with pushed messages, an
invalid-params error thrown back to the caller, or a process abort. -/
inductive RpcOutcome where
  | result (o : JVal) (msgs : List ZmqMsg)
  | invalidParams
  | abort

/-- Whether the dispatch aborted the process. -/
def RpcOutcome.isAbort : RpcOutcome → Bool
  | .abort => true
  | _ => false

/-- The members of the JSON result object of a successful dispatch. -/
def RpcOutcome.resultFields : RpcOutcome → Option (List (String × JVal))
  | .result o _ => o.objFields
  | _ => none

/-- The messages pushed by a successful dispatch. -/
def RpcOutcome.pushed : RpcOutcome → Option (List ZmqMsg)
  | .result _ msgs => some msgs
  | _ => none

/-- Controller RpcServer.HandleMethodCall for the method game_sendupdates:
a missing toblock member of an object input is filled with the empty
string, the parameters are validated against the three-argument form,
and the call is forwarded to game_sendupdates3. -/
def handleGameSendUpdates (base : BaseChain) (s : Store) (input : JVal)
    (reqtoken : String) (blockRangeFlag : Nat) : RpcOutcome :=
  let fixed := fixSendUpdatesInput input
  if validateSendUpdatesParams fixed then
    match fixed with
    | .jobj fs =>
        match gameSendUpdates3 base s (getStr fs "fromblock") (getStr fs "gameid")
            (getStr fs "toblock") reqtoken blockRangeFlag with
        | none => .abort
        | some (o, msgs) => .result o msgs
    | _ => .invalidParams
  else .invalidParams

/-! ### Auxiliary notions used by the statements -/

/-- Lookup by height in the cache map. -/
def cacheLookup (m : CacheMap) (h : Nat) : Option BlockData :=
  (m.find? (fun e => e.1 = h)).map (fun e => e.2)

/-- Well-formedness of the cache map: entries in strictly increasing key
order (as in std map) and every block stored under its own height. -/
def cacheWF (m : CacheMap) : Prop :=
  List.Pairwise (fun a b : CacheEntry => a.1 < b.1) m ∧ ∀ e ∈ m, e.2.height = e.1

/-- Well-formedness of the tracked-games map: distinct game ids and
strictly positive depths. -/
def gamesWF (gs : GamesMap) : Prop :=
  (gs.map Prod.fst).Nodup ∧ ∀ e ∈ gs, 1 ≤ e.2

/-- Number of TrackGame calls in a sequence. -/
def trackCount (ops : List TrackOp) : Nat :=
  (ops.filter (fun o => o = .track)).length

/-- Number of UntrackGame calls in a sequence. -/
def untrackCount (ops : List TrackOp) : Nat :=
  (ops.filter (fun o => o = .untrack)).length

/-- One step of the net-depth fold: TrackGame increments, UntrackGame
decrements saturating at zero. -/
def depthStep (d : Nat) : TrackOp → Nat
  | .track => d + 1
  | .untrack => d - 1

/-- The net depth of a sequence of calls, folding depthStep from zero. -/
def netDepth (ops : List TrackOp) : Nat :=
  ops.foldl depthStep 0

/-- The topic string of a ZMQ message of the given command for a game. -/
def mkTopic (cmd g : String) : String :=
  cmd ++ " json " ++ g

/-- A base chain used in the concrete RPC scenarios: tip at height ten,
no blocks served, and no hash known on its main chain. -/
def rpcBase : BaseChain :=
  ⟨10, fun _ _ => [], fun _ => -1⟩

/-- A local chainstate used in the concrete RPC scenarios: the single
main-chain block g at height ten. -/
def rpcStore : Store :=
  [⟨"g", "pre", 10, 0⟩]

/-- A run of one publisher consisting of two to the thirty-second plus
one successful sends on a single topic. -/
def wrapRun : List SendAttempt :=
  List.replicate (2 ^ 32 + 1) ⟨"t", true⟩

/-- A sequence of chainstate operations: import a genesis at height ten,
build the chain b11-b12-b13 on top of it, reorg to the chain m11 to m14,
prune up to height twelve (which removes the fork point g), and then
re-activate the stored block b13 of the old branch. -/
def reorgOps : List ChainOp :=
  [.importOp ⟨"g", "pre", 10⟩,
   .setTipOp ⟨"b11", "g", 11⟩, .setTipOp ⟨"b12", "b11", 12⟩, .setTipOp ⟨"b13", "b12", 13⟩,
   .setTipOp ⟨"m11", "g", 11⟩, .setTipOp ⟨"m12", "m11", 12⟩, .setTipOp ⟨"m13", "m12", 13⟩,
   .setTipOp ⟨"m14", "m13", 14⟩,
   .pruneOp 12,
   .setTipOp ⟨"b13", "b12", 13⟩]

/-- The store resulting from reorgOps: the b chain is the main chain
again, while the m chain rows at heights thirteen and fourteen sit on
branch three with their parent m12 pruned, above the lowest unpruned
height eleven. -/
def reorgResult : Store :=
  [⟨"b11", "g", 11, 0⟩, ⟨"b12", "b11", 12, 0⟩, ⟨"b13", "b12", 13, 0⟩,
   ⟨"m13", "m12", 13, 3⟩, ⟨"m14", "m13", 14, 3⟩]

instance (m : CacheMap) : Decidable (cacheWF m) := by
  unfold cacheWF; infer_instance

instance (gs : GamesMap) : Decidable (gamesWF gs) := by
  unfold gamesWF; infer_instance

/-! ## Theorems -/

/-! ### Lemmas on the in-memory block cache -/

theorem mem_cacheEmplace {m : CacheMap} {x : CacheEntry} {k : Nat} {b : BlockData}
    (hx : x ∈ m) : x ∈ cacheEmplace k b m := by
  induction m with
  | nil => cases hx
  | cons e tl ih =>
      obtain ⟨k1, b1⟩ := e
      simp only [cacheEmplace]
      split
      · exact List.mem_cons_of_mem _ hx
      · split
        · exact hx
        · rcases List.mem_cons.mp hx with h | h
          · exact List.mem_cons.mpr (Or.inl h)
          · exact List.mem_cons.mpr (Or.inr (ih h))

theorem mem_of_mem_cacheEmplace {m : CacheMap} {x : CacheEntry} {k : Nat} {b : BlockData}
    (hx : x ∈ cacheEmplace k b m) : x = (k, b) ∨ x ∈ m := by
  induction m with
  | nil =>
      simp only [cacheEmplace] at hx
      rcases List.mem_cons.mp hx with h | h
      · exact Or.inl h
      · cases h
  | cons e tl ih =>
      obtain ⟨k1, b1⟩ := e
      simp only [cacheEmplace] at hx
      split at hx
      · rcases List.mem_cons.mp hx with h | h
        · exact Or.inl h
        · exact Or.inr h
      · split at hx
        · exact Or.inr hx
        · rcases List.mem_cons.mp hx with h | h
          · exact Or.inr (List.mem_cons.mpr (Or.inl h))
          · rcases ih h with h1 | h1
            · exact Or.inl h1
            · exact Or.inr (List.mem_cons.mpr (Or.inr h1))

theorem cacheEmplace_of_lookup_some {m : CacheMap} {k : Nat} {b v : BlockData}
    (hs : List.Pairwise (fun a b : CacheEntry => a.1 < b.1) m)
    (hv : cacheLookup m k = some v) : cacheEmplace k b m = m := by
  induction m with
  | nil => simp [cacheLookup] at hv
  | cons e tl ih =>
      obtain ⟨k1, b1⟩ := e
      rcases Nat.lt_trichotomy k k1 with hlt | heq | hgt
      · exfalso
        have hne : ¬ ((k1, b1) : CacheEntry).1 = k := by
          simp only
          omega
        have htl : ∀ x ∈ tl, ¬ x.1 = k := by
          intro x hxtl
          have := (List.pairwise_cons.mp hs).1 x hxtl
          simp only at this
          omega
        have : List.find? (fun e : CacheEntry => e.1 = k) ((k1, b1) :: tl) = none := by
          apply List.find?_eq_none.mpr
          intro x hx
          rcases List.mem_cons.mp hx with h | h
          · subst h; simpa using hne
          · simpa using htl x h
        simp [cacheLookup, this] at hv
      · simp [cacheEmplace, heq, Nat.lt_irrefl]
      · have h1 : ¬ k < k1 := by omega
        have h2 : ¬ k = k1 := by omega
        simp only [cacheEmplace, h1, if_false, h2]
        have hv' : cacheLookup tl k = some v := by
          have hne : (decide (((k1, b1) : CacheEntry).1 = k)) = false := by
            simp; omega
          simpa [cacheLookup, List.find?, hne] using hv
        rw [ih (List.pairwise_cons.mp hs).2 hv']

theorem cacheWF_emplace {m : CacheMap} (hwf : cacheWF m) (b : BlockData) :
    cacheWF (cacheEmplace b.height b m) := by
  obtain ⟨hsort, hkey⟩ := hwf
  constructor
  · clear hkey
    induction m with
    | nil => simp [cacheEmplace]
    | cons e tl ih =>
        obtain ⟨k1, b1⟩ := e
        obtain ⟨hhead, htail⟩ := List.pairwise_cons.mp hsort
        simp only [cacheEmplace]
        by_cases h1 : b.height < k1
        · simp only [h1, if_true]
          refine List.pairwise_cons.mpr ⟨?_, hsort⟩
          intro x hx
          rcases List.mem_cons.mp hx with h | h
          · subst h; simpa using h1
          · have := hhead x h
            simp only at this ⊢
            omega
        · simp only [h1, if_false]
          by_cases h2 : b.height = k1
          · simp only [h2, if_true]
            exact hsort
          · simp only [h2, if_false]
            refine List.pairwise_cons.mpr ⟨?_, ih htail⟩
            intro x hx
            rcases mem_of_mem_cacheEmplace hx with h | h
            · subst h
              simp only
              omega
            · exact hhead x h
  · intro e he
    rcases mem_of_mem_cacheEmplace he with h | h
    · subst h; rfl
    · exact hkey e h

theorem cacheStore_cons (m : CacheMap) (b : BlockData) (bs : List BlockData) :
    cacheStore m (b :: bs) = cacheStore (cacheEmplace b.height b m) bs := rfl

theorem cacheWF_store {m : CacheMap} (bs : List BlockData) (hwf : cacheWF m) :
    cacheWF (cacheStore m bs) := by
  induction bs generalizing m with
  | nil => exact hwf
  | cons b tl ih =>
      rw [cacheStore_cons]
      exact ih (cacheWF_emplace hwf b)

theorem cacheLookup_isSome_iff {m : CacheMap} {h : Nat} :
    (cacheLookup m h).isSome ↔ ∃ e ∈ m, e.1 = h := by
  simp [cacheLookup, List.find?_isSome]

theorem key_mem_cacheEmplace (m : CacheMap) (k : Nat) (b : BlockData) :
    ∃ e ∈ cacheEmplace k b m, e.1 = k := by
  induction m with
  | nil => exact ⟨(k, b), by simp [cacheEmplace]⟩
  | cons e tl ih =>
      obtain ⟨k1, b1⟩ := e
      simp only [cacheEmplace]
      split
      · exact ⟨(k, b), by simp⟩
      · next h1 =>
          split
          · next h2 => exact ⟨(k1, b1), by simp, h2.symm⟩
          · obtain ⟨e1, he1, hk1⟩ := ih
            exact ⟨e1, List.mem_cons_of_mem _ he1, hk1⟩

theorem key_mem_cacheStore_of_mem {m : CacheMap} {bs : List BlockData} {h : Nat}
    (hk : ∃ e ∈ m, e.1 = h) : ∃ e ∈ cacheStore m bs, e.1 = h := by
  induction bs generalizing m with
  | nil => exact hk
  | cons b tl ih =>
      rw [cacheStore_cons]
      obtain ⟨e, he, hk1⟩ := hk
      exact ih ⟨e, mem_cacheEmplace he, hk1⟩

theorem key_mem_cacheStore_of_block {m : CacheMap} {bs : List BlockData} {b : BlockData}
    (hb : b ∈ bs) : ∃ e ∈ cacheStore m bs, e.1 = b.height := by
  induction bs generalizing m with
  | nil => cases hb
  | cons x tl ih =>
      rw [cacheStore_cons]
      rcases List.mem_cons.mp hb with h | h
      · subst h
        exact key_mem_cacheStore_of_mem (key_mem_cacheEmplace m b.height b)
      · exact ih h

theorem cacheStore_of_all_present {m : CacheMap} {bs : List BlockData}
    (hwf : cacheWF m) (hall : ∀ b ∈ bs, ∃ e ∈ m, e.1 = b.height) :
    cacheStore m bs = m := by
  induction bs with
  | nil => rfl
  | cons b tl ih =>
      rw [cacheStore_cons]
      have hsome : (cacheLookup m b.height).isSome :=
        cacheLookup_isSome_iff.mpr (hall b (List.mem_cons_self b tl))
      obtain ⟨v, hv⟩ := Option.isSome_iff_exists.mp hsome
      rw [cacheEmplace_of_lookup_some hwf.1 hv]
      exact ih (fun x hx => hall x (List.mem_cons_of_mem _ hx))

theorem cacheLookup_cons_of_ne {k1 : Nat} {b1 : BlockData} {tl : CacheMap} {h : Nat}
    (hne : k1 ≠ h) : cacheLookup ((k1, b1) :: tl) h = cacheLookup tl h := by
  simp [cacheLookup, List.find?, hne]

theorem cacheLookup_cons_self (k1 : Nat) (b1 : BlockData) (tl : CacheMap) :
    cacheLookup ((k1, b1) :: tl) k1 = some b1 := by
  simp [cacheLookup, List.find?]

theorem cacheGetRangeLoop_spec :
    ∀ (n : Nat) (rest : CacheMap) (acc : List BlockData) (lastB : BlockData),
    List.Pairwise (fun a b : CacheEntry => a.1 < b.1) rest →
    (∀ e ∈ rest, e.2.height = e.1) →
    acc.getLast? = some lastB →
    (∀ e ∈ rest, lastB.height < e.1) →
    (∀ i, i < n → ∃ e ∈ rest, e.1 = lastB.height + 1 + i) →
    cacheGetRangeLoop (acc.length + n) acc rest
      = acc ++ (List.range n).map
          (fun i => (cacheLookup rest (lastB.height + 1 + i)).getD ⟨"", "", 0⟩) := by
  intro n
  induction n with
  | zero =>
      intro rest acc lastB _ _ _ _ _
      cases rest with
      | nil => simp [cacheGetRangeLoop]
      | cons e tl => simp [cacheGetRangeLoop]
  | succ n ih =>
      intro rest acc lastB hsort hkey hlast hgt hpres
      cases rest with
      | nil =>
          obtain ⟨e, he, _⟩ := hpres 0 (Nat.succ_pos n)
          cases he
      | cons e tl =>
          obtain ⟨k1, b1⟩ := e
          have hk1 : k1 = lastB.height + 1 := by
            obtain ⟨e1, he1, hke⟩ := hpres 0 (Nat.succ_pos n)
            rcases List.mem_cons.mp he1 with h | h
            · subst h; simpa using hke
            · exfalso
              have h1 := (List.pairwise_cons.mp hsort).1 e1 h
              have h2 := hgt (k1, b1) (List.mem_cons_self _ _)
              simp only at h1 h2
              omega
          have hb1 : b1.height = k1 := hkey (k1, b1) (List.mem_cons_self _ _)
          have hlt : acc.length < acc.length + (n + 1) := by omega
          have hstep : cacheGetRangeLoop (acc.length + (n + 1)) acc ((k1, b1) :: tl)
              = cacheGetRangeLoop (acc.length + (n + 1)) (acc ++ [b1]) tl := by
            simp only [cacheGetRangeLoop, hlt, if_true, hlast]
            have : b1.height = lastB.height + 1 := by omega
            simp [this]
          rw [hstep]
          have hlen : acc.length + (n + 1) = (acc ++ [b1]).length + n := by
            simp; omega
          rw [hlen]
          have hres := ih tl (acc ++ [b1]) b1 (List.pairwise_cons.mp hsort).2
            (fun e he => hkey e (List.mem_cons_of_mem _ he))
            (by simp)
            (by
              intro e he
              have := (List.pairwise_cons.mp hsort).1 e he
              simp only at this
              omega)
            (by
              intro i hi
              obtain ⟨e1, he1, hke⟩ := hpres (i + 1) (by omega)
              rcases List.mem_cons.mp he1 with h | h
              · exfalso
                have : e1.1 = k1 := by rw [h]
                omega
              · exact ⟨e1, h, by omega⟩)
          rw [hres]
          rw [List.range_succ_eq_map, List.map_cons, List.map_map]
          have h0 : (cacheLookup ((k1, b1) :: tl) (lastB.height + 1 + 0)).getD ⟨"", "", 0⟩ = b1 := by
            have : lastB.height + 1 + 0 = k1 := by omega
            rw [this, cacheLookup_cons_self]
            rfl
          rw [h0]
          have hmaps : (List.range n).map
                ((fun i => (cacheLookup ((k1, b1) :: tl) (lastB.height + 1 + i)).getD ⟨"", "", 0⟩)
                  ∘ Nat.succ)
              = (List.range n).map
                (fun i => (cacheLookup tl (b1.height + 1 + i)).getD ⟨"", "", 0⟩) := by
            apply List.map_congr_left
            intro i _
            simp only [Function.comp_apply]
            have hne : k1 ≠ lastB.height + 1 + (i + 1) := by omega
            rw [cacheLookup_cons_of_ne hne]
            have : lastB.height + 1 + (i + 1) = b1.height + 1 + i := by omega
            rw [this]
          rw [hmaps]
          simp

theorem cacheGetRange_spec {m : CacheMap} (hwf : cacheWF m) (start count : Nat)
    (hc : 1 ≤ count) (hall : ∀ i, i < count → ∃ e ∈ m, e.1 = start + i) :
    cacheGetRange m start count
      = (List.range count).map (fun i => (cacheLookup m (start + i)).getD ⟨"", "", 0⟩) := by
  induction m with
  | nil =>
      obtain ⟨e, he, _⟩ := hall 0 (by omega)
      cases he
  | cons e tl ih =>
      obtain ⟨k1, b1⟩ := e
      by_cases hk : k1 = start
      · subst hk
        have hb1 : b1.height = k1 := hwf.2 (k1, b1) (List.mem_cons_self _ _)
        obtain ⟨n, rfl⟩ : ∃ n, count = n + 1 := ⟨count - 1, by omega⟩
        simp only [cacheGetRange, if_true]
        have hres := cacheGetRangeLoop_spec n tl [b1] b1 (List.pairwise_cons.mp hwf.1).2
          (fun e he => hwf.2 e (List.mem_cons_of_mem _ he))
          (by simp)
          (by
            intro e he
            have := (List.pairwise_cons.mp hwf.1).1 e he
            simp only at this
            omega)
          (by
            intro i hi
            obtain ⟨e1, he1, hke⟩ := hall (i + 1) (by omega)
            rcases List.mem_cons.mp he1 with h | h
            · exfalso
              have : e1.1 = k1 := by rw [h]
              omega
            · exact ⟨e1, h, by omega⟩)
        rw [show ([b1] : List BlockData).length + n = n + 1 from by simp [Nat.add_comm]] at hres
        rw [hres]
        rw [List.range_succ_eq_map, List.map_cons, List.map_map]
        have h0 : (cacheLookup ((k1, b1) :: tl) (k1 + 0)).getD ⟨"", "", 0⟩ = b1 := by
          simp only [Nat.add_zero]
          rw [cacheLookup_cons_self]
          rfl
        rw [h0]
        simp only [List.singleton_append]
        congr 1
        apply List.map_congr_left
        intro i _
        simp only [Function.comp_apply]
        have hne : k1 ≠ k1 + (i + 1) := by omega
        rw [cacheLookup_cons_of_ne hne]
        have : k1 + (i + 1) = b1.height + 1 + i := by omega
        rw [this]
  -- head key below the requested range
      · have hk1lt : k1 < start := by
          obtain ⟨e1, he1, hke⟩ := hall 0 (by omega)
          rcases List.mem_cons.mp he1 with h | h
          · exfalso
            apply hk
            have : e1.1 = k1 := by rw [h]
            omega
          · have := (List.pairwise_cons.mp hwf.1).1 e1 h
            simp only at this
            omega
        have hstep : cacheGetRange ((k1, b1) :: tl) start count = cacheGetRange tl start count := by
          simp [cacheGetRange, hk]
        rw [hstep]
        rw [ih ⟨(List.pairwise_cons.mp hwf.1).2,
          fun e he => hwf.2 e (List.mem_cons_of_mem _ he)⟩
          (by
            intro i hi
            obtain ⟨e1, he1, hke⟩ := hall i hi
            rcases List.mem_cons.mp he1 with h | h
            · exfalso
              have : e1.1 = k1 := by rw [h]
              omega
            · exact ⟨e1, h, hke⟩)]
        apply List.map_congr_left
        intro i _
        have hne : k1 ≠ start + i := by omega
        rw [cacheLookup_cons_of_ne hne]

/-- C8 counterexample: the in-memory backend does not replace by height.
Storing block B at height five after block A was stored there leaves A in
place, so GetRange does not return the most recently stored block. -/
theorem cache_replace_counterexample :
    cacheGetRange (cacheStore (cacheStore [] [⟨"A", "pA", 5⟩]) [⟨"B", "pB", 5⟩]) 5 1
      ≠ [(⟨"B", "pB", 5⟩ : BlockData)] := by decide

/-- C8 (amended): for the in-memory cache backend, Store is first-wins
and idempotent: a Store of a block whose height is already present
leaves the backend unchanged; repeating the same Store call leaves the
backend unchanged; Store preserves well-formedness; and GetRange over a
range whose every height is present returns for each height the block
stored at that height (the earliest stored one). -/
theorem cache_store_first_wins (m : CacheMap) (bs : List BlockData) (start count : Nat)
    (hwf : cacheWF m) (hc : 1 ≤ count) :
    (∀ b v, cacheLookup m b.height = some v → cacheStore m [b] = m) ∧
    cacheStore (cacheStore m bs) bs = cacheStore m bs ∧
    cacheWF (cacheStore m bs) ∧
    ((∀ i, i < count → (cacheLookup m (start + i)).isSome) →
      cacheGetRange m start count
        = (List.range count).map (fun i => (cacheLookup m (start + i)).getD ⟨"", "", 0⟩)) := by
  refine ⟨?_, ?_, cacheWF_store bs hwf, ?_⟩
  · intro b v hv
    show cacheStore (cacheEmplace b.height b m) [] = m
    exact cacheEmplace_of_lookup_some hwf.1 hv
  · exact cacheStore_of_all_present (cacheWF_store bs hwf)
      (fun b hb => key_mem_cacheStore_of_block hb)
  · intro hpres
    exact cacheGetRange_spec hwf start count hc
      (fun i hi => cacheLookup_isSome_iff.mp (hpres i hi))

/-- C8 witness: the amended statement applied to a concrete well-formed
backend holding blocks at heights five and six. -/
theorem cache_store_first_wins_witness :
    cacheWF (cacheStore [] [⟨"A", "pA", 5⟩, ⟨"C", "pC", 6⟩]) ∧ 1 ≤ 2 ∧
    cacheGetRange (cacheStore [] [⟨"A", "pA", 5⟩, ⟨"C", "pC", 6⟩]) 5 2
      = (List.range 2).map
        (fun i =>
          (cacheLookup (cacheStore [] [⟨"A", "pA", 5⟩, ⟨"C", "pC", 6⟩]) (5 + i)).getD
            ⟨"", "", 0⟩) := by
  refine ⟨by decide, by decide, ?_⟩
  exact (cache_store_first_wins (cacheStore [] [⟨"A", "pA", 5⟩, ⟨"C", "pC", 6⟩]) []
    5 2 (by decide) (by decide)).2.2.2 (by decide)

/-! ### Lemmas on the tracked-games map -/

theorem depthOf_pos_iff {gs : GamesMap} {g : String} (hwf : gamesWF gs) :
    0 < depthOf gs g ↔ ∃ e ∈ gs, e.1 = g := by
  unfold depthOf
  cases hfind : gs.find? (fun e => e.1 = g) with
  | none =>
      simp only [Nat.lt_irrefl, false_iff]
      intro ⟨e, he, hk⟩
      have := List.find?_eq_none.mp hfind e he
      simp [hk] at this
  | some e =>
      have hp := List.find?_some hfind
      have hmem := List.mem_of_find?_eq_some hfind
      have hkey : e.1 = g := by simpa using hp
      have hpos := hwf.2 e hmem
      simp only [true_iff, show 0 < e.2 from by omega]
      exact ⟨e, hmem, hkey⟩

theorem depthOf_trackGame_self (gs : GamesMap) (g : String) :
    depthOf (trackGame gs g) g = depthOf gs g + 1 := by
  unfold trackGame depthOf
  cases hfind : gs.find? (fun e => e.1 = g) with
  | none =>
      rw [List.find?_append, hfind]
      simp
  | some e =>
      have hpred : (fun q : String × Nat =>
          decide ((if q.1 = g then (q.1, e.2 + 1) else q).1 = g))
          = (fun q : String × Nat => decide (q.1 = g)) := by
        funext q
        by_cases hq : q.1 = g <;> simp [hq]
      rw [List.find?_map]
      simp only [Function.comp_def]
      rw [show (fun q : String × Nat =>
            decide ((if q.1 = g then (q.1, e.2 + 1) else q).1 = g))
          = (fun q : String × Nat => decide (q.1 = g)) from hpred]
      rw [hfind]
      have hkey : e.1 = g := by simpa using List.find?_some hfind
      simp [hkey]

theorem depthOf_untrackGame_self (gs : GamesMap) (g : String) :
    depthOf (untrackGame gs g) g = depthOf gs g - 1 := by
  unfold untrackGame depthOf
  cases hfind : gs.find? (fun e => e.1 = g) with
  | none => rw [hfind]; simp
  | some e =>
      by_cases hz : e.2 - 1 = 0
      · simp only [hz, if_true]
        have : List.find? (fun q : String × Nat => q.1 = g)
            (gs.filter (fun q => q.1 ≠ g)) = none := by
          apply List.find?_eq_none.mpr
          intro x hx
          have := (List.mem_filter.mp hx).2
          simpa using this
        rw [this]
      · simp only [hz, if_false]
        have hpred : (fun q : String × Nat =>
            decide ((if q.1 = g then (q.1, e.2 - 1) else q).1 = g))
            = (fun q : String × Nat => decide (q.1 = g)) := by
          funext q
          by_cases hq : q.1 = g <;> simp [hq]
        rw [List.find?_map]
        simp only [Function.comp_def]
        rw [show (fun q : String × Nat =>
              decide ((if q.1 = g then (q.1, e.2 - 1) else q).1 = g))
            = (fun q : String × Nat => decide (q.1 = g)) from hpred]
        rw [hfind]
        have hkey : e.1 = g := by simpa using List.find?_some hfind
        simp [hkey]

theorem gamesWF_trackGame {gs : GamesMap} (hwf : gamesWF gs) (g : String) :
    gamesWF (trackGame gs g) := by
  unfold trackGame
  cases hfind : gs.find? (fun e => e.1 = g) with
  | none =>
      constructor
      · rw [List.map_append]
        apply List.Nodup.append hwf.1 (by simp)
        intro x hx1 hx2
        simp only [List.map_cons, List.map_nil, List.mem_singleton] at hx2
        subst hx2
        obtain ⟨e, he, hke⟩ := List.mem_map.mp hx1
        have := List.find?_eq_none.mp hfind e he
        simp [hke] at this
      · intro e he
        rcases List.mem_append.mp he with h | h
        · exact hwf.2 e h
        · simp only [List.mem_singleton] at h
          subst h
          omega
  | some e0 =>
      constructor
      · have : (trackGame gs g).map Prod.fst = gs.map Prod.fst := by
          unfold trackGame
          rw [hfind, List.map_map]
          apply List.map_congr_left
          intro q _
          by_cases hq : q.1 = g <;> simp [hq]
        unfold trackGame at this
        rw [hfind] at this
        rw [this]
        exact hwf.1
      · intro e he
        obtain ⟨q, hq, hqe⟩ := List.mem_map.mp he
        by_cases hk : q.1 = g
        · simp only [hk, if_true] at hqe
          subst hqe
          omega
        · simp only [hk, if_false] at hqe
          subst hqe
          exact hwf.2 q hq

theorem gamesWF_untrackGame {gs : GamesMap} (hwf : gamesWF gs) (g : String) :
    gamesWF (untrackGame gs g) := by
  unfold untrackGame
  cases hfind : gs.find? (fun e => e.1 = g) with
  | none => exact hwf
  | some e0 =>
      by_cases hz : e0.2 - 1 = 0
      · simp only [hz, if_true]
        constructor
        · exact List.Nodup.sublist (List.Sublist.map _ (List.filter_sublist gs)) hwf.1
        · intro e he
          exact hwf.2 e (List.mem_of_mem_filter he)
      · simp only [hz, if_false]
        constructor
        · have : (gs.map (fun q => if q.1 = g then (q.1, e0.2 - 1) else q)).map Prod.fst
              = gs.map Prod.fst := by
            rw [List.map_map]
            apply List.map_congr_left
            intro q _
            by_cases hq : q.1 = g <;> simp [hq]
          rw [this]
          exact hwf.1
        · intro e he
          obtain ⟨q, hq, hqe⟩ := List.mem_map.mp he
          by_cases hk : q.1 = g
          · simp only [hk, if_true] at hqe
            subst hqe
            omega
          · simp only [hk, if_false] at hqe
            subst hqe
            exact hwf.2 q hq

theorem trackCount_cons_track (l : List TrackOp) :
    trackCount (.track :: l) = trackCount l + 1 := by
  simp [trackCount, List.filter_cons]

theorem trackCount_cons_untrack (l : List TrackOp) :
    trackCount (.untrack :: l) = trackCount l := by
  simp [trackCount, List.filter_cons]

theorem untrackCount_cons_track (l : List TrackOp) :
    untrackCount (.track :: l) = untrackCount l := by
  simp [untrackCount, List.filter_cons]

theorem untrackCount_cons_untrack (l : List TrackOp) :
    untrackCount (.untrack :: l) = untrackCount l + 1 := by
  simp [untrackCount, List.filter_cons]

theorem applyTrackOps_wf_depth (g : String) (ops : List TrackOp) :
    ∀ gs : GamesMap, gamesWF gs →
      gamesWF (applyTrackOps g gs ops) ∧
      depthOf (applyTrackOps g gs ops) g = ops.foldl depthStep (depthOf gs g) := by
  induction ops with
  | nil => intro gs hwf; exact ⟨hwf, rfl⟩
  | cons op tl ih =>
      intro gs hwf
      cases op with
      | track =>
          obtain ⟨h1, h2⟩ := ih (trackGame gs g) (gamesWF_trackGame hwf g)
          refine ⟨h1, ?_⟩
          simp only [applyTrackOps, List.foldl_cons]
          rw [h2, depthOf_trackGame_self]
          rfl
      | untrack =>
          obtain ⟨h1, h2⟩ := ih (untrackGame gs g) (gamesWF_untrackGame hwf g)
          refine ⟨h1, ?_⟩
          simp only [applyTrackOps, List.foldl_cons]
          rw [h2, depthOf_untrackGame_self]
          rfl

theorem netDepth_eq_counts :
    ∀ (ops : List TrackOp) (d : Nat),
      (∀ pre, pre <+: ops → untrackCount pre ≤ d + trackCount pre) →
      ((ops.foldl depthStep d : Nat) : Int)
        = (d : Int) + trackCount ops - untrackCount ops := by
  intro ops
  induction ops with
  | nil => intro d _; simp [trackCount, untrackCount]
  | cons op tl ih =>
      intro d hpre
      cases op with
      | track =>
          simp only [List.foldl_cons]
          have hstep : depthStep d .track = d + 1 := rfl
          rw [hstep]
          have := ih (d + 1) (by
            intro pre hp
            have h2 := hpre (.track :: pre) (by
              obtain ⟨t, ht⟩ := hp
              exact ⟨t, by simp [ht]⟩)
            rw [trackCount_cons_track, untrackCount_cons_track] at h2
            omega)
          rw [this, trackCount_cons_track, untrackCount_cons_track]
          push_cast
          ring
      | untrack =>
          simp only [List.foldl_cons]
          have hstep : depthStep d .untrack = d - 1 := rfl
          rw [hstep]
          have hd : 1 ≤ d := by
            have h2 := hpre [.untrack] ⟨tl, rfl⟩
            simp [trackCount, untrackCount, List.filter_cons] at h2
            omega
          have := ih (d - 1) (by
            intro pre hp
            have h2 := hpre (.untrack :: pre) (by
              obtain ⟨t, ht⟩ := hp
              exact ⟨t, by simp [ht]⟩)
            rw [trackCount_cons_untrack, untrackCount_cons_untrack] at h2
            omega)
          rw [this, trackCount_cons_untrack, untrackCount_cons_untrack]
          have hcast : ((d - 1 : Nat) : Int) = (d : Int) - 1 := by omega
          rw [hcast]
          push_cast
          ring

theorem mkTopic_inj {cmd a b : String} (h : mkTopic cmd a = mkTopic cmd b) : a = b := by
  unfold mkTopic at h
  have hdata := congrArg String.data h
  simp only [String.data_append] at hdata
  have := List.append_cancel_left hdata
  exact String.ext this

theorem mkTopic_mem_iff {gs : GamesMap} {cmd g : String} (hwf : gamesWF gs) :
    mkTopic cmd g ∈ sendBlockTopics gs cmd ↔ 0 < depthOf gs g := by
  rw [depthOf_pos_iff hwf]
  unfold sendBlockTopics
  constructor
  · intro hmem
    obtain ⟨e, he, hme⟩ := List.mem_map.mp hmem
    exact ⟨e, he, (mkTopic_inj hme.symm).symm⟩
  · intro ⟨e, he, hk⟩
    apply List.mem_map.mpr
    exact ⟨e, he, by rw [hk]; rfl⟩

/-- C9 counterexample: after the call sequence UntrackGame, TrackGame the
tracked depth is one, while the number of TrackGame calls minus the
number of UntrackGame calls is zero: UntrackGame of an untracked game is
a silent no-op, so the depth is not the difference of the call counts. -/
theorem tracked_depth_counterexample :
    ¬ ((depthOf (applyTrackOps "game" [] [.untrack, .track]) "game" : Int)
        = (trackCount [TrackOp.untrack, TrackOp.track] : Int)
          - untrackCount [TrackOp.untrack, TrackOp.track]) := by decide

/-- C9 (amended): for every game id and every finite sequence of
TrackGame and UntrackGame calls, the tracked depth after the sequence is
the fold that increments on TrackGame and decrements saturating at zero
on UntrackGame; whenever every prefix of the sequence has at least as
many TrackGame as UntrackGame calls, this equals the number of TrackGame
minus UntrackGame calls; and block notifications are emitted for the
game if and only if its depth is positive. -/
theorem tracked_games_depth (g cmd : String) (ops : List TrackOp) :
    depthOf (applyTrackOps g [] ops) g = netDepth ops ∧
    ((∀ pre, pre <+: ops → untrackCount pre ≤ trackCount pre) →
      (netDepth ops : Int) = (trackCount ops : Int) - untrackCount ops) ∧
    (mkTopic cmd g ∈ sendBlockTopics (applyTrackOps g [] ops) cmd ↔
      0 < depthOf (applyTrackOps g [] ops) g) := by
  have hwf0 : gamesWF [] := ⟨List.nodup_nil, by intro e he; cases he⟩
  obtain ⟨hwf, hdepth⟩ := applyTrackOps_wf_depth g ops [] hwf0
  refine ⟨?_, ?_, mkTopic_mem_iff hwf⟩
  · rw [hdepth]; rfl
  · intro hpre
    have := netDepth_eq_counts ops 0 (by
      intro pre hp
      have := hpre pre hp
      omega)
    unfold netDepth
    omega

/-- C9 witness: the amended statement at a concrete call sequence. -/
theorem tracked_games_depth_witness :
    (∀ pre, pre <+: [TrackOp.track, .track, .untrack] →
      untrackCount pre ≤ trackCount pre) ∧
    (netDepth [TrackOp.track, .track, .untrack] : Int)
      = (trackCount [TrackOp.track, .track, .untrack] : Int)
        - untrackCount [TrackOp.track, .track, .untrack] := by
  have hpre : ∀ pre, pre <+: [TrackOp.track, .track, .untrack] →
      untrackCount pre ≤ trackCount pre := by
    intro pre hp
    have hlen : pre.length ≤ 3 := by
      have := hp.length_le
      simpa using this
    have htake := List.prefix_iff_eq_take.mp hp
    have hcases : pre.length = 0 ∨ pre.length = 1 ∨ pre.length = 2 ∨ pre.length = 3 := by
      omega
    rcases hcases with h | h | h | h <;>
      · rw [htake, h]
        decide
  exact ⟨hpre, (tracked_games_depth "game" "game-block-attach"
    [TrackOp.track, .track, .untrack]).2.1 hpre⟩

/-! ### Lemmas on the ZMQ sequence counters -/

theorem publishedSeqs_zmqRun_general :
    ∀ (run : List SendAttempt) (st : SeqState) (t : String) (n : Nat),
      st t = n % 2 ^ 32 →
      publishedSeqs st run t
          = (List.range (successCount run t)).map (fun i => (n + i) % 2 ^ 32) ∧
      zmqRun st run t = (n + successCount run t) % 2 ^ 32 := by
  intro run
  induction run with
  | nil =>
      intro st t n hst
      refine ⟨by simp [publishedSeqs, successCount], ?_⟩
      simpa [zmqRun, successCount] using hst
  | cons a rest ih =>
      intro st t n hst
      by_cases hok : a.firstOk
      · by_cases htop : a.topic = t
        · subst htop
          have hupd : (seqSend st a.topic) a.topic = (n + 1) % 2 ^ 32 := by
            simp only [seqSend]
            rw [Function.update_same, hst, Nat.mod_add_mod]
          obtain ⟨ih1, ih2⟩ := ih (seqSend st a.topic) a.topic (n + 1) hupd
          have hcount : successCount (a :: rest) a.topic
              = successCount rest a.topic + 1 := by
            simp [successCount, List.filter_cons, hok]
          have hhead : publishedSeqs st (a :: rest) a.topic
              = [st a.topic] ++ publishedSeqs (seqSend st a.topic) rest a.topic := by
            simp [publishedSeqs, hok]
          constructor
          · rw [hhead, ih1, hcount, List.range_succ_eq_map, List.map_cons, List.map_map]
            simp only [List.singleton_append, Nat.add_zero]
            rw [hst]
            congr 1
            apply List.map_congr_left
            intro i _
            simp only [Function.comp_apply]
            congr 1
            omega
          · have hrun : zmqRun st (a :: rest) a.topic
                = zmqRun (seqSend st a.topic) rest a.topic := by
              simp [zmqRun, hok]
            rw [hrun, ih2, hcount]
            congr 1
            omega
        · have hupd : (seqSend st a.topic) t = n % 2 ^ 32 := by
            simp only [seqSend]
            rw [Function.update_noteq (fun hne => htop hne.symm), hst]
          obtain ⟨ih1, ih2⟩ := ih (seqSend st a.topic) t n hupd
          have hcount : successCount (a :: rest) t = successCount rest t := by
            simp [successCount, List.filter_cons, hok, htop]
          have hhead : publishedSeqs st (a :: rest) t
              = publishedSeqs (seqSend st a.topic) rest t := by
            simp [publishedSeqs, hok, htop]
          have hrun : zmqRun st (a :: rest) t
              = zmqRun (seqSend st a.topic) rest t := by
            simp [zmqRun, hok]
          exact ⟨by rw [hhead, ih1, hcount], by rw [hrun, ih2, hcount]⟩
      · obtain ⟨ih1, ih2⟩ := ih st t n hst
        have hcount : successCount (a :: rest) t = successCount rest t := by
          simp [successCount, List.filter_cons, hok]
        have hhead : publishedSeqs st (a :: rest) t = publishedSeqs st rest t := by
          simp [publishedSeqs, hok]
        have hrun : zmqRun st (a :: rest) t = zmqRun st rest t := by
          simp [zmqRun, hok]
        exact ⟨by rw [hhead, ih1, hcount], by rw [hrun, ih2, hcount]⟩

theorem successCount_replicate (n : Nat) :
    successCount (List.replicate n (⟨"t", true⟩ : SendAttempt)) "t" = n := by
  induction n with
  | zero => rfl
  | succ k ih =>
      rw [List.replicate_succ]
      simp only [successCount, List.filter_cons] at ih ⊢
      simp only [show ((⟨"t", true⟩ : SendAttempt).firstOk
          && (⟨"t", true⟩ : SendAttempt).topic == "t") = true from rfl, if_true,
        List.length_cons]
      omega

/-- C6 counterexample: the per-topic sequence counter is a 32-bit
unsigned integer and wraps: over a run with two to the thirty-second
plus one successful sends on one topic, the published values are not the
initial segment of the naturals, the wrapped value zero appearing twice. -/
theorem zmq_seq_wrap_counterexample :
    ¬ (publishedSeqs initSeq wrapRun "t"
        = List.range (publishedSeqs initSeq wrapRun "t").length) := by
  intro h
  have hgen := (publishedSeqs_zmqRun_general wrapRun initSeq "t" 0 (Nat.zero_mod _).symm).1
  rw [show successCount wrapRun "t" = 2 ^ 32 + 1 from successCount_replicate _] at hgen
  have hlen : (publishedSeqs initSeq wrapRun "t").length = 2 ^ 32 + 1 := by
    rw [hgen]; simp
  rw [hlen] at h
  rw [hgen] at h
  have h1 := congrArg (fun l => l[2 ^ 32]?) h
  simp only [List.getElem?_map] at h1
  rw [List.getElem?_range (by omega)] at h1
  simp only [Option.map_some, Nat.zero_add, Nat.mod_self, Option.some.injEq] at h1
  exact absurd h1.symm (by norm_num)

/-- C6 (amended): for every topic string, over a whole run of one
publisher the published third-frame values are exactly the initial
segment of the naturals reduced modulo two to the thirty-two: the 32-bit
counter of a topic starts at zero, is incremented by one (wrapping) only
after a complete successful send, and a send whose first frame fails
leaves the counter unchanged, so for fewer than two to the thirty-second
sends the values are exactly zero, one, two and so on with no gaps,
duplicates or regressions. -/
theorem zmq_sequence_numbers (run : List SendAttempt) (t : String) :
    publishedSeqs initSeq run t
        = (List.range (successCount run t)).map (fun i => i % 2 ^ 32) ∧
    zmqRun initSeq run t = successCount run t % 2 ^ 32 := by
  have h := publishedSeqs_zmqRun_general run initSeq t 0 (Nat.zero_mod _).symm
  simpa using h

/-! ### Lemmas on the pending-moves gate -/

theorem pendingRun_general {α : Type} :
    ∀ (evts : List (PendingEvent α)) (st : PendingState α),
      (∀ e ∈ evts, goodEvent e) →
      (st.pendingsQueue ≠ [] → st.chainstateTip ≠ st.notificationTip) →
      ∃ st1 out, pendingRun st evts = some (st1, out) ∧
        (st1.pendingsQueue ≠ [] → st1.chainstateTip ≠ st1.notificationTip) ∧
        (st1.chainstateTip = "" ↔
          (st.chainstateTip = "" ∧ ∀ e ∈ evts, ¬ isChainstateTip e)) := by
  intro evts
  induction evts with
  | nil =>
      intro st _ hinv
      exact ⟨st, [], rfl, hinv, by simp [pendingRun]⟩
  | cons e rest ih =>
      intro st hgood hinv
      have hgrest : ∀ x ∈ rest, goodEvent x :=
        fun x hx => hgood x (List.mem_cons_of_mem _ hx)
      cases e with
      | notifiedTip tip =>
          have htip : tip ≠ "" := hgood _ (List.mem_cons_self _ _)
          have hstep : pendingStep st (.notifiedTip tip)
              = some ({ st with pendingsQueue := [], notificationTip := tip }, []) := by
            simp [pendingStep, htip]
          obtain ⟨st1, out, hrun, hinv1, hcs⟩ :=
            ih { st with pendingsQueue := [], notificationTip := tip } hgrest (by simp)
          refine ⟨st1, [] ++ out, ?_, hinv1, ?_⟩
          · simp only [pendingRun, hstep, hrun]
          · rw [hcs]
            simp [isChainstateTip]
      | pendingMoves b =>
          have hb : goodEvent (PendingEvent.pendingMoves b : PendingEvent α) := trivial
          by_cases hcs0 : st.chainstateTip = ""
          · have hstep : pendingStep st (.pendingMoves b) = some (st, []) := by
              simp [pendingStep, hcs0]
            obtain ⟨st1, out, hrun, hinv1, hcs⟩ := ih st hgrest hinv
            refine ⟨st1, [] ++ out, ?_, hinv1, ?_⟩
            · simp only [pendingRun, hstep, hrun]
            · rw [hcs]
              simp [isChainstateTip]
          · by_cases heq : st.chainstateTip = st.notificationTip
            · have hq : st.pendingsQueue = [] := by
                by_contra hne
                exact hinv hne heq
              have hnt : st.notificationTip ≠ "" := heq ▸ hcs0
              have hstep : pendingStep st (.pendingMoves b) = some (st, [b]) := by
                simp [pendingStep, hcs0, heq, hq, hnt]
              obtain ⟨st1, out, hrun, hinv1, hcs⟩ := ih st hgrest hinv
              refine ⟨st1, [b] ++ out, ?_, hinv1, ?_⟩
              · simp only [pendingRun, hstep, hrun]
              · rw [hcs]
                simp [isChainstateTip]
            · have hstep : pendingStep st (.pendingMoves b)
                  = some ({ st with pendingsQueue := st.pendingsQueue ++ [b] }, []) := by
                simp [pendingStep, hcs0, heq]
              obtain ⟨st1, out, hrun, hinv1, hcs⟩ :=
                ih { st with pendingsQueue := st.pendingsQueue ++ [b] } hgrest
                  (by intro _; exact heq)
              refine ⟨st1, [] ++ out, ?_, hinv1, ?_⟩
              · simp only [pendingRun, hstep, hrun]
              · rw [hcs]
                simp [isChainstateTip]
      | chainstateTip tip =>
          have htip : tip ≠ "" := hgood _ (List.mem_cons_self _ _)
          by_cases heq : tip = st.notificationTip
          · have hnt : st.notificationTip ≠ "" := heq ▸ htip
            have hstep : pendingStep st (.chainstateTip tip)
                = some ({ st with chainstateTip := tip, pendingsQueue := [] },
                    st.pendingsQueue) := by
              simp [pendingStep, htip, heq, hnt]
            obtain ⟨st1, out, hrun, hinv1, hcs⟩ :=
              ih { st with chainstateTip := tip, pendingsQueue := [] } hgrest (by simp)
            refine ⟨st1, st.pendingsQueue ++ out, ?_, hinv1, ?_⟩
            · simp only [pendingRun, hstep, hrun]
            · rw [hcs]
              simp [isChainstateTip, htip]
          · have hstep : pendingStep st (.chainstateTip tip)
                = some ({ st with chainstateTip := tip }, []) := by
              simp [pendingStep, htip, heq]
            obtain ⟨st1, out, hrun, hinv1, hcs⟩ :=
              ih { st with chainstateTip := tip } hgrest (by intro _; exact heq)
            refine ⟨st1, [] ++ out, ?_, hinv1, ?_⟩
            · simp only [pendingRun, hstep, hrun]
            · rw [hcs]
              simp [isChainstateTip, htip]

/-- C7: behaviour of the PendingManager.  Every PendingMoves batch
arriving while no ChainstateTip has ever been seen is dropped with the
state unchanged; afterwards a batch is forwarded immediately exactly
when the recorded chainstate tip equals the recorded notification tip
and queued (in arrival order) otherwise; every NotifiedTip discards the
queued batches and updates the notification tip; a ChainstateTip whose
hash equals the notification tip forwards all still-queued batches in
order; and over any run of events with non-empty tip hashes the manager
never hits an aborting CHECK, with the chainstate tip empty exactly
until the first ChainstateTip event. -/
theorem pending_gate_behaviour (α : Type) :
    (∀ (st : PendingState α) (b : α), st.chainstateTip = "" →
      pendingStep st (.pendingMoves b) = some (st, [])) ∧
    (∀ (st : PendingState α) (b : α), st.chainstateTip ≠ "" →
      st.chainstateTip = st.notificationTip → st.pendingsQueue = [] →
      pendingStep st (.pendingMoves b) = some (st, [b])) ∧
    (∀ (st : PendingState α) (b : α), st.chainstateTip ≠ "" →
      st.chainstateTip ≠ st.notificationTip →
      pendingStep st (.pendingMoves b)
        = some ({ st with pendingsQueue := st.pendingsQueue ++ [b] }, [])) ∧
    (∀ (st : PendingState α) (tip : String), tip ≠ "" →
      pendingStep st (.notifiedTip tip)
        = some ({ st with pendingsQueue := [], notificationTip := tip }, [])) ∧
    (∀ (st : PendingState α) (tip : String), tip ≠ "" → tip = st.notificationTip →
      pendingStep st (.chainstateTip tip)
        = some ({ st with chainstateTip := tip, pendingsQueue := [] },
            st.pendingsQueue)) ∧
    (∀ evts : List (PendingEvent α), (∀ e ∈ evts, goodEvent e) →
      ∃ st1 out, pendingRun (pendingInit α) evts = some (st1, out) ∧
        (st1.chainstateTip = "" ↔ ∀ e ∈ evts, ¬ isChainstateTip e)) := by
  refine ⟨?_, ?_, ?_, ?_, ?_, ?_⟩
  · intro st b h
    simp [pendingStep, h]
  · intro st b h1 h2 h3
    have hnt : st.notificationTip ≠ "" := h2 ▸ h1
    simp [pendingStep, h1, h2, h3, hnt]
  · intro st b h1 h2
    simp [pendingStep, h1, h2]
  · intro st tip h
    simp [pendingStep, h]
  · intro st tip h1 h2
    have hnt : st.notificationTip ≠ "" := h2 ▸ h1
    simp [pendingStep, h1, h2, hnt]
  · intro evts hgood
    obtain ⟨st1, out, hrun, _, hcs⟩ :=
      pendingRun_general evts (pendingInit α) hgood (by simp [pendingInit])
    refine ⟨st1, out, hrun, ?_⟩
    rw [hcs]
    simp [pendingInit]

/-- C7 witness: the parts of the statement applied at concrete states
and a concrete run of events. -/
theorem pending_gate_behaviour_witness :
    pendingStep (pendingInit Nat) (.pendingMoves 7) = some (pendingInit Nat, []) ∧
    pendingStep (⟨"h", "h", []⟩ : PendingState Nat) (.pendingMoves 7)
      = some (⟨"h", "h", []⟩, [7]) ∧
    pendingStep (⟨"h", "k", [1]⟩ : PendingState Nat) (.pendingMoves 7)
      = some (⟨"h", "k", [1, 7]⟩, []) ∧
    pendingStep (⟨"h", "k", [1]⟩ : PendingState Nat) (.notifiedTip "m")
      = some (⟨"h", "m", []⟩, []) ∧
    pendingStep (⟨"h", "k", [1, 2]⟩ : PendingState Nat) (.chainstateTip "k")
      = some (⟨"k", "k", []⟩, [1, 2]) ∧
    ∃ st1 out,
      pendingRun (pendingInit Nat)
          [.notifiedTip "a", .pendingMoves 5, .chainstateTip "a"] = some (st1, out) ∧
      (st1.chainstateTip = "" ↔
        ∀ e ∈ ([.notifiedTip "a", .pendingMoves 5, .chainstateTip "a"]
          : List (PendingEvent Nat)), ¬ isChainstateTip e) := by
  have h := pending_gate_behaviour Nat
  refine ⟨h.1 (pendingInit Nat) 7 rfl,
    h.2.1 ⟨"h", "h", []⟩ 7 (by decide) rfl rfl,
    ?_, h.2.2.2.1 ⟨"h", "k", [1]⟩ "m" (by decide),
    h.2.2.2.2.1 ⟨"h", "k", [1, 2]⟩ "k" (by decide) rfl,
    h.2.2.2.2.2 [.notifiedTip "a", .pendingMoves 5, .chainstateTip "a"]
      (by intro e he; fin_cases he <;> simp [goodEvent])⟩
  have h3 := h.2.2.1 ⟨"h", "k", [1]⟩ 7 (by decide) (by decide)
  simpa using h3

/-! ### Lemmas on SetTip and the chainstate -/

theorem insertDesc_ne_nil (r : BlockRec) (l : List BlockRec) : insertDesc r l ≠ [] := by
  cases l with
  | nil => simp [insertDesc]
  | cons q tl =>
      simp only [insertDesc]
      split <;> simp

theorem sortDesc_eq_nil_iff {l : List BlockRec} : sortDesc l = [] ↔ l = [] := by
  cases l with
  | nil => simp [sortDesc]
  | cons r tl =>
      simp only [sortDesc]
      constructor
      · intro h
        exact absurd h (insertDesc_ne_nil _ _)
      · intro h
        cases h

theorem tipRow_eq_none_iff {s : Store} : tipRow s = none ↔ mainRows s = [] := by
  unfold tipRow
  rw [List.head?_eq_none_iff, sortDesc_eq_nil_iff]

theorem setTip_noBlocks_iff (s : Store) (blk : BlockData) :
    setTip s blk = .noBlocks ↔ mainRows s = [] := by
  rw [← tipRow_eq_none_iff]
  cases h1 : tipRow s with
  | none => simp [setTip, h1]
  | some tip =>
      cases h2 : findByHash s blk.hash with
      | some r =>
          by_cases hc : blk.parent = r.parent ∧ blk.height = r.height
          · cases h3 : markAsTip s blk with
            | none => simp [setTip, h1, h2, hc, h3]
            | some s1 => simp [setTip, h1, h2, hc, h3]
          · simp [setTip, h1, h2, hc]
      | none =>
          cases h3 : findByHash s blk.parent with
          | none => simp [setTip, h1, h2, h3]
          | some p =>
              by_cases hc : blk.height = p.height + 1
              · cases h4 : markAsTip (insertBlock s blk (getFreeBranchNumber s)) blk with
                | none => simp [setTip, h1, h2, h3, hc, h4]
                | some s1 => simp [setTip, h1, h2, h3, hc, h4]
              · simp [setTip, h1, h2, h3, hc]

theorem setTip_parentUnknown_iff (s : Store) (blk : BlockData) :
    setTip s blk = .parentUnknown ↔
      (mainRows s ≠ [] ∧ findByHash s blk.hash = none ∧ findByHash s blk.parent = none) := by
  cases h1 : tipRow s with
  | none =>
      have hm : mainRows s = [] := tipRow_eq_none_iff.mp h1
      simp [setTip, h1, hm]
  | some tip =>
      have hm : mainRows s ≠ [] := by
        intro h
        rw [← tipRow_eq_none_iff] at h
        rw [h1] at h
        cases h
      cases h2 : findByHash s blk.hash with
      | some r =>
          by_cases hc : blk.parent = r.parent ∧ blk.height = r.height
          · cases h3 : markAsTip s blk with
            | none => simp [setTip, h1, h2, hc, h3]
            | some s1 => simp [setTip, h1, h2, hc, h3]
          · simp [setTip, h1, h2, hc]
      | none =>
          cases h3 : findByHash s blk.parent with
          | none => simp [setTip, h1, h2, h3, hm]
          | some p =>
              by_cases hc : blk.height = p.height + 1
              · cases h4 : markAsTip (insertBlock s blk (getFreeBranchNumber s)) blk with
                | none => simp [setTip, h1, h2, h3, hc, h4]
                | some s1 => simp [setTip, h1, h2, h3, hc, h4]
              · simp [setTip, h1, h2, h3, hc]

theorem setTip_abort_of_mismatch (s : Store) (blk : BlockData)
    (hm : mainRows s ≠ []) (r : BlockRec) (hr : findByHash s blk.hash = some r)
    (hne : ¬ (blk.parent = r.parent ∧ blk.height = r.height)) :
    setTip s blk = .abort := by
  cases h1 : tipRow s with
  | none => exact absurd (tipRow_eq_none_iff.mp h1) hm
  | some tip => simp [setTip, h1, hr, hne]

theorem setTip_abort_of_height_mismatch (s : Store) (blk : BlockData)
    (hm : mainRows s ≠ []) (hh : findByHash s blk.hash = none) (p : BlockRec)
    (hp : findByHash s blk.parent = some p) (hne : blk.height ≠ p.height + 1) :
    setTip s blk = .abort := by
  cases h1 : tipRow s with
  | none => exact absurd (tipRow_eq_none_iff.mp h1) hm
  | some tip => simp [setTip, h1, hh, hp, hne]

/-- C10: SetTip returns false with the store unchanged in exactly two
situations: the store holds no main-chain block at all, or neither the
hash of the block nor its parent is stored; if instead the block is
stored with a different recorded parent or height, or its parent is
stored at a height other than one below the block, SetTip aborts the
whole process by a CHECK failure rather than returning false. -/
theorem setTip_failure_modes (s : Store) (blk : BlockData) :
    ((setTip s blk = .noBlocks ∨ setTip s blk = .parentUnknown) ↔
      (mainRows s = [] ∨
        (findByHash s blk.hash = none ∧ findByHash s blk.parent = none))) ∧
    ((setTip s blk = .noBlocks ∨ setTip s blk = .parentUnknown) →
      applyOp s (.setTipOp blk) = some s) ∧
    (mainRows s ≠ [] → ∀ r, findByHash s blk.hash = some r →
      ¬ (blk.parent = r.parent ∧ blk.height = r.height) → setTip s blk = .abort) ∧
    (mainRows s ≠ [] → findByHash s blk.hash = none →
      ∀ p, findByHash s blk.parent = some p → blk.height ≠ p.height + 1 →
      setTip s blk = .abort) := by
  refine ⟨?_, ?_, ?_, ?_⟩
  · constructor
    · intro h
      rcases h with h | h
      · exact Or.inl ((setTip_noBlocks_iff s blk).mp h)
      · exact Or.inr ((setTip_parentUnknown_iff s blk).mp h).2
    · intro h
      rcases h with h | h
      · exact Or.inl ((setTip_noBlocks_iff s blk).mpr h)
      · by_cases hm : mainRows s = []
        · exact Or.inl ((setTip_noBlocks_iff s blk).mpr hm)
        · exact Or.inr ((setTip_parentUnknown_iff s blk).mpr ⟨hm, h.1, h.2⟩)
  · intro h
    rcases h with h | h <;> simp [applyOp, h]
  · intro hm r hr hne
    exact setTip_abort_of_mismatch s blk hm r hr hne
  · intro hm hh p hp hne
    exact setTip_abort_of_height_mismatch s blk hm hh p hp hne

/-- C10 witness: the failure modes at concrete stores, a mismatched
re-attach aborting and a wrong-height attach aborting. -/
theorem setTip_failure_modes_witness :
    ((setTip [] ⟨"b", "a", 11⟩ = .noBlocks ∨ setTip [] ⟨"b", "a", 11⟩ = .parentUnknown)
      ↔ (mainRows [] = [] ∨
          (findByHash [] "b" = none ∧ findByHash [] "a" = none))) ∧
    mainRows rpcStore ≠ [] ∧ findByHash rpcStore "g" = some ⟨"g", "pre", 10, 0⟩ ∧
    setTip rpcStore ⟨"g", "other", 10⟩ = .abort ∧
    findByHash rpcStore "new" = none ∧
    setTip rpcStore ⟨"new", "g", 99⟩ = .abort := by
  refine ⟨(setTip_failure_modes [] ⟨"b", "a", 11⟩).1, by decide, by decide, ?_, by decide, ?_⟩
  · exact (setTip_failure_modes rpcStore ⟨"g", "other", 10⟩).2.2.1 (by decide)
      ⟨"g", "pre", 10, 0⟩ (by decide) (by decide)
  · exact (setTip_failure_modes rpcStore ⟨"new", "g", 99⟩).2.2.2 (by decide) (by decide)
      ⟨"g", "pre", 10, 0⟩ (by decide) (by decide)

/-! ### Lemmas on ImportTip -/

theorem getTip_getLowest_of_const {s : Store} {a : Nat}
    (hne : mainRows s ≠ []) (hall : ∀ r ∈ mainRows s, r.height = a) :
    getTipHeight s = a ∧ getLowestUnprunedHeight s = a := by
  obtain ⟨r0, tl, hcons⟩ : ∃ r0 tl, mainRows s = r0 :: tl := by
    cases h : mainRows s with
    | nil => exact absurd h hne
    | cons r0 tl => exact ⟨r0, tl, rfl⟩
  have hr0 : r0.height = a := hall r0 (by rw [hcons]; exact List.mem_cons_self _ _)
  have htl : ∀ x ∈ tl.map (fun r : BlockRec => r.height), x = a := by
    intro x hx
    obtain ⟨q, hq, hqx⟩ := List.mem_map.mp hx
    rw [← hqx]
    exact hall q (by rw [hcons]; exact List.mem_cons_of_mem _ hq)
  constructor
  · unfold getTipHeight
    rw [hcons, List.map_cons, List.max?_cons, hr0]
    cases hm : (tl.map (fun r : BlockRec => r.height)).max? with
    | none => simp
    | some m =>
        have hmem := List.max?_mem max_choice hm
        have hma : m = a := htl m hmem
        subst hma
        simp
  · unfold getLowestUnprunedHeight
    rw [hcons, List.map_cons, List.min?_cons, hr0]
    cases hm : (tl.map (fun r : BlockRec => r.height)).min? with
    | none => simp
    | some m =>
        have hmem := List.min?_mem min_choice hm
        have hma : m = a := htl m hmem
        subst hma
        simp

/-- C1: behaviour of ImportTip (modelled from the spec, its body not
being among the sources).  Under the documented preconditions that every
main-chain block is strictly below the height of the imported block and
that a stored block of the same hash has the same height, importing the
block leaves both the tip height and the lowest unpruned height equal to
the height of the block; a stored block of the same hash is relabelled
to branch zero and not reinserted; a fresh block is inserted on branch
zero; every other stored row survives exactly when it is not a
main-chain row strictly below the imported height (so exactly the
main-chain blocks strictly below it are pruned); and nothing else is
added to the store. -/
theorem importTip_installs_tip (s : Store) (blk : BlockData)
    (hMain : ∀ r ∈ s, r.branch = 0 → r.height < blk.height)
    (hHash : ∀ r ∈ s, r.hash = blk.hash → r.height = blk.height) :
    getTipHeight (importTip s blk) = blk.height ∧
    getLowestUnprunedHeight (importTip s blk) = blk.height ∧
    (∀ r ∈ s, r.hash ≠ blk.hash →
      (r ∈ importTip s blk ↔ ¬ (r.branch = 0 ∧ r.height < blk.height))) ∧
    (∀ r ∈ s, r.hash = blk.hash → { r with branch := 0 } ∈ importTip s blk) ∧
    ((∀ r ∈ s, r.hash ≠ blk.hash) →
      (⟨blk.hash, blk.parent, blk.height, 0⟩ : BlockRec) ∈ importTip s blk) ∧
    (∀ q ∈ importTip s blk,
      (∃ r ∈ s, q = r ∨ q = { r with branch := 0 }) ∨
        q = (⟨blk.hash, blk.parent, blk.height, 0⟩ : BlockRec)) := by
  cases hfind : findByHash s blk.hash with
  | some r0 =>
      have hr0mem : r0 ∈ s := List.mem_of_find?_eq_some hfind
      have hr0hash : r0.hash = blk.hash := by simpa using List.find?_some hfind
      have hchar : ∀ q, q ∈ importTip s blk ↔
          ((∃ r ∈ s, (r.hash = blk.hash ∧ q = { r with branch := 0 }) ∨
              (¬ r.hash = blk.hash ∧ q = r)) ∧
            ¬ (q.branch = 0 ∧ q.height < blk.height)) := by
        intro q
        have himp : importTip s blk
            = (relabel s (fun q => q.hash = blk.hash) 0).filter
                (fun r => !(decide (r.branch = 0 ∧ r.height < blk.height))) := by
          simp [importTip, hfind]
        rw [himp, List.mem_filter]
        simp only [relabel, List.mem_map, Bool.not_eq_eq_eq_not, Bool.not_true,
          decide_eq_false_iff_not]
        constructor
        · rintro ⟨⟨r, hr, hrq⟩, hpred⟩
          refine ⟨⟨r, hr, ?_⟩, hpred⟩
          by_cases hh : r.hash = blk.hash
          · exact Or.inl ⟨hh, by rw [← hrq]; simp [hh]⟩
          · exact Or.inr ⟨hh, by rw [← hrq]; simp [hh]⟩
        · rintro ⟨⟨r, hr, hcase⟩, hpred⟩
          refine ⟨⟨r, hr, ?_⟩, hpred⟩
          rcases hcase with ⟨hh, hq⟩ | ⟨hh, hq⟩
          · rw [hq]; simp [hh]
          · rw [hq]; simp [hh]
      have hr0in : ({ r0 with branch := 0 } : BlockRec) ∈ importTip s blk := by
        rw [hchar]
        refine ⟨⟨r0, hr0mem, Or.inl ⟨hr0hash, rfl⟩⟩, ?_⟩
        have := hHash r0 hr0mem hr0hash
        simp only
        omega
      have hmainne : mainRows (importTip s blk) ≠ [] := by
        apply List.ne_nil_of_mem (a := ({ r0 with branch := 0 } : BlockRec))
        exact List.mem_filter.mpr ⟨hr0in, by simp⟩
      have hmainall : ∀ q ∈ mainRows (importTip s blk), q.height = blk.height := by
        intro q hq
        obtain ⟨hqmem, hqb⟩ := List.mem_filter.mp hq
        have hqb0 : q.branch = 0 := by simpa using hqb
        obtain ⟨⟨r, hr, hcase⟩, hpred⟩ := (hchar q).mp hqmem
        rcases hcase with ⟨hh, hq2⟩ | ⟨hh, hq2⟩
        · have h1 : q.height = r.height := by rw [hq2]
          have := hHash r hr hh
          omega
        · subst hq2
          have := hMain q hr hqb0
          exact absurd ⟨hqb0, this⟩ hpred
      obtain ⟨htip, hlow⟩ := getTip_getLowest_of_const hmainne hmainall
      refine ⟨htip, hlow, ?_, ?_, ?_, ?_⟩
      · intro r hr hne
        rw [hchar]
        constructor
        · rintro ⟨_, hpred⟩
          exact hpred
        · intro hpred
          exact ⟨⟨r, hr, Or.inr ⟨hne, rfl⟩⟩, hpred⟩
      · intro r hr hh
        rw [hchar]
        refine ⟨⟨r, hr, Or.inl ⟨hh, rfl⟩⟩, ?_⟩
        have := hHash r hr hh
        simp only
        omega
      · intro hall
        exact absurd hr0hash (hall r0 hr0mem)
      · intro q hq
        obtain ⟨⟨r, hr, hcase⟩, _⟩ := (hchar q).mp hq
        rcases hcase with ⟨_, hq2⟩ | ⟨_, hq2⟩
        · exact Or.inl ⟨r, hr, Or.inr hq2⟩
        · exact Or.inl ⟨r, hr, Or.inl hq2⟩
  | none =>
      have hnohash : ∀ r ∈ s, r.hash ≠ blk.hash := by
        intro r hr
        have := List.find?_eq_none.mp hfind r hr
        simpa using this
      have hchar : ∀ q, q ∈ importTip s blk ↔
          ((q ∈ s ∨ q = (⟨blk.hash, blk.parent, blk.height, 0⟩ : BlockRec)) ∧
            ¬ (q.branch = 0 ∧ q.height < blk.height)) := by
        intro q
        have himp : importTip s blk
            = (s ++ [(⟨blk.hash, blk.parent, blk.height, 0⟩ : BlockRec)]).filter
                (fun r => !(decide (r.branch = 0 ∧ r.height < blk.height))) := by
          simp [importTip, hfind, insertBlock]
        rw [himp, List.mem_filter]
        simp only [List.mem_append, List.mem_singleton, Bool.not_eq_eq_eq_not,
          Bool.not_true, decide_eq_false_iff_not]
      have hnewin : (⟨blk.hash, blk.parent, blk.height, 0⟩ : BlockRec)
          ∈ importTip s blk := by
        rw [hchar]
        exact ⟨Or.inr rfl, by simp⟩
      have hmainne : mainRows (importTip s blk) ≠ [] := by
        apply List.ne_nil_of_mem (a := (⟨blk.hash, blk.parent, blk.height, 0⟩ : BlockRec))
        exact List.mem_filter.mpr ⟨hnewin, by simp⟩
      have hmainall : ∀ q ∈ mainRows (importTip s blk), q.height = blk.height := by
        intro q hq
        obtain ⟨hqmem, hqb⟩ := List.mem_filter.mp hq
        have hqb0 : q.branch = 0 := by simpa using hqb
        obtain ⟨hcase, hpred⟩ := (hchar q).mp hqmem
        rcases hcase with h | h
        · have := hMain q h hqb0
          exact absurd ⟨hqb0, this⟩ hpred
        · rw [h]
      obtain ⟨htip, hlow⟩ := getTip_getLowest_of_const hmainne hmainall
      refine ⟨htip, hlow, ?_, ?_, ?_, ?_⟩
      · intro r hr hne
        rw [hchar]
        constructor
        · rintro ⟨_, hpred⟩
          exact hpred
        · intro hpred
          exact ⟨Or.inl hr, hpred⟩
      · intro r hr hh
        exact absurd hh (hnohash r hr)
      · intro _
        exact hnewin
      · intro q hq
        obtain ⟨hcase, _⟩ := (hchar q).mp hq
        rcases hcase with h | h
        · exact Or.inl ⟨q, h, Or.inl rfl⟩
        · exact Or.inr h

/-- C1 witness: importing a block of height eleven over a single
main-chain block of height ten. -/
theorem importTip_installs_tip_witness :
    (∀ r ∈ rpcStore, r.branch = 0 → r.height < 11) ∧
    (∀ r ∈ rpcStore, r.hash = "next" → r.height = 11) ∧
    getTipHeight (importTip rpcStore ⟨"next", "g", 11⟩) = 11 ∧
    getLowestUnprunedHeight (importTip rpcStore ⟨"next", "g", 11⟩) = 11 := by
  refine ⟨by decide, by decide, ?_⟩
  have h := importTip_installs_tip rpcStore ⟨"next", "g", 11⟩ (by decide) (by decide)
  exact ⟨h.1, h.2.1⟩

/-! ### The game_sendupdates RPC -/

/-- C3: for a game_sendupdates call whose from block is neither known to
the local store (GetForkBranch fails) nor on the upstream main chain
(GetMainchainHeight returns -1), no ZMQ messages are pushed and the
synchronous result is an object with toblock equal to the from block and
zero attach and detach steps, but carrying no error member at all (the
code never sets one, although its own tests expect error to be true). -/
theorem game_sendupdates_unknown_from_no_error :
    getForkBranch rpcStore "unknown" = none ∧
    rpcBase.mainchainHeight "unknown" = -1 ∧
    ((gameSendUpdates3 rpcBase rpcStore "unknown" "game" "" "request_1" 128).map
      (fun p => p.2)) = some [] ∧
    ((gameSendUpdates3 rpcBase rpcStore "unknown" "game" "" "request_1" 128).bind
      (fun p => p.1.objFields.map (fun fs => hasField fs "error"))) = some false ∧
    jStr? ((gameSendUpdates3 rpcBase rpcStore "unknown" "game" "" "request_1" 128).bind
      (fun p => p.1.objFields.bind (fun fs => getField fs "toblock"))) = some "unknown" ∧
    jInt? ((gameSendUpdates3 rpcBase rpcStore "unknown" "game" "" "request_1" 128).bind
      (fun p => p.1.objFields.bind (fun fs => (jObj? (getField fs "steps")).bind
        (fun st => getField st "detach")))) = some 0 ∧
    jInt? ((gameSendUpdates3 rpcBase rpcStore "unknown" "game" "" "request_1" 128).bind
      (fun p => p.1.objFields.bind (fun fs => (jObj? (getField fs "steps")).bind
        (fun st => getField st "attach")))) = some 0 := by
  refine ⟨by decide, by decide, by decide, ?_, ?_, ?_, ?_⟩ <;> rfl

/-- C4: a game_sendupdates call in the three-argument form with a
non-empty toblock string aborts the whole process through the CHECK on
the toblock argument, while the two-argument form (missing toblock,
treated as the empty string) is accepted and processed normally. -/
theorem game_sendupdates_toblock_aborts :
    (handleGameSendUpdates rpcBase rpcStore
      (.jobj [("fromblock", .jstr "g"), ("gameid", .jstr "game"),
        ("toblock", .jstr "x")]) "request_1" 128).isAbort = true ∧
    (handleGameSendUpdates rpcBase rpcStore
      (.jobj [("fromblock", .jstr "g"), ("gameid", .jstr "game")])
        "request_1" 128).isAbort = false ∧
    ((handleGameSendUpdates rpcBase rpcStore
      (.jobj [("fromblock", .jstr "g"), ("gameid", .jstr "game")])
        "request_1" 128).resultFields.bind
      (fun fs => jStr? (getField fs "toblock"))) = some "g" ∧
    ((handleGameSendUpdates rpcBase rpcStore
      (.jobj [("fromblock", .jstr "g"), ("gameid", .jstr "game")])
        "request_1" 128).pushed) = some [] ∧
    ((handleGameSendUpdates rpcBase rpcStore
      (.jobj [("fromblock", .jstr "g"), ("gameid", .jstr "game"),
        ("toblock", .jstr "")]) "request_1" 128).resultFields.bind
      (fun fs => jStr? (getField fs "toblock"))) = some "g" := by
  refine ⟨by decide, by decide, ?_, by decide, ?_⟩ <;> rfl

/-! ### The sync worker failure path -/

/-- C5: in every sync update step in which the fetched block range is
empty or the SetTip of its first block fails, the worker doubles the
batch size capped at the configured block range, sets the next start
height to the maximum of the lowest unpruned height and the old start
height minus the number of requested blocks, leaves the store unchanged
and immediately requests another step; and when that next start height
is not strictly below the old one, the step is fatal (reorg beyond the
pruning depth). -/
theorem sync_failure_step (blockRangeFlag pruningDepth : Nat) (base : BaseChain)
    (st : SyncState) (s : Store) (start : Nat)
    (hstart : (if st.nextStartHeight = -1 then getTipHeight s else st.nextStartHeight)
      = (start : Int))
    (hfail : base.blockRange start (max st.numBlocks 3) = [] ∨
      ∃ b rest, base.blockRange start (max st.numBlocks 3) = b :: rest ∧
        (setTip s b = .noBlocks ∨ setTip s b = .parentUnknown)) :
    (max (getLowestUnprunedHeight s) ((start : Int) - (max st.numBlocks 3)) < (start : Int) →
      updateStep blockRangeFlag pruningDepth base st s
        = some (s, ⟨min blockRangeFlag (st.numBlocks * 2),
            max (getLowestUnprunedHeight s) ((start : Int) - (max st.numBlocks 3))⟩,
            [], true)) ∧
    (¬ max (getLowestUnprunedHeight s) ((start : Int) - (max st.numBlocks 3)) < (start : Int) →
      updateStep blockRangeFlag pruningDepth base st s = none) := by
  have hguard : ¬ (st.nextStartHeight = -1 ∧ getTipHeight s = -1) := by
    rintro ⟨h1, h2⟩
    rw [if_pos h1, h2] at hstart
    omega
  have h0 : ¬ ((start : Int) < 0) := by omega
  have hfp : updateStep blockRangeFlag pruningDepth base st s
      = syncFailPath blockRangeFlag st s start (max st.numBlocks 3) := by
    simp only [updateStep, if_neg hguard, hstart, if_neg h0, Int.toNat_natCast]
    rcases hfail with hcase | ⟨b, rest, hcase, hset⟩
    · rw [hcase]
    · rw [hcase]
      rcases hset with hs | hs <;> simp only [hs]
  rw [hfp]
  unfold syncFailPath increaseNumBlocks
  constructor
  · intro h
    rw [if_pos h]
  · intro h
    rw [if_neg h]

/-- C2 counterexample: a finite sequence of ImportTip, SetTip and Prune
operations from the empty store after which the claimed branch invariant
fails.  Re-activating a stored branch block whose fork point was pruned
moves the whole old main chain onto a fresh branch whose deepest block
(at height thirteen) chains to a pruned block while sitting strictly
above the new lowest unpruned height (eleven), violating the claimed
terminal condition for non-zero branches. -/
theorem branch_invariant_counterexample :
    applyOps [] reorgOps = some reorgResult ∧ ¬ branchInvariant reorgResult := by
  constructor
  · rfl
  · decide

/-- C5 witness: a concrete failing step over a two-block store with an
upstream that returns no blocks.  The batch size doubles from one to
two, the next start height becomes the lowest unpruned height ten, below
the old start height eleven, so the step is not fatal. -/
theorem sync_failure_step_witness :
    ((if (⟨1, -1⟩ : SyncState).nextStartHeight = -1
        then getTipHeight [⟨"g", "pre", 10, 0⟩, ⟨"h", "g", 11, 0⟩]
        else (⟨1, -1⟩ : SyncState).nextStartHeight) = ((11 : Nat) : Int)) ∧
    (⟨20, fun _ _ => [], fun _ => -1⟩ : BaseChain).blockRange 11 (max 1 3) = [] ∧
    updateStep 128 100 ⟨20, fun _ _ => [], fun _ => -1⟩ ⟨1, -1⟩
        [⟨"g", "pre", 10, 0⟩, ⟨"h", "g", 11, 0⟩]
      = some ([⟨"g", "pre", 10, 0⟩, ⟨"h", "g", 11, 0⟩], ⟨2, 10⟩, [], true) := by
  refine ⟨by decide, rfl, ?_⟩
  have h := (sync_failure_step 128 100 ⟨20, fun _ _ => [], fun _ => -1⟩ ⟨1, -1⟩
    [⟨"g", "pre", 10, 0⟩, ⟨"h", "g", 11, 0⟩] 11 (by decide) (Or.inl rfl)).1 (by decide)
  simpa using h

/-! ### Helper lemmas for the amended claim C2: basic store facts -/

theorem findByHash_def_some {s : Store} {h : String} {r : BlockRec}
    (hf : findByHash s h = some r) : r ∈ s ∧ r.hash = h := by
  refine ⟨List.mem_of_find?_eq_some hf, ?_⟩
  have := List.find?_some hf
  simpa using this

theorem findByHash_def_none {s : Store} {h : String}
    (hf : findByHash s h = none) : ∀ q ∈ s, q.hash ≠ h := by
  intro q hq
  have := List.find?_eq_none.mp hf q hq
  simpa using this

theorem findByHash_of_mem {s : Store} {q : BlockRec}
    (huniq : ∀ r ∈ s, ∀ p ∈ s, r.hash = p.hash → r = p)
    (hq : q ∈ s) : findByHash s q.hash = some q := by
  rcases hfind : findByHash s q.hash with _ | r
  · exact absurd rfl (findByHash_def_none hfind q hq)
  · rcases findByHash_def_some hfind with ⟨hr, hrh⟩
    rw [huniq r hr q hq hrh]

theorem getLowest_le {s : Store} {r : BlockRec} (hr : r ∈ mainRows s) :
    getLowestUnprunedHeight s ≤ (r.height : Int) := by
  unfold getLowestUnprunedHeight
  rcases hm : ((mainRows s).map (fun q => q.height)).min? with _ | a
  · rw [List.min?_eq_none_iff, List.map_eq_nil_iff] at hm
    rw [hm] at hr
    cases hr
  · simp only [hm]
    have := (List.min?_eq_some_iff'.mp hm).2 r.height
      (List.mem_map_of_mem (fun q => q.height) hr)
    exact_mod_cast this

theorem le_getLowest {s : Store} {a : Nat} (hne : mainRows s ≠ [])
    (h : ∀ r ∈ mainRows s, a ≤ r.height) :
    (a : Int) ≤ getLowestUnprunedHeight s := by
  unfold getLowestUnprunedHeight
  rcases hm : ((mainRows s).map (fun q => q.height)).min? with _ | m
  · rw [List.min?_eq_none_iff, List.map_eq_nil_iff] at hm
    exact absurd hm hne
  · simp only [hm]
    have hmm := (List.min?_eq_some_iff'.mp hm).1
    rcases List.mem_map.mp hmm with ⟨r, hr, hrh⟩
    have h1 := h r hr
    have : a ≤ m := by omega
    exact_mod_cast this

theorem lt_tip_exists_main {s : Store} {u : Nat} (h : (u : Int) < getTipHeight s) :
    ∃ r ∈ mainRows s, u < r.height := by
  unfold getTipHeight at h
  rcases hm : ((mainRows s).map (fun q => q.height)).max? with _ | a
  · simp only [hm] at h
    omega
  · simp only [hm] at h
    have hmm := (List.max?_eq_some_iff'.mp hm).1
    rcases List.mem_map.mp hmm with ⟨r, hr, hrh⟩
    refine ⟨r, hr, ?_⟩
    have : u < a := by exact_mod_cast h
    omega

theorem branch_lt_free {s : Store} {r : BlockRec} (hr : r ∈ s) :
    r.branch < getFreeBranchNumber s := by
  unfold getFreeBranchNumber
  rcases hm : (s.map (fun q => q.branch)).max? with _ | b
  · rw [List.max?_eq_none_iff, List.map_eq_nil_iff] at hm
    rw [hm] at hr
    cases hr
  · simp only [hm]
    have := (List.max?_eq_some_iff'.mp hm).2 r.branch
      (List.mem_map_of_mem (fun q => q.branch) hr)
    omega

theorem getFreeBranchNumber_pos (s : Store) : 0 < getFreeBranchNumber s := by
  unfold getFreeBranchNumber
  rcases hm : (s.map (fun q => q.branch)).max? with _ | b <;> simp only [hm] <;> omega

/-! ### Helper lemmas for the amended claim C2: strict chains -/

theorem strictChain_of_cons {x : BlockRec} {tl : List BlockRec}
    (h : StrictChain (x :: tl)) : StrictChain tl := by
  cases tl with
  | nil => trivial
  | cons y tl2 => exact h.2

theorem strictChain_head_gt : ∀ {x : BlockRec} {tl : List BlockRec},
    StrictChain (x :: tl) → ∀ y ∈ tl, y.height < x.height := by
  intro x tl
  induction tl generalizing x with
  | nil => intro _ y hy; cases hy
  | cons b tl2 ih =>
      intro h y hy
      rcases h with ⟨⟨hh, _⟩, h2⟩
      rcases List.mem_cons.mp hy with rfl | hy2
      · omega
      · have := ih h2 y hy2
        omega

theorem strictChain_nodup : ∀ {l : List BlockRec}, StrictChain l → l.Nodup := by
  intro l
  induction l with
  | nil => intro _; simp
  | cons a tl ih =>
      intro h
      refine List.nodup_cons.mpr ⟨?_, ih (strictChain_of_cons h)⟩
      intro hmem
      have := strictChain_head_gt h a hmem
      omega

theorem strictChain_height_inj : ∀ {l : List BlockRec}, StrictChain l →
    ∀ x ∈ l, ∀ y ∈ l, x.height = y.height → x = y := by
  intro l
  induction l with
  | nil => intro _ x hx; cases hx
  | cons a tl ih =>
      intro h x hx y hy hxy
      rcases List.mem_cons.mp hx with rfl | hx2
      · rcases List.mem_cons.mp hy with rfl | hy2
        · rfl
        · have := strictChain_head_gt h y hy2
          omega
      · rcases List.mem_cons.mp hy with rfl | hy2
        · have := strictChain_head_gt h x hx2
          omega
        · exact ih (strictChain_of_cons h) x hx2 y hy2 hxy

theorem strictChain_last_le : ∀ {l : List BlockRec}, StrictChain l →
    ∀ {z : BlockRec}, l.getLast? = some z → ∀ y ∈ l, z.height ≤ y.height := by
  intro l
  induction l with
  | nil => intro _ z hz; simp at hz
  | cons a tl ih =>
      intro h z hz y hy
      cases tl with
      | nil =>
          simp at hz
          rcases List.mem_singleton.mp hy with rfl
          rw [hz]
      | cons b tl2 =>
          rw [List.getLast?_cons_cons] at hz
          have htail := ih (strictChain_of_cons h) hz
          rcases List.mem_cons.mp hy with rfl | hy2
          · have hb := htail b (List.mem_cons_self _ _)
            have := h.1.1
            omega
          · exact htail y hy2

theorem strictChain_pred : ∀ {l : List BlockRec}, StrictChain l →
    ∀ {z x : BlockRec}, l.getLast? = some z → x ∈ l → z.height < x.height →
    ∃ y ∈ l, y.height + 1 = x.height ∧ x.parent = y.hash := by
  intro l
  induction l with
  | nil => intro _ z x hz; simp at hz
  | cons a tl ih =>
      intro h z x hz hx hgt
      cases tl with
      | nil =>
          simp at hz
          rcases List.mem_singleton.mp hx with rfl
          rw [hz] at hgt
          omega
      | cons b tl2 =>
          rw [List.getLast?_cons_cons] at hz
          rcases List.mem_cons.mp hx with rfl | hx2
          · exact ⟨b, List.mem_cons_of_mem _ (List.mem_cons_self _ _), h.1.1.symm, h.1.2⟩
          · rcases ih (strictChain_of_cons h) hz hx2 hgt with ⟨y, hy, hprop⟩
            exact ⟨y, List.mem_cons_of_mem _ hy, hprop⟩

theorem strictChain_append : ∀ {l1 l2 : List BlockRec}, StrictChain l1 → StrictChain l2 →
    (∀ a, l1.getLast? = some a → ∀ b, l2.head? = some b →
      a.height = b.height + 1 ∧ a.parent = b.hash) →
    StrictChain (l1 ++ l2) := by
  intro l1
  induction l1 with
  | nil => intro l2 _ h2 _; simpa using h2
  | cons x tl ih =>
      intro l2 h1 h2 hb
      cases tl with
      | nil =>
          cases l2 with
          | nil => trivial
          | cons b tl2 =>
              refine ⟨?_, h2⟩
              exact hb x rfl b rfl
      | cons y tl2 =>
          simp only [List.cons_append]
          refine ⟨h1.1, ?_⟩
          have := ih h1.2 h2
            (fun a ha b hbb => hb a (by rwa [List.getLast?_cons_cons]) b hbb)
          simpa using this

/-! ### Helper lemmas for the amended claim C2: the sorted segments -/

theorem insertDesc_perm (r : BlockRec) : ∀ l : List BlockRec,
    (insertDesc r l).Perm (r :: l) := by
  intro l
  induction l with
  | nil => simp [insertDesc]
  | cons q tl ih =>
      by_cases hq : q.height ≤ r.height
      · simp [insertDesc, hq]
      · simp only [insertDesc, if_neg hq]
        exact (ih.cons q).trans (List.Perm.swap r q tl)

theorem sortDesc_perm : ∀ l : List BlockRec, (sortDesc l).Perm l := by
  intro l
  induction l with
  | nil => simp [sortDesc]
  | cons r tl ih => exact (insertDesc_perm r (sortDesc tl)).trans (ih.cons r)

theorem mem_sortDesc {l : List BlockRec} {x : BlockRec} : x ∈ sortDesc l ↔ x ∈ l :=
  (sortDesc_perm l).mem_iff

theorem insertDesc_sorted (r : BlockRec) : ∀ {l : List BlockRec},
    l.Pairwise (fun a b => b.height ≤ a.height) →
    (insertDesc r l).Pairwise (fun a b => b.height ≤ a.height) := by
  intro l
  induction l with
  | nil => intro _; simp [insertDesc]
  | cons q tl ih =>
      intro h
      rcases List.pairwise_cons.mp h with ⟨hq, htl⟩
      by_cases hqr : q.height ≤ r.height
      · simp only [insertDesc, if_pos hqr]
        refine List.pairwise_cons.mpr ⟨?_, h⟩
        intro b hb
        rcases List.mem_cons.mp hb with rfl | hb2
        · exact hqr
        · exact le_trans (hq b hb2) hqr
      · simp only [insertDesc, if_neg hqr]
        refine List.pairwise_cons.mpr ⟨?_, ih htl⟩
        intro b hb
        rcases List.mem_cons.mp ((insertDesc_perm r tl).mem_iff.mp hb) with rfl | hb2
        · omega
        · exact hq b hb2

theorem sortDesc_sorted : ∀ l : List BlockRec,
    (sortDesc l).Pairwise (fun a b => b.height ≤ a.height) := by
  intro l
  induction l with
  | nil => simp [sortDesc]
  | cons r tl ih => exact insertDesc_sorted r ih

theorem pairwise_strict_of_le : ∀ {l : List BlockRec},
    l.Pairwise (fun a b => b.height ≤ a.height) → l.Nodup →
    (∀ x ∈ l, ∀ y ∈ l, x.height = y.height → x = y) →
    l.Pairwise (fun a b => b.height < a.height) := by
  intro l
  induction l with
  | nil => intro _ _ _; exact List.Pairwise.nil
  | cons a tl ih =>
      intro hle hnd hinj
      rcases List.pairwise_cons.mp hle with ⟨ha, htl⟩
      rcases List.nodup_cons.mp hnd with ⟨hna, hndtl⟩
      refine List.pairwise_cons.mpr ⟨?_, ih htl hndtl ?_⟩
      · intro b hb
        rcases lt_or_eq_of_le (ha b hb) with h | h
        · exact h
        · exfalso
          have : b = a := hinj b (List.mem_cons_of_mem _ hb) a (List.mem_cons_self _ _) h
          rw [this] at hb
          exact hna hb
      · intro x hx y hy
        exact hinj x (List.mem_cons_of_mem _ hx) y (List.mem_cons_of_mem _ hy)

theorem chain_of_closed {s : Store} (hinv : ChainInv s) (br : Nat) :
    ∀ l : List BlockRec,
      l.Pairwise (fun a b => b.height < a.height) →
      (∀ x ∈ l, x ∈ s ∧ x.branch = br) →
      (∀ x ∈ l, ∀ y ∈ s, y.branch = br → y.height ≤ x.height → y ∈ l) →
      StrictChain l := by
  intro l
  induction l with
  | nil => intro _ _ _; trivial
  | cons x tl ih =>
      intro hpw hmem hcl
      cases tl with
      | nil => trivial
      | cons y tl2 =>
          rcases List.pairwise_cons.mp hpw with ⟨hx, hpw2⟩
          have hxy : y.height < x.height := hx y (List.mem_cons_self _ _)
          rcases hmem x (List.mem_cons_self _ _) with ⟨hxs, hxbr⟩
          rcases hmem y (List.mem_cons_of_mem _ (List.mem_cons_self _ _)) with ⟨hys, hybr⟩
          rcases hinv.contig x hxs y hys (by rw [hxbr, hybr]) hxy with ⟨p, hps, hpbr, hph⟩
          have hpl : p ∈ x :: y :: tl2 :=
            hcl x (List.mem_cons_self _ _) p hps (hpbr.trans hxbr) (by omega)
          have hple : p.height ≤ y.height := by
            rcases List.mem_cons.mp hpl with rfl | h2
            · omega
            · rcases List.mem_cons.mp h2 with rfl | h3
              · exact le_refl _
              · exact le_of_lt ((List.pairwise_cons.mp hpw2).1 p h3)
          have hyh : y.height + 1 = x.height := by omega
          have hlink : x.parent = y.hash :=
            hinv.link x hxs y hys (hxbr.trans hybr.symm) hyh.symm
          refine ⟨⟨hyh.symm, hlink⟩, ?_⟩
          refine ih hpw2 (fun a ha => hmem a (List.mem_cons_of_mem _ ha)) ?_
          intro x1 hx1 y1 hy1s hy1br hy1le
          have hy1l : y1 ∈ x :: y :: tl2 :=
            hcl x1 (List.mem_cons_of_mem _ hx1) y1 hy1s hy1br hy1le
          rcases List.mem_cons.mp hy1l with rfl | h2
          · exfalso
            have hx1le : x1.height ≤ y.height := by
              rcases List.mem_cons.mp hx1 with rfl | h3
              · exact le_refl _
              · exact le_of_lt ((List.pairwise_cons.mp hpw2).1 x1 h3)
            omega
          · exact h2

theorem mem_branchSegment {s : Store} {br h : Nat} {x : BlockRec} :
    x ∈ branchSegment s br h ↔ x ∈ s ∧ x.branch = br ∧ x.height ≤ h := by
  unfold branchSegment
  rw [mem_sortDesc, List.mem_filter]
  simp [and_assoc]

theorem branchSegment_nodup {s : Store} (hnd : s.Nodup) (br h : Nat) :
    (branchSegment s br h).Nodup :=
  (sortDesc_perm _).nodup_iff.mpr (hnd.filter _)

theorem branchSegment_chain {s : Store} (hinv : ChainInv s) (br h : Nat) :
    StrictChain (branchSegment s br h) := by
  apply chain_of_closed hinv br
  · apply pairwise_strict_of_le (sortDesc_sorted _) (branchSegment_nodup hinv.nodup br h)
    intro x hx y hy hxy
    rcases mem_branchSegment.mp hx with ⟨hxs, hxbr, _⟩
    rcases mem_branchSegment.mp hy with ⟨hys, hybr, _⟩
    exact hinv.uniqBH x hxs y hys (hxbr.trans hybr.symm) hxy
  · intro x hx
    rcases mem_branchSegment.mp hx with ⟨hxs, hxbr, _⟩
    exact ⟨hxs, hxbr⟩
  · intro x hx y hys hybr hyle
    rcases mem_branchSegment.mp hx with ⟨hxs, hxbr, hxh⟩
    exact mem_branchSegment.mpr ⟨hys, hybr, le_trans hyle hxh⟩

theorem branchSegment_head {s : Store} (hinv : ChainInv s) {c : BlockRec}
    (hc : c ∈ s) : (branchSegment s c.branch c.height).head? = some c := by
  have hcm : c ∈ branchSegment s c.branch c.height :=
    mem_branchSegment.mpr ⟨hc, rfl, le_refl _⟩
  have hsorted := sortDesc_sorted (s.filter (fun r => decide (r.branch = c.branch ∧ r.height ≤ c.height)))
  rcases hseg : branchSegment s c.branch c.height with _ | ⟨h0, tl⟩
  · rw [hseg] at hcm
    cases hcm
  · rw [hseg] at hcm
    rcases List.mem_cons.mp hcm with rfl | hctl
    · rfl
    · have hsorted2 : (h0 :: tl).Pairwise (fun a b => b.height ≤ a.height) := by
        rw [show h0 :: tl = branchSegment s c.branch c.height from hseg.symm]
        exact hsorted
      have hle : c.height ≤ h0.height := (List.pairwise_cons.mp hsorted2).1 c hctl
      have h0m : h0 ∈ branchSegment s c.branch c.height := by
        rw [hseg]
        exact List.mem_cons_self _ _
      rcases mem_branchSegment.mp h0m with ⟨h0s, h0br, h0h⟩
      have : h0 = c := hinv.uniqBH h0 h0s c hc h0br (by omega)
      rw [this]
      rfl

/-! ### Helper lemmas for the amended claim C2: the fork walk -/

theorem pathProps_last_bottom {s : Store} {l : List BlockRec} (hpp : pathProps s l)
    {z : BlockRec} (hz : l.getLast? = some z) : isBottom s z := by
  unfold isBottom
  intro q hq hqbr
  by_contra hlt
  push_neg at hlt
  have hzl : z ∈ l := List.mem_of_mem_getLast? hz
  have hql : q ∈ l := hpp.2.2 z hzl q hq hqbr (le_of_lt hlt)
  have := strictChain_last_le hpp.1 hz q hql
  omega

theorem getForkBranchGo_props {s : Store} (hinv : ChainInv s) :
    ∀ (fuel : Nat) (cur : String) (acc out : List BlockRec),
      pathProps s acc →
      (∀ z, acc.getLast? = some z → z.parent = cur) →
      getForkBranchGo s fuel cur acc = some out →
      pathProps s out ∧ pathEnd s out := by
  intro fuel
  induction fuel with
  | zero =>
      intro cur acc out _ _ hgo
      simp [getForkBranchGo] at hgo
  | succ fuel ih =>
      intro cur acc out hpp hpar hgo
      simp only [getForkBranchGo] at hgo
      split at hgo
      next hfind =>
        split at hgo
        next => exact Option.noConfusion hgo
        next =>
          obtain rfl : acc = out := Option.some.inj hgo
          refine ⟨hpp, ?_⟩
          intro z hz
          have hzpar : z.parent = cur := hpar z hz
          have hbot := pathProps_last_bottom hpp hz
          have hzl : z ∈ acc := List.mem_of_mem_getLast? hz
          rcases hpp.2.1 z hzl with ⟨hzs, hzbr⟩
          rcases hinv.branchTerm z hzs hzbr hbot with ⟨p, hps, hph, _, _⟩ | ⟨habs, hle⟩
          · exact absurd (hph.trans hzpar) (findByHash_def_none hfind p hps)
          · exact Or.inr ⟨habs, hle⟩
      next r hfind =>
        rcases findByHash_def_some hfind with ⟨hrs, hrh⟩
        split at hgo
        next hrb =>
          obtain rfl : acc = out := Option.some.inj hgo
          refine ⟨hpp, ?_⟩
          intro z hz
          have hzpar : z.parent = cur := hpar z hz
          have hbot := pathProps_last_bottom hpp hz
          have hzl : z ∈ acc := List.mem_of_mem_getLast? hz
          rcases hpp.2.1 z hzl with ⟨hzs, hzbr⟩
          rcases hinv.branchTerm z hzs hzbr hbot with ⟨p, hps, hph, _, hpht⟩ | ⟨habs, _⟩
          · have hpr : p = r := hinv.uniqHash p hps r hrs (by rw [hph, hzpar, hrh])
            exact Or.inl ⟨p, hps, hph, by rw [hpr]; exact hrb, hpht⟩
          · exact absurd (hrh.trans hzpar.symm) (habs r hrs)
        next hrb =>
          split at hgo
          next hlast => exact Option.noConfusion hgo
          next segLast hlast =>
            have hhead : (branchSegment s r.branch r.height).head? = some r :=
              branchSegment_head hinv hrs
            have hchainseg := branchSegment_chain hinv r.branch r.height
            have hbound : ∀ a, acc.getLast? = some a →
                ∀ b, (branchSegment s r.branch r.height).head? = some b →
                a.height = b.height + 1 ∧ a.parent = b.hash := by
              intro a ha b hb
              rw [hhead] at hb
              obtain rfl : b = r := (Option.some.inj hb).symm
              have hapar : a.parent = cur := hpar a ha
              have habot := pathProps_last_bottom hpp ha
              have hal : a ∈ acc := List.mem_of_mem_getLast? ha
              rcases hpp.2.1 a hal with ⟨has, habr⟩
              rcases hinv.branchTerm a has habr habot with ⟨p, hps, hph, _, hpht⟩ | ⟨habs, _⟩
              · have hpr : p = b := hinv.uniqHash p hps b hrs (by rw [hph, hapar, hrh])
                constructor
                · rw [← hpr]
                  omega
                · rw [← hph, hpr]
              · exact absurd (hrh.trans hapar.symm) (habs b hrs)
            have hpp2 : pathProps s (acc ++ branchSegment s r.branch r.height) := by
              refine ⟨strictChain_append hpp.1 hchainseg hbound, ?_, ?_⟩
              · intro x hx
                rcases List.mem_append.mp hx with hx1 | hx2
                · exact hpp.2.1 x hx1
                · rcases mem_branchSegment.mp hx2 with ⟨hxs, hxbr, _⟩
                  refine ⟨hxs, ?_⟩
                  rw [hxbr]
                  exact hrb
              · intro x hx y hys hybr hyle
                rcases List.mem_append.mp hx with hx1 | hx2
                · exact List.mem_append_left _ (hpp.2.2 x hx1 y hys hybr hyle)
                · rcases mem_branchSegment.mp hx2 with ⟨hxs, hxbr, hxh⟩
                  refine List.mem_append_right _ (mem_branchSegment.mpr ⟨hys, ?_, ?_⟩)
                  · rw [hybr, hxbr]
                  · omega
            have hpar2 : ∀ z, (acc ++ branchSegment s r.branch r.height).getLast? = some z →
                z.parent = segLast.parent := by
              intro z hz
              rcases hsegshape : branchSegment s r.branch r.height with _ | ⟨b, tl⟩
              · rw [hsegshape] at hlast
                simp at hlast
              · rw [hsegshape] at hz hlast
                rw [List.getLast?_append_cons] at hz
                rw [hz] at hlast
                rw [Option.some.inj hlast]
            exact ih segLast.parent _ out hpp2 hpar2 hgo

/-! ### Helper lemmas for the amended claim C2: row transformations -/

theorem mem_mainRows {s : Store} {r : BlockRec} :
    r ∈ mainRows s ↔ r ∈ s ∧ r.branch = 0 := by
  unfold mainRows
  rw [List.mem_filter]
  simp

theorem getLowest_mem {s : Store} (hne : mainRows s ≠ []) :
    ∃ r ∈ mainRows s, (r.height : Int) = getLowestUnprunedHeight s := by
  unfold getLowestUnprunedHeight
  rcases hm : ((mainRows s).map (fun q => q.height)).min? with _ | m
  · rw [List.min?_eq_none_iff, List.map_eq_nil_iff] at hm
    exact absurd hm hne
  · simp only [hm]
    have hmm := (List.min?_eq_some_iff'.mp hm).1
    rcases List.mem_map.mp hmm with ⟨r, hr, hrh⟩
    exact ⟨r, hr, by rw [hrh]⟩

theorem hash_setBranch (q : BlockRec) (b : Nat) :
    ({ q with branch := b } : BlockRec).hash = q.hash := rfl

theorem parent_setBranch (q : BlockRec) (b : Nat) :
    ({ q with branch := b } : BlockRec).parent = q.parent := rfl

theorem height_setBranch (q : BlockRec) (b : Nat) :
    ({ q with branch := b } : BlockRec).height = q.height := rfl

theorem branch_setBranch (q : BlockRec) (b : Nat) :
    ({ q with branch := b } : BlockRec).branch = b := rfl

theorem foldl_relabel_eq_map : ∀ (path : List BlockRec) (l : Store),
    path.foldl (fun acc d => relabel acc (fun q => q.hash = d.hash) 0) l =
      l.map (fun x => if path.any (fun d => x.hash = d.hash) then { x with branch := 0 }
        else x) := by
  intro path
  induction path with
  | nil =>
      intro l
      simp only [List.foldl_nil, List.any_nil, Bool.false_eq_true, if_false]
      exact (List.map_id l).symm
  | cons d rest ih =>
      intro l
      rw [List.foldl_cons, ih]
      unfold relabel
      rw [List.map_map]
      apply List.map_congr_left
      intro x _
      simp only [Function.comp_apply, List.any_cons, Bool.or_eq_true, decide_eq_true_eq]
      by_cases hxd : x.hash = d.hash
      · simp only [if_pos hxd, hash_setBranch, if_pos (Or.inl hxd)]
        by_cases hrest : (rest.any fun d2 => decide (x.hash = d2.hash)) = true
        · simp only [if_pos hrest]
        · simp only [if_neg hrest]
      · simp only [if_neg hxd]
        by_cases hrest : (rest.any fun d2 => decide (x.hash = d2.hash)) = true
        · simp only [if_pos hrest, if_pos (Or.inr hrest)]
        · simp only [if_neg hrest,
            if_neg (show ¬(x.hash = d.hash ∨
              (rest.any fun d2 => decide (x.hash = d2.hash)) = true) from
              fun hc => hc.elim hxd hrest)]

theorem relabel_foldl_as_phi {s : Store}
    (huniq : ∀ a ∈ s, ∀ b ∈ s, a.hash = b.hash → a = b)
    {path : List BlockRec} (hmemp : ∀ x ∈ path, x ∈ s ∧ x.branch ≠ 0) (beta f : Nat) :
    path.foldl (fun acc d => relabel acc (fun q => q.hash = d.hash) 0)
      (relabel s (fun q => decide (q.branch = 0 ∧ beta ≤ q.height)) f) =
    s.map (phiBranch path beta f) := by
  rw [foldl_relabel_eq_map]
  unfold relabel phiBranch
  rw [List.map_map]
  apply List.map_congr_left
  intro q hq
  simp only [Function.comp_apply, decide_eq_true_eq]
  by_cases hcond : q.branch = 0 ∧ beta ≤ q.height
  · have hqnp : ¬ (path.any fun d => decide (q.hash = d.hash)) = true := by
      intro hqp
      rcases List.any_eq_true.mp hqp with ⟨d, hd, hdq⟩
      have hqd : q = d := huniq q hq d (hmemp d hd).1 (of_decide_eq_true hdq)
      exact (hmemp d hd).2 (by rw [← hqd]; exact hcond.1)
    simp only [if_pos hcond, hash_setBranch, if_neg hqnp]
  · simp only [if_neg hcond]

theorem relabel_eq_map_ite (s : Store) (p : BlockRec → Prop) [DecidablePred p] (br : Nat) :
    relabel s (fun q => decide (p q)) br =
      s.map (fun q => if p q then { q with branch := br } else q) := by
  unfold relabel
  apply List.map_congr_left
  intro q _
  by_cases h : p q
  · rw [if_pos (decide_eq_true h), if_pos h]
  · rw [if_neg (by simpa using h), if_neg h]

theorem phiBranch_hash (path : List BlockRec) (beta f : Nat) (q : BlockRec) :
    (phiBranch path beta f q).hash = q.hash := by
  unfold phiBranch
  split_ifs <;> rfl

theorem phiBranch_parent (path : List BlockRec) (beta f : Nat) (q : BlockRec) :
    (phiBranch path beta f q).parent = q.parent := by
  unfold phiBranch
  split_ifs <;> rfl

theorem phiBranch_height (path : List BlockRec) (beta f : Nat) (q : BlockRec) :
    (phiBranch path beta f q).height = q.height := by
  unfold phiBranch
  split_ifs <;> rfl

theorem phiBranch_cases {s : Store}
    (huniq : ∀ a ∈ s, ∀ b ∈ s, a.hash = b.hash → a = b)
    {path : List BlockRec} (hmemp : ∀ x ∈ path, x ∈ s ∧ x.branch ≠ 0) (beta f : Nat)
    {q : BlockRec} (hq : q ∈ s) :
    (q ∈ path ∧ phiBranch path beta f q = { q with branch := 0 }) ∨
    (q ∉ path ∧ q.branch = 0 ∧ beta ≤ q.height ∧
      phiBranch path beta f q = { q with branch := f }) ∨
    (q ∉ path ∧ ¬(q.branch = 0 ∧ beta ≤ q.height) ∧ phiBranch path beta f q = q) := by
  have hanymem : (path.any fun d => decide (q.hash = d.hash)) = true ↔ q ∈ path := by
    constructor
    · intro hqp
      rcases List.any_eq_true.mp hqp with ⟨d, hd, hdq⟩
      have hqd : q = d := huniq q hq d (hmemp d hd).1 (of_decide_eq_true hdq)
      rw [hqd]
      exact hd
    · intro hqp
      exact List.any_eq_true.mpr ⟨q, hqp, by simp⟩
  unfold phiBranch
  by_cases hqp : (path.any fun d => decide (q.hash = d.hash)) = true
  · exact Or.inl ⟨hanymem.mp hqp, by rw [if_pos hqp]⟩
  · have hqnp : q ∉ path := fun hc => hqp (hanymem.mpr hc)
    by_cases hcond : q.branch = 0 ∧ beta ≤ q.height
    · exact Or.inr (Or.inl ⟨hqnp, hcond.1, hcond.2, by rw [if_neg hqp, if_pos hcond]⟩)
    · exact Or.inr (Or.inr ⟨hqnp, hcond, by rw [if_neg hqp, if_neg hcond]⟩)

theorem chainInv_main_relabel {s : Store} (hinv : ChainInv s) {r : BlockRec}
    {blk : BlockData} (hr : r ∈ s) (hrb : r.branch = 0) (hrh : r.height = blk.height) :
    ChainInv (relabel s (fun q => decide (q.branch = 0 ∧ blk.height < q.height))
      (getFreeBranchNumber s)) := by
  have hf0 : 0 < getFreeBranchNumber s := getFreeBranchNumber_pos s
  have hflt : ∀ q ∈ s, q.branch < getFreeBranchNumber s := fun q hq => branch_lt_free hq
  rw [relabel_eq_map_ite]
  set f := getFreeBranchNumber s with hfdef
  set g := fun q : BlockRec =>
    if q.branch = 0 ∧ blk.height < q.height then { q with branch := f } else q with hgdef
  have gcases : ∀ a : BlockRec,
      ((a.branch = 0 ∧ blk.height < a.height) ∧ g a = { a with branch := f }) ∨
      (¬(a.branch = 0 ∧ blk.height < a.height) ∧ g a = a) := by
    intro a
    by_cases h : a.branch = 0 ∧ blk.height < a.height
    · exact Or.inl ⟨h, if_pos h⟩
    · exact Or.inr ⟨h, if_neg h⟩
  have ghash : ∀ a : BlockRec, (g a).hash = a.hash := by
    intro a
    rcases gcases a with ⟨-, he⟩ | ⟨-, he⟩ <;> rw [he]
  have gparent : ∀ a : BlockRec, (g a).parent = a.parent := by
    intro a
    rcases gcases a with ⟨-, he⟩ | ⟨-, he⟩ <;> rw [he]
  have gheight : ∀ a : BlockRec, (g a).height = a.height := by
    intro a
    rcases gcases a with ⟨-, he⟩ | ⟨-, he⟩ <;> rw [he]
  have gb0 : ∀ a ∈ s, (g a).branch = 0 → g a = a ∧ a.branch = 0 ∧ a.height ≤ blk.height := by
    intro a ha h0
    rcases gcases a with ⟨hc, he⟩ | ⟨hc, he⟩
    · rw [he, branch_setBranch] at h0
      omega
    · rw [he] at h0
      have : ¬ blk.height < a.height := fun hlt => hc ⟨h0, hlt⟩
      exact ⟨he, h0, by omega⟩
  have gbf : ∀ a ∈ s, (g a).branch = f →
      a.branch = 0 ∧ blk.height < a.height ∧ g a = { a with branch := f } := by
    intro a ha hbf
    rcases gcases a with ⟨hc, he⟩ | ⟨hc, he⟩
    · exact ⟨hc.1, hc.2, he⟩
    · rw [he] at hbf
      have := hflt a ha
      omega
  have gbc : ∀ a ∈ s, (g a).branch ≠ 0 → (g a).branch ≠ f → g a = a := by
    intro a ha h0 hf2
    rcases gcases a with ⟨hc, he⟩ | ⟨hc, he⟩
    · rw [he, branch_setBranch] at hf2
      exact absurd rfl hf2
    · exact he
  have hgr : g r = r := by
    rcases gcases r with ⟨hc, he⟩ | ⟨hc, he⟩
    · exact absurd hc.2 (by omega)
    · exact he
  refine ⟨?_, ?_, ?_, ?_, ?_, ?_, ?_, ?_⟩
  · exact hinv.nodup.map_on (fun a ha b hb heq =>
      hinv.uniqHash a ha b hb (by rw [← ghash a, ← ghash b, heq]))
  · intro x hx y hy hxy
    rcases List.mem_map.mp hx with ⟨a, ha, rfl⟩
    rcases List.mem_map.mp hy with ⟨b, hb, rfl⟩
    rw [ghash, ghash] at hxy
    rw [hinv.uniqHash a ha b hb hxy]
  · intro x hx y hy hbr hht
    rcases List.mem_map.mp hx with ⟨a, ha, rfl⟩
    rcases List.mem_map.mp hy with ⟨b, hb, rfl⟩
    rw [gheight, gheight] at hht
    by_cases h0 : (g a).branch = 0
    · rcases gb0 a ha h0 with ⟨-, ha0, -⟩
      rcases gb0 b hb (by rw [← hbr]; exact h0) with ⟨-, hb0, -⟩
      rw [hinv.uniqBH a ha b hb (ha0.trans hb0.symm) hht]
    · by_cases hff : (g a).branch = f
      · rcases gbf a ha hff with ⟨ha0, -, -⟩
        rcases gbf b hb (by rw [← hbr]; exact hff) with ⟨hb0, -, -⟩
        rw [hinv.uniqBH a ha b hb (ha0.trans hb0.symm) hht]
      · have hea := gbc a ha h0 hff
        have heb := gbc b hb (by rw [← hbr]; exact h0) (by rw [← hbr]; exact hff)
        rw [hea, heb] at hbr
        rw [hinv.uniqBH a ha b hb hbr hht]
  · intro x hx y hy hbr hht
    rcases List.mem_map.mp hx with ⟨a, ha, rfl⟩
    rcases List.mem_map.mp hy with ⟨b, hb, rfl⟩
    rw [gheight, gheight] at hht
    by_cases h0 : (g a).branch = 0
    · rcases gb0 a ha h0 with ⟨hea, ha0, hale⟩
      rcases gb0 b hb (by rw [← hbr]; exact h0) with ⟨heb, hb0, hble⟩
      rcases hinv.contig a ha b hb (ha0.trans hb0.symm) hht with ⟨p, hps, hpbr, hph⟩
      have hple : ¬ blk.height < p.height := by omega
      have hgp : g p = p := by
        rcases gcases p with ⟨hc, he⟩ | ⟨hc, he⟩
        · exact absurd hc.2 hple
        · exact he
      refine ⟨g p, List.mem_map_of_mem g hps, ?_, ?_⟩
      · rw [hgp, hpbr, hea]
      · rw [hgp, gheight]
        exact hph
    · by_cases hff : (g a).branch = f
      · rcases gbf a ha hff with ⟨ha0, halt, hea⟩
        rcases gbf b hb (by rw [← hbr]; exact hff) with ⟨hb0, hblt, heb⟩
        rcases hinv.contig a ha b hb (ha0.trans hb0.symm) hht with ⟨p, hps, hpbr, hph⟩
        have hpgt : blk.height < p.height := by omega
        have hgp : g p = { p with branch := f } := by
          rcases gcases p with ⟨hc, he⟩ | ⟨hc, he⟩
          · exact he
          · exact absurd ⟨hpbr.trans ha0, hpgt⟩ hc
        refine ⟨g p, List.mem_map_of_mem g hps, ?_, ?_⟩
        · rw [hgp, branch_setBranch, hff]
        · rw [hgp, height_setBranch, gheight]
          exact hph
      · have hea := gbc a ha h0 hff
        have heb := gbc b hb (by rw [← hbr]; exact h0) (by rw [← hbr]; exact hff)
        rw [hea, heb] at hbr
        rcases hinv.contig a ha b hb hbr hht with ⟨p, hps, hpbr, hph⟩
        have hpnz : p.branch ≠ 0 := by
          rw [hpbr]
          rw [hea] at h0
          exact h0
        have hgp : g p = p := by
          rcases gcases p with ⟨hc, he⟩ | ⟨hc, he⟩
          · exact absurd hc.1 hpnz
          · exact he
        refine ⟨g p, List.mem_map_of_mem g hps, ?_, ?_⟩
        · rw [hgp, hea]
          exact hpbr
        · rw [hgp, gheight]
          exact hph
  · intro x hx y hy hbr hht
    rcases List.mem_map.mp hx with ⟨a, ha, rfl⟩
    rcases List.mem_map.mp hy with ⟨b, hb, rfl⟩
    rw [gheight, gheight] at hht
    rw [gparent, ghash]
    by_cases h0 : (g a).branch = 0
    · rcases gb0 a ha h0 with ⟨-, ha0, -⟩
      rcases gb0 b hb (by rw [← hbr]; exact h0) with ⟨-, hb0, -⟩
      exact hinv.link a ha b hb (ha0.trans hb0.symm) hht
    · by_cases hff : (g a).branch = f
      · rcases gbf a ha hff with ⟨ha0, -, -⟩
        rcases gbf b hb (by rw [← hbr]; exact hff) with ⟨hb0, -, -⟩
        exact hinv.link a ha b hb (ha0.trans hb0.symm) hht
      · have hea := gbc a ha h0 hff
        have heb := gbc b hb (by rw [← hbr]; exact h0) (by rw [← hbr]; exact hff)
        rw [hea, heb] at hbr
        exact hinv.link a ha b hb hbr hht
  · intro hne
    exact ⟨g r, List.mem_map_of_mem g hr, by rw [hgr]; exact hrb⟩
  · intro x hx hxnz hbot
    rcases List.mem_map.mp hx with ⟨a, ha, rfl⟩
    by_cases hff : (g a).branch = f
    · rcases gbf a ha hff with ⟨ha0, halt, hea⟩
      by_cases hah : a.height = blk.height + 1
      · have hlink : a.parent = r.hash :=
          hinv.link a ha r hr (ha0.trans hrb.symm) (by omega)
        refine Or.inl ⟨g r, List.mem_map_of_mem g hr, ?_, ?_, ?_⟩
        · rw [hgr, gparent]
          exact hlink.symm
        · rw [hgr, hrb, hff]
          omega
        · rw [hgr, gheight]
          omega
      · exfalso
        have hht : r.height < a.height := by omega
        rcases hinv.contig a ha r hr (ha0.trans hrb.symm) hht with ⟨p, hps, hpbr, hph⟩
        have hpgt : blk.height < p.height := by omega
        have hgp : g p = { p with branch := f } := by
          rcases gcases p with ⟨hc, he⟩ | ⟨hc, he⟩
          · exact he
          · exact absurd ⟨hpbr.trans ha0, hpgt⟩ hc
        have hcon := hbot (g p) (List.mem_map_of_mem g hps)
          (by rw [hgp, branch_setBranch]; exact hff.symm)
        simp only [gheight, hgp, height_setBranch] at hcon
        omega
    · have hea := gbc a ha hxnz hff
      have hanz : a.branch ≠ 0 := by
        rw [hea] at hxnz
        exact hxnz
      have habot : isBottom s a := by
        intro q hq hqbr
        have hqnz : q.branch ≠ 0 := by
          rw [hqbr]
          exact hanz
        have hgq : g q = q := by
          rcases gcases q with ⟨hc, he⟩ | ⟨hc, he⟩
          · exact absurd hc.1 hqnz
          · exact he
        have hcon := hbot (g q) (List.mem_map_of_mem g hq)
          (by rw [hgq, hea]; exact hqbr)
        rw [gheight, hgq] at hcon
        exact hcon
      rcases hinv.branchTerm a ha hanz habot with ⟨p, hps, hph, hpbr, hpht⟩ | ⟨habs, hble⟩
      · refine Or.inl ⟨g p, List.mem_map_of_mem g hps, ?_, ?_, ?_⟩
        · rw [ghash, gparent]
          exact hph
        · rw [hea]
          rcases gcases p with ⟨hc, he⟩ | ⟨hc, he⟩
          · rw [he, branch_setBranch]
            have := hflt a ha
            omega
          · rw [he]
            exact hpbr
        · rw [gheight, gheight]
          exact hpht
      · refine Or.inr ⟨?_, ?_⟩
        · intro q hq
          rcases List.mem_map.mp hq with ⟨b, hb, rfl⟩
          rw [ghash, gparent]
          exact habs b hb
        · have hrm : r ∈ mainRows (s.map g) := by
            refine mem_mainRows.mpr ⟨?_, hrb⟩
            have hmem := List.mem_map_of_mem g hr
            rwa [hgr] at hmem
          rw [gheight]
          apply le_getLowest (List.ne_nil_of_mem hrm)
          intro m hm
          rcases mem_mainRows.mp hm with ⟨hmm, hm0⟩
          rcases List.mem_map.mp hmm with ⟨b, hb, rfl⟩
          rcases gb0 b hb hm0 with ⟨heb, hb0, -⟩
          rw [heb]
          have h1 := getLowest_le (mem_mainRows.mpr ⟨hb, hb0⟩)
          omega
  · intro x hx hx0 hbot q hq
    rcases List.mem_map.mp hx with ⟨a, ha, rfl⟩
    rcases List.mem_map.mp hq with ⟨b, hb, rfl⟩
    rcases gb0 a ha hx0 with ⟨hea, ha0, hale⟩
    have habot : isBottom s a := by
      intro q2 hq2 hq2br
      by_cases hq2le : q2.height ≤ blk.height
      · have hgq : g q2 = q2 := by
          rcases gcases q2 with ⟨hc, he⟩ | ⟨hc, he⟩
          · exact absurd hc.2 (by omega)
          · exact he
        have hcon := hbot (g q2) (List.mem_map_of_mem g hq2)
          (by rw [hgq, hx0]; exact hq2br.trans ha0)
        rw [gheight, hgq] at hcon
        exact hcon
      · omega
    have := hinv.mainTerm a ha ha0 habot b hb
    rw [ghash, gparent]
    exact this

theorem chainInv_branch_relabel {s : Store} (hinv : ChainInv s)
    {path : List BlockRec} (hpp : pathProps s path)
    {lastR : BlockRec} (hlast : path.getLast? = some lastR)
    (hterm : (∃ p ∈ s, p.hash = lastR.parent ∧ p.branch = 0 ∧ p.height + 1 = lastR.height) ∨
      ((∀ q ∈ s, q.hash ≠ lastR.parent) ∧
        (lastR.height : Int) = getLowestUnprunedHeight s)) :
    ChainInv (s.map (phiBranch path lastR.height (getFreeBranchNumber s))) := by
  have hf0 : 0 < getFreeBranchNumber s := getFreeBranchNumber_pos s
  have hflt : ∀ q ∈ s, q.branch < getFreeBranchNumber s := fun q hq => branch_lt_free hq
  set f := getFreeBranchNumber s with hfdef
  set beta := lastR.height with hbdef
  set g := phiBranch path beta f with hgdef
  obtain ⟨hchain, hmemp, hclosed⟩ := hpp
  have hlmem : lastR ∈ path := List.mem_of_mem_getLast? hlast
  have hlS : lastR ∈ s := (hmemp lastR hlmem).1
  have hlnz : lastR.branch ≠ 0 := (hmemp lastR hlmem).2
  have hbl : ∀ x ∈ path, beta ≤ x.height := fun x hx => strictChain_last_le hchain hlast x hx
  have gcase : ∀ q ∈ s, (q ∈ path ∧ g q = { q with branch := 0 }) ∨
      (q ∉ path ∧ q.branch = 0 ∧ beta ≤ q.height ∧ g q = { q with branch := f }) ∨
      (q ∉ path ∧ ¬(q.branch = 0 ∧ beta ≤ q.height) ∧ g q = q) :=
    fun q hq => phiBranch_cases hinv.uniqHash hmemp beta f hq
  have ghash : ∀ a : BlockRec, (g a).hash = a.hash := phiBranch_hash path beta f
  have gparent : ∀ a : BlockRec, (g a).parent = a.parent := phiBranch_parent path beta f
  have gheight : ∀ a : BlockRec, (g a).height = a.height := phiBranch_height path beta f
  have gb0 : ∀ a ∈ s, (g a).branch = 0 →
      (a ∈ path ∧ g a = { a with branch := 0 }) ∨
      (a ∉ path ∧ a.branch = 0 ∧ a.height < beta ∧ g a = a) := by
    intro a ha h0
    rcases gcase a ha with ⟨hp, he⟩ | ⟨hnp, hb0, hbe, he⟩ | ⟨hnp, hcond, he⟩
    · exact Or.inl ⟨hp, he⟩
    · rw [he, branch_setBranch] at h0
      omega
    · rw [he] at h0
      have : ¬ beta ≤ a.height := fun hge => hcond ⟨h0, hge⟩
      exact Or.inr ⟨hnp, h0, by omega, he⟩
  have gbf : ∀ a ∈ s, (g a).branch = f →
      a ∉ path ∧ a.branch = 0 ∧ beta ≤ a.height ∧ g a = { a with branch := f } := by
    intro a ha hbf
    rcases gcase a ha with ⟨hp, he⟩ | hrest | ⟨hnp, hcond, he⟩
    · rw [he, branch_setBranch] at hbf
      omega
    · exact hrest
    · rw [he] at hbf
      have := hflt a ha
      omega
  have gbc : ∀ a ∈ s, (g a).branch ≠ 0 → (g a).branch ≠ f →
      a ∉ path ∧ g a = a ∧ a.branch ≠ 0 := by
    intro a ha h0 hf2
    rcases gcase a ha with ⟨hp, he⟩ | ⟨hnp, hb0, hbe, he⟩ | ⟨hnp, hcond, he⟩
    · rw [he, branch_setBranch] at h0
      exact absurd rfl h0
    · rw [he, branch_setBranch] at hf2
      exact absurd rfl hf2
    · refine ⟨hnp, he, ?_⟩
      rw [he] at h0
      exact h0
  have gpath : ∀ a ∈ path, g a = { a with branch := 0 } := by
    intro a hap
    rcases gcase a ((hmemp a hap).1) with ⟨-, he⟩ | ⟨hnp, -⟩ | ⟨hnp, -⟩
    · exact he
    · exact absurd hap hnp
    · exact absurd hap hnp
  have hlo_le : getLowestUnprunedHeight s ≤ (beta : Int) := by
    rcases hterm with ⟨p0, hp0s, -, hp0br, hp0h⟩ | ⟨-, hloeq⟩
    · have := getLowest_le (mem_mainRows.mpr ⟨hp0s, hp0br⟩)
      omega
    · omega
  have hlrm : { lastR with branch := 0 } ∈ mainRows (s.map g) := by
    refine mem_mainRows.mpr ⟨?_, branch_setBranch _ _⟩
    have hmem := List.mem_map_of_mem g hlS
    rwa [gpath lastR hlmem] at hmem
  have hboundNew : ∀ n : Nat, (n : Int) ≤ getLowestUnprunedHeight s →
      (n : Int) ≤ getLowestUnprunedHeight (s.map g) := by
    intro n hn
    apply le_getLowest (List.ne_nil_of_mem hlrm)
    intro m hm
    rcases mem_mainRows.mp hm with ⟨hmm, hm0⟩
    rcases List.mem_map.mp hmm with ⟨b, hb, rfl⟩
    rcases gb0 b hb hm0 with ⟨hbp, -⟩ | ⟨-, hb0, hblt, -⟩
    · have h2 := hbl b hbp
      rw [gheight]
      omega
    · rw [gheight]
      have h2 := getLowest_le (mem_mainRows.mpr ⟨hb, hb0⟩)
      omega
  refine ⟨?_, ?_, ?_, ?_, ?_, ?_, ?_, ?_⟩
  · exact hinv.nodup.map_on (fun a ha b hb heq =>
      hinv.uniqHash a ha b hb (by rw [← ghash a, ← ghash b, heq]))
  · intro x hx y hy hxy
    rcases List.mem_map.mp hx with ⟨a, ha, rfl⟩
    rcases List.mem_map.mp hy with ⟨b, hb, rfl⟩
    rw [ghash, ghash] at hxy
    rw [hinv.uniqHash a ha b hb hxy]
  · intro x hx y hy hbr hht
    rcases List.mem_map.mp hx with ⟨a, ha, rfl⟩
    rcases List.mem_map.mp hy with ⟨b, hb, rfl⟩
    rw [gheight, gheight] at hht
    by_cases h0 : (g a).branch = 0
    · rcases gb0 a ha h0 with ⟨hap, -⟩ | ⟨-, ha0, halt, -⟩
      · rcases gb0 b hb (by rw [← hbr]; exact h0) with ⟨hbp, -⟩ | ⟨-, hb0, hblt, -⟩
        · rw [strictChain_height_inj hchain a hap b hbp hht]
        · have := hbl a hap
          omega
      · rcases gb0 b hb (by rw [← hbr]; exact h0) with ⟨hbp, -⟩ | ⟨-, hb0, hblt, -⟩
        · have := hbl b hbp
          omega
        · rw [hinv.uniqBH a ha b hb (ha0.trans hb0.symm) hht]
    · by_cases hff : (g a).branch = f
      · rcases gbf a ha hff with ⟨-, ha0, -, -⟩
        rcases gbf b hb (by rw [← hbr]; exact hff) with ⟨-, hb0, -, -⟩
        rw [hinv.uniqBH a ha b hb (ha0.trans hb0.symm) hht]
      · rcases gbc a ha h0 hff with ⟨-, hea, -⟩
        rcases gbc b hb (by rw [← hbr]; exact h0) (by rw [← hbr]; exact hff) with ⟨-, heb, -⟩
        rw [hea, heb] at hbr
        rw [hinv.uniqBH a ha b hb hbr hht]
  · intro x hx y hy hbr hht
    rcases List.mem_map.mp hx with ⟨a, ha, rfl⟩
    rcases List.mem_map.mp hy with ⟨b, hb, rfl⟩
    rw [gheight, gheight] at hht
    by_cases h0 : (g a).branch = 0
    · rcases gb0 a ha h0 with ⟨hap, hea⟩ | ⟨hanp, ha0, halt, hea⟩
      · by_cases hab : beta < a.height
        · rcases strictChain_pred hchain hlast hap hab with ⟨y2, hyp, hyh, hyl⟩
          refine ⟨g y2, List.mem_map_of_mem g ((hmemp y2 hyp).1), ?_, ?_⟩
          · rw [gpath y2 hyp, branch_setBranch, h0]
          · rw [gpath y2 hyp, height_setBranch, gheight]
            exact hyh
        · have hae : a.height = beta := by
            have := hbl a hap
            omega
          rcases gb0 b hb (by rw [← hbr]; exact h0) with ⟨hbp, -⟩ | ⟨-, hb0, hblt, -⟩
          · have := hbl b hbp
            omega
          · rcases hterm with ⟨p0, hp0s, hp0hash, hp0br, hp0h⟩ | ⟨habs2, hloeq⟩
            · have hp0np : p0 ∉ path := fun hc2 => (hmemp p0 hc2).2 hp0br
              have hgp0 : g p0 = p0 := by
                rcases gcase p0 hp0s with ⟨hc2, -⟩ | ⟨-, -, hbge, -⟩ | ⟨-, -, he⟩
                · exact absurd hc2 hp0np
                · omega
                · exact he
              refine ⟨g p0, List.mem_map_of_mem g hp0s, ?_, ?_⟩
              · rw [hgp0, hp0br, h0]
              · rw [hgp0, gheight]
                omega
            · exfalso
              have := getLowest_le (mem_mainRows.mpr ⟨hb, hb0⟩)
              omega
      · rcases gb0 b hb (by rw [← hbr]; exact h0) with ⟨hbp, -⟩ | ⟨-, hb0, hblt, -⟩
        · have := hbl b hbp
          omega
        · rcases hinv.contig a ha b hb (ha0.trans hb0.symm) hht with ⟨p, hps, hpbr, hph⟩
          have hpb0 : p.branch = 0 := hpbr.trans ha0
          have hpnp : p ∉ path := fun hc2 => by
            have := hbl p hc2
            omega
          have hgp : g p = p := by
            rcases gcase p hps with ⟨hc2, -⟩ | ⟨-, -, hbge, -⟩ | ⟨-, -, he⟩
            · exact absurd hc2 hpnp
            · omega
            · exact he
          refine ⟨g p, List.mem_map_of_mem g hps, ?_, ?_⟩
          · rw [hgp, hpb0, h0]
          · rw [hgp, gheight]
            exact hph
    · by_cases hff : (g a).branch = f
      · rcases gbf a ha hff with ⟨hanp, ha0, hage, hea⟩
        rcases gbf b hb (by rw [← hbr]; exact hff) with ⟨hbnp, hb0, hbge, heb⟩
        rcases hinv.contig a ha b hb (ha0.trans hb0.symm) hht with ⟨p, hps, hpbr, hph⟩
        have hpge : beta ≤ p.height := by omega
        have hpb0 : p.branch = 0 := hpbr.trans ha0
        have hpnp : p ∉ path := fun hc2 => (hmemp p hc2).2 hpb0
        have hgp : g p = { p with branch := f } := by
          rcases gcase p hps with ⟨hc2, -⟩ | ⟨-, -, -, he⟩ | ⟨-, hcond, -⟩
          · exact absurd hc2 hpnp
          · exact he
          · exact absurd ⟨hpb0, hpge⟩ hcond
        refine ⟨g p, List.mem_map_of_mem g hps, ?_, ?_⟩
        · rw [hgp, branch_setBranch, hff]
        · rw [hgp, height_setBranch, gheight]
          exact hph
      · rcases gbc a ha h0 hff with ⟨hanp, hea, hanz⟩
        rcases gbc b hb (by rw [← hbr]; exact h0) (by rw [← hbr]; exact hff)
          with ⟨hbnp, heb, -⟩
        rw [hea, heb] at hbr
        rcases hinv.contig a ha b hb hbr hht with ⟨p, hps, hpbr, hph⟩
        have hpnp : p ∉ path := by
          intro hc2
          exact hbnp (hclosed p hc2 b hb (hpbr.trans hbr).symm (by omega))
        have hgp : g p = p := by
          rcases gcase p hps with ⟨hc2, -⟩ | ⟨-, hp0, -, -⟩ | ⟨-, -, he⟩
          · exact absurd hc2 hpnp
          · exact absurd hp0 (by rw [hpbr]; exact hanz)
          · exact he
        refine ⟨g p, List.mem_map_of_mem g hps, ?_, ?_⟩
        · rw [hgp, hea]
          exact hpbr
        · rw [hgp, gheight]
          exact hph
  · intro x hx y hy hbr hht
    rcases List.mem_map.mp hx with ⟨a, ha, rfl⟩
    rcases List.mem_map.mp hy with ⟨b, hb, rfl⟩
    rw [gheight, gheight] at hht
    rw [gparent, ghash]
    by_cases h0 : (g a).branch = 0
    · rcases gb0 a ha h0 with ⟨hap, -⟩ | ⟨hanp, ha0, halt, -⟩
      · rcases gb0 b hb (by rw [← hbr]; exact h0) with ⟨hbp, -⟩ | ⟨hbnp, hb0, hblt, -⟩
        · have hba : beta ≤ b.height := hbl b hbp
          rcases strictChain_pred hchain hlast hap (by omega) with ⟨y2, hyp, hyh, hyl⟩
          have hyb : y2 = b := strictChain_height_inj hchain y2 hyp b hbp (by omega)
          rw [hyb] at hyl
          exact hyl
        · have hage : beta ≤ a.height := hbl a hap
          have hae : a = lastR := strictChain_height_inj hchain a hap lastR hlmem (by omega)
          rcases hterm with ⟨p0, hp0s, hp0hash, hp0br, hp0h⟩ | ⟨habs2, hloeq⟩
          · have hbp0 : b = p0 := hinv.uniqBH b hb p0 hp0s (hb0.trans hp0br.symm) (by omega)
            rw [hae, hbp0]
            exact hp0hash.symm
          · exfalso
            have := getLowest_le (mem_mainRows.mpr ⟨hb, hb0⟩)
            omega
      · rcases gb0 b hb (by rw [← hbr]; exact h0) with ⟨hbp, -⟩ | ⟨hbnp, hb0, hblt, -⟩
        · have := hbl b hbp
          omega
        · exact hinv.link a ha b hb (ha0.trans hb0.symm) hht
    · by_cases hff : (g a).branch = f
      · rcases gbf a ha hff with ⟨-, ha0, -, -⟩
        rcases gbf b hb (by rw [← hbr]; exact hff) with ⟨-, hb0, -, -⟩
        exact hinv.link a ha b hb (ha0.trans hb0.symm) hht
      · rcases gbc a ha h0 hff with ⟨-, hea, -⟩
        rcases gbc b hb (by rw [← hbr]; exact h0) (by rw [← hbr]; exact hff)
          with ⟨-, heb, -⟩
        rw [hea, heb] at hbr
        exact hinv.link a ha b hb hbr hht
  · intro hne
    exact ⟨{ lastR with branch := 0 }, (mem_mainRows.mp hlrm).1, (mem_mainRows.mp hlrm).2⟩
  · intro x hx hxnz hbot
    rcases List.mem_map.mp hx with ⟨a, ha, rfl⟩
    by_cases hff : (g a).branch = f
    · rcases gbf a ha hff with ⟨hanp, ha0, hage, hea⟩
      by_cases hae : a.height = beta
      · rcases hterm with ⟨p0, hp0s, hp0hash, hp0br, hp0h⟩ | ⟨habs2, hloeq⟩
        · have hp0np : p0 ∉ path := fun hc2 => (hmemp p0 hc2).2 hp0br
          have hgp0 : g p0 = p0 := by
            rcases gcase p0 hp0s with ⟨hc2, -⟩ | ⟨-, -, hbge, -⟩ | ⟨-, -, he⟩
            · exact absurd hc2 hp0np
            · omega
            · exact he
          have hlink : a.parent = p0.hash :=
            hinv.link a ha p0 hp0s (ha0.trans hp0br.symm) (by omega)
          refine Or.inl ⟨g p0, List.mem_map_of_mem g hp0s, ?_, ?_, ?_⟩
          · rw [hgp0, gparent]
            exact hlink.symm
          · rw [hgp0, hp0br, hff]
            omega
          · rw [hgp0, gheight]
            omega
        · have habot : isBottom s a := by
            intro q hq hqbr
            have hq0 : q.branch = 0 := hqbr.trans ha0
            have := getLowest_le (mem_mainRows.mpr ⟨hq, hq0⟩)
            omega
          have habs3 := hinv.mainTerm a ha ha0 habot
          refine Or.inr ⟨?_, ?_⟩
          · intro q hq
            rcases List.mem_map.mp hq with ⟨c, hc, rfl⟩
            rw [ghash, gparent]
            exact habs3 c hc
          · rw [gheight]
            apply hboundNew
            omega
      · exfalso
        have hlow : ∃ m ∈ s, m.branch = 0 ∧ m.height < a.height := by
          rcases hterm with ⟨p0, hp0s, hp0hash, hp0br, hp0h⟩ | ⟨habs2, hloeq⟩
          · exact ⟨p0, hp0s, hp0br, by omega⟩
          · rcases getLowest_mem (List.ne_nil_of_mem (mem_mainRows.mpr ⟨ha, ha0⟩))
              with ⟨m, hm, hmh⟩
            rcases mem_mainRows.mp hm with ⟨hms, hm0⟩
            exact ⟨m, hms, hm0, by omega⟩
        rcases hlow with ⟨m, hms, hm0, hmlt⟩
        rcases hinv.contig a ha m hms (ha0.trans hm0.symm) hmlt with ⟨p, hps, hpbr, hph⟩
        have hpb0 : p.branch = 0 := hpbr.trans ha0
        have hpge : beta ≤ p.height := by omega
        have hpnp : p ∉ path := fun hc2 => (hmemp p hc2).2 hpb0
        have hgp : g p = { p with branch := f } := by
          rcases gcase p hps with ⟨hc2, -⟩ | ⟨-, -, -, he⟩ | ⟨-, hcond, -⟩
          · exact absurd hc2 hpnp
          · exact he
          · exact absurd ⟨hpb0, hpge⟩ hcond
        have hcon := hbot (g p) (List.mem_map_of_mem g hps)
          (by rw [hgp, branch_setBranch]; exact hff.symm)
        simp only [gheight, hgp, height_setBranch] at hcon
        omega
    · rcases gbc a ha hxnz hff with ⟨hanp, hea, hanz⟩
      by_cases hbelow : ∃ b0 ∈ s, b0.branch = a.branch ∧ b0.height < a.height
      · rcases hbelow with ⟨b0, hb0s, hb0br, hb0lt⟩
        rcases hinv.contig a ha b0 hb0s hb0br.symm hb0lt with ⟨p, hps, hpbr, hph⟩
        by_cases hpp2 : p ∈ path
        · have hlink : a.parent = p.hash :=
            hinv.link a ha p hps hpbr.symm hph.symm
          refine Or.inl ⟨g p, List.mem_map_of_mem g hps, ?_, ?_, ?_⟩
          · rw [ghash, gparent]
            exact hlink.symm
          · rw [hea, gpath p hpp2, branch_setBranch]
            exact fun hcon => hanz hcon.symm
          · rw [gheight, gheight]
            exact hph
        · exfalso
          have hgp : g p = p := by
            rcases gcase p hps with ⟨hc2, -⟩ | ⟨-, hp0, -, -⟩ | ⟨-, -, he⟩
            · exact absurd hc2 hpp2
            · exact absurd hp0 (by rw [hpbr]; exact hanz)
            · exact he
          have hcon := hbot (g p) (List.mem_map_of_mem g hps)
            (by rw [hgp, hea]; exact hpbr)
          simp only [gheight, hgp] at hcon
          omega
      · push_neg at hbelow
        have habot : isBottom s a := by
          intro q hq hqbr
          have h2 := hbelow q hq hqbr
          omega
        rcases hinv.branchTerm a ha hanz habot with
          ⟨p, hps, hph, hpbr2, hpht⟩ | ⟨habs4, hble4⟩
        · refine Or.inl ⟨g p, List.mem_map_of_mem g hps, ?_, ?_, ?_⟩
          · rw [ghash, gparent]
            exact hph
          · rw [hea]
            rcases gcase p hps with ⟨hc2, he⟩ | ⟨-, -, -, he⟩ | ⟨-, -, he⟩
            · rw [he, branch_setBranch]
              exact fun hcon => hanz hcon.symm
            · rw [he, branch_setBranch]
              have := hflt a ha
              omega
            · rw [he]
              exact hpbr2
          · rw [gheight, gheight]
            exact hpht
        · refine Or.inr ⟨?_, ?_⟩
          · intro q hq
            rcases List.mem_map.mp hq with ⟨c, hc, rfl⟩
            rw [ghash, gparent]
            exact habs4 c hc
          · rw [gheight]
            exact hboundNew a.height hble4
  · intro x hx hx0 hbot q hq
    rcases List.mem_map.mp hx with ⟨a, ha, rfl⟩
    rcases List.mem_map.mp hq with ⟨c, hc, rfl⟩
    rw [ghash, gparent]
    rcases gb0 a ha hx0 with ⟨hap, -⟩ | ⟨hanp, ha0, halt, hea⟩
    · by_cases hae : a.height = beta
      · have haL : a = lastR := strictChain_height_inj hchain a hap lastR hlmem (by omega)
        rcases hterm with ⟨p0, hp0s, hp0hash, hp0br, hp0h⟩ | ⟨habs2, hloeq⟩
        · exfalso
          have hp0np : p0 ∉ path := fun hc2 => (hmemp p0 hc2).2 hp0br
          have hgp0 : g p0 = p0 := by
            rcases gcase p0 hp0s with ⟨hc2, -⟩ | ⟨-, -, hbge, -⟩ | ⟨-, -, he⟩
            · exact absurd hc2 hp0np
            · omega
            · exact he
          have hcon := hbot (g p0) (List.mem_map_of_mem g hp0s)
            (by rw [hgp0, hp0br]; exact hx0.symm)
          simp only [gheight, hgp0] at hcon
          omega
        · rw [haL]
          exact habs2 c hc
      · exfalso
        have hage : beta ≤ a.height := hbl a hap
        have hcon := hbot (g lastR) (List.mem_map_of_mem g hlS)
          (by rw [gpath lastR hlmem, branch_setBranch]; exact hx0.symm)
        simp only [gheight, gpath lastR hlmem, height_setBranch] at hcon
        omega
    · rcases hterm with ⟨p0, hp0s, hp0hash, hp0br, hp0h⟩ | ⟨habs2, hloeq⟩
      · have habot : isBottom s a := by
          intro q2 hq2 hq2br
          have hq20 : q2.branch = 0 := hq2br.trans ha0
          by_cases hq2lt : q2.height < beta
          · have hq2np : q2 ∉ path := fun hc2 => by
              have := hbl q2 hc2
              omega
            have hgq2 : g q2 = q2 := by
              rcases gcase q2 hq2 with ⟨hc2, -⟩ | ⟨-, -, hge, -⟩ | ⟨-, -, he⟩
              · exact absurd hc2 hq2np
              · omega
              · exact he
            have hcon := hbot (g q2) (List.mem_map_of_mem g hq2)
              (by rw [hgq2, hq20]; exact hx0.symm)
            simp only [gheight, hgq2] at hcon
            exact hcon
          · omega
        exact hinv.mainTerm a ha ha0 habot c hc
      · exfalso
        have := getLowest_le (mem_mainRows.mpr ⟨ha, ha0⟩)
        omega

theorem getLowest_of_no_main {s : Store} (h : mainRows s = []) :
    getLowestUnprunedHeight s = -1 := by
  unfold getLowestUnprunedHeight
  rw [h]
  rfl

theorem chainInv_insert {s : Store} (hinv : ChainInv s) {blk : BlockData} {p : BlockRec}
    (hp : p ∈ s) (hph : p.hash = blk.parent) (hh : blk.height = p.height + 1)
    (hfresh : ∀ q ∈ s, q.hash ≠ blk.hash)
    (hCB : ∀ q ∈ s, q.parent = blk.hash → (q.branch ≠ 0 ∧ q.height = blk.height + 1))
    (hmain : ∃ r ∈ s, r.branch = 0) :
    ChainInv (insertBlock s blk (getFreeBranchNumber s)) := by
  have hflt : ∀ q ∈ s, q.branch < getFreeBranchNumber s := fun q hq => branch_lt_free hq
  have hf0 : 0 < getFreeBranchNumber s := getFreeBranchNumber_pos s
  set f := getFreeBranchNumber s with hfdef
  show ChainInv (s ++ [⟨blk.hash, blk.parent, blk.height, f⟩])
  set nr : BlockRec := ⟨blk.hash, blk.parent, blk.height, f⟩ with hnrdef
  have hmem : ∀ {x : BlockRec}, x ∈ s ++ [nr] ↔ x ∈ s ∨ x = nr := by
    intro x
    rw [List.mem_append, List.mem_singleton]
  have hnrs : nr ∉ s := fun hc => hfresh nr hc rfl
  have hmr : mainRows (s ++ [nr]) = mainRows s := by
    unfold mainRows
    rw [List.filter_append]
    have hnr0 : ¬ nr.branch = 0 := by
      show ¬ f = 0
      omega
    have hz : List.filter (fun r => decide (r.branch = 0)) [nr] = [] := by
      simp [List.filter_singleton, hnr0]
    rw [hz, List.append_nil]
  have hlow : getLowestUnprunedHeight (s ++ [nr]) = getLowestUnprunedHeight s := by
    unfold getLowestUnprunedHeight
    rw [hmr]
  refine ⟨?_, ?_, ?_, ?_, ?_, ?_, ?_, ?_⟩
  · refine hinv.nodup.append (List.nodup_singleton nr) ?_
    intro a ha hb
    rw [List.mem_singleton] at hb
    rw [hb] at ha
    exact hnrs ha
  · intro x hx y hy hxy
    rcases hmem.mp hx with hxs | rfl
    · rcases hmem.mp hy with hys | rfl
      · exact hinv.uniqHash x hxs y hys hxy
      · exact absurd hxy (hfresh x hxs)
    · rcases hmem.mp hy with hys | rfl
      · exact absurd hxy.symm (hfresh y hys)
      · rfl
  · intro x hx y hy hbr hht
    rcases hmem.mp hx with hxs | rfl
    · rcases hmem.mp hy with hys | rfl
      · exact hinv.uniqBH x hxs y hys hbr hht
      · have := hflt x hxs
        rw [hnrdef] at hbr
        simp only [hnrdef] at hbr
        omega
    · rcases hmem.mp hy with hys | rfl
      · have := hflt y hys
        simp only [hnrdef] at hbr
        omega
      · rfl
  · intro x hx y hy hbr hht
    rcases hmem.mp hx with hxs | rfl
    · rcases hmem.mp hy with hys | rfl
      · rcases hinv.contig x hxs y hys hbr hht with ⟨p2, hp2s, hp2br, hp2h⟩
        exact ⟨p2, hmem.mpr (Or.inl hp2s), hp2br, hp2h⟩
      · have := hflt x hxs
        rw [hbr] at this
        simp only [hnrdef] at this
        omega
    · rcases hmem.mp hy with hys | rfl
      · have := hflt y hys
        rw [← hbr] at this
        simp only [hnrdef] at this
        omega
      · omega
  · intro x hx y hy hbr hht
    rcases hmem.mp hx with hxs | rfl
    · rcases hmem.mp hy with hys | rfl
      · exact hinv.link x hxs y hys hbr hht
      · have := hflt x hxs
        rw [hbr] at this
        simp only [hnrdef] at this
        omega
    · rcases hmem.mp hy with hys | rfl
      · have := hflt y hys
        rw [← hbr] at this
        simp only [hnrdef] at this
        omega
      · omega
  · intro hne
    rcases hmain with ⟨r, hrs, hr0⟩
    exact ⟨r, hmem.mpr (Or.inl hrs), hr0⟩
  · intro x hx hxnz hbot
    rcases hmem.mp hx with hxs | rfl
    · have habot : isBottom s x := fun q hq hqbr =>
        hbot q (hmem.mpr (Or.inl hq)) hqbr
      rcases hinv.branchTerm x hxs hxnz habot with
        ⟨p2, hp2s, hp2h, hp2br, hp2ht⟩ | ⟨habs, hble⟩
      · exact Or.inl ⟨p2, hmem.mpr (Or.inl hp2s), hp2h, hp2br, hp2ht⟩
      · by_cases hpar2 : x.parent = blk.hash
        · rcases hCB x hxs hpar2 with ⟨-, hxh⟩
          refine Or.inl ⟨nr, hmem.mpr (Or.inr rfl), ?_, ?_, ?_⟩
          · simp only [hnrdef]
            exact hpar2.symm
          · have := hflt x hxs
            simp only [hnrdef]
            omega
          · simp only [hnrdef]
            omega
        · refine Or.inr ⟨?_, ?_⟩
          · intro q hq
            rcases hmem.mp hq with hqs | rfl
            · exact habs q hqs
            · simp only [hnrdef]
              exact fun hc => hpar2 hc.symm
          · rw [hlow]
            exact hble
    · refine Or.inl ⟨p, hmem.mpr (Or.inl hp), ?_, ?_, ?_⟩
      · simp only [hnrdef]
        exact hph
      · have := hflt p hp
        simp only [hnrdef]
        omega
      · simp only [hnrdef]
        omega
  · intro x hx hx0 hbot q hq
    rcases hmem.mp hx with hxs | rfl
    · have habot : isBottom s x := fun q2 hq2 hq2br =>
        hbot q2 (hmem.mpr (Or.inl hq2)) hq2br
      have ht := hinv.mainTerm x hxs hx0 habot
      rcases hmem.mp hq with hqs | rfl
      · exact ht q hqs
      · simp only [hnrdef]
        intro hc
        exact (hCB x hxs hc.symm).1 hx0
    · exfalso
      simp only [hnrdef] at hx0
      omega

theorem chainInv_prune {s : Store} (hinv : ChainInv s) {u : Nat}
    (hok : (u : Int) < getTipHeight s) : ChainInv (pruneStore s u) := by
  rcases lt_tip_exists_main hok with ⟨t, htm, htu⟩
  rcases mem_mainRows.mp htm with ⟨hts, ht0⟩
  have hmem : ∀ {x : BlockRec}, x ∈ pruneStore s u ↔
      x ∈ s ∧ (x.branch = 0 → u < x.height) := by
    intro x
    unfold pruneStore
    rw [List.mem_filter]
    simp only [Bool.not_eq_eq_eq_not, Bool.not_true, decide_eq_false_iff_not,
      not_and, not_le]
  have htk : t ∈ pruneStore s u := hmem.mpr ⟨hts, fun _ => htu⟩
  have htkm : t ∈ mainRows (pruneStore s u) := mem_mainRows.mpr ⟨htk, ht0⟩
  refine ⟨?_, ?_, ?_, ?_, ?_, ?_, ?_, ?_⟩
  · exact hinv.nodup.filter _
  · intro x hx y hy hxy
    exact hinv.uniqHash x (hmem.mp hx).1 y (hmem.mp hy).1 hxy
  · intro x hx y hy hbr hht
    exact hinv.uniqBH x (hmem.mp hx).1 y (hmem.mp hy).1 hbr hht
  · intro x hx y hy hbr hht
    rcases hmem.mp hx with ⟨hxs, hxc⟩
    rcases hmem.mp hy with ⟨hys, hyc⟩
    rcases hinv.contig x hxs y hys hbr hht with ⟨p2, hp2s, hp2br, hp2h⟩
    refine ⟨p2, hmem.mpr ⟨hp2s, ?_⟩, hp2br, hp2h⟩
    intro hp20
    have hx0 : x.branch = 0 := by
      rw [← hp2br]
      exact hp20
    have := hyc (by rw [← hbr]; exact hx0)
    omega
  · intro x hx y hy hbr hht
    exact hinv.link x (hmem.mp hx).1 y (hmem.mp hy).1 hbr hht
  · intro hne
    exact ⟨t, htk, ht0⟩
  · intro x hx hxnz hbot
    rcases hmem.mp hx with ⟨hxs, hxc⟩
    have habot : isBottom s x := by
      intro q hq hqbr
      have hqnz : q.branch ≠ 0 := by
        rw [hqbr]
        exact hxnz
      exact hbot q (hmem.mpr ⟨hq, fun h0 => absurd h0 hqnz⟩) hqbr
    rcases hinv.branchTerm x hxs hxnz habot with
      ⟨p2, hp2s, hp2h, hp2br, hp2ht⟩ | ⟨habs, hble⟩
    · by_cases hkeep : p2.branch = 0 ∧ p2.height ≤ u
      · refine Or.inr ⟨?_, ?_⟩
        · intro q hq hc
          rcases hmem.mp hq with ⟨hqs, hqc⟩
          have hqp2 : q = p2 := hinv.uniqHash q hqs p2 hp2s (hc.trans hp2h.symm)
          have := hqc (by rw [hqp2]; exact hkeep.1)
          rw [hqp2] at this
          omega
        · apply le_getLowest (List.ne_nil_of_mem htkm)
          intro m hm
          rcases mem_mainRows.mp hm with ⟨hmp, hm0⟩
          rcases hmem.mp hmp with ⟨hms, hmc⟩
          have := hmc hm0
          omega
      · refine Or.inl ⟨p2, hmem.mpr ⟨hp2s, ?_⟩, hp2h, hp2br, hp2ht⟩
        intro h0
        by_contra hcon
        push_neg at hcon
        exact hkeep ⟨h0, by omega⟩
    · refine Or.inr ⟨?_, ?_⟩
      · intro q hq
        exact habs q (hmem.mp hq).1
      · apply le_getLowest (List.ne_nil_of_mem htkm)
        intro m hm
        rcases mem_mainRows.mp hm with ⟨hmp, hm0⟩
        rcases hmem.mp hmp with ⟨hms, hmc⟩
        have h1 := getLowest_le (mem_mainRows.mpr ⟨hms, hm0⟩)
        omega
  · intro x hx hx0 hbot q hq
    rcases hmem.mp hx with ⟨hxs, hxc⟩
    by_cases hex2 : ∃ y ∈ s, y.branch = 0 ∧ y.height < x.height
    · rcases hex2 with ⟨y, hys, hy0, hylt⟩
      rcases hinv.contig x hxs y hys (hx0.trans hy0.symm) hylt with ⟨p2, hp2s, hp2br, hp2ht⟩
      have hp20 : p2.branch = 0 := hp2br.trans hx0
      have hp2pr : p2.height ≤ u := by
        by_contra hcon
        push_neg at hcon
        have hkept : p2 ∈ pruneStore s u := hmem.mpr ⟨hp2s, fun _ => hcon⟩
        have := hbot p2 hkept (hp20.trans hx0.symm)
        omega
      have hlink : x.parent = p2.hash :=
        hinv.link x hxs p2 hp2s (hx0.trans hp20.symm) hp2ht.symm
      intro hc
      rcases hmem.mp hq with ⟨hqs, hqc⟩
      have hqp2 : q = p2 := hinv.uniqHash q hqs p2 hp2s (by rw [hc, hlink])
      have := hqc (by rw [hqp2]; exact hp20)
      rw [hqp2] at this
      omega
    · push_neg at hex2
      have habot : isBottom s x := by
        intro q2 hq2 hq2br
        have := hex2 q2 hq2 (hq2br.trans hx0)
        omega
      exact hinv.mainTerm x hxs hx0 habot q (hmem.mp hq).1

theorem chainInv_import {s : Store} (hinv : ChainInv s) {blk : BlockData}
    (hok : importOk s blk) : ChainInv (importTip s blk) := by
  obtain ⟨hselfp, h1, h2, h3, h4⟩ := hok
  rcases hfind : findByHash s blk.hash with _ | r0
  · -- fresh hash: insert on the main chain, prune the old main rows
    have hfr : ∀ q ∈ s, q.hash ≠ blk.hash := findByHash_def_none hfind
    have himp : importTip s blk = (insertBlock s blk 0).filter
        (fun r => !(decide (r.branch = 0 ∧ r.height < blk.height))) := by
      unfold importTip
      rw [hfind]
    rw [himp]
    show ChainInv ((s ++ [(⟨blk.hash, blk.parent, blk.height, 0⟩ : BlockRec)]).filter
      (fun r => !(decide (r.branch = 0 ∧ r.height < blk.height))))
    set n0 : BlockRec := ⟨blk.hash, blk.parent, blk.height, 0⟩ with hn0def
    have hmemX : ∀ {x : BlockRec}, x ∈ (s ++ [n0]).filter
        (fun r => !(decide (r.branch = 0 ∧ r.height < blk.height))) ↔
        ((x ∈ s ∧ x.branch ≠ 0) ∨ x = n0) := by
      intro x
      rw [List.mem_filter, List.mem_append, List.mem_singleton]
      simp only [Bool.not_eq_eq_eq_not, Bool.not_true, decide_eq_false_iff_not,
        not_and, not_lt]
      constructor
      · rintro ⟨hx | hx, hcond⟩
        · left
          refine ⟨hx, ?_⟩
          intro h0
          have h5 := hcond h0
          have := h1 x hx h0
          omega
        · right
          exact hx
      · rintro (⟨hx, hxnz⟩ | rfl)
        · exact ⟨Or.inl hx, fun h0 => absurd h0 hxnz⟩
        · refine ⟨Or.inr rfl, ?_⟩
          intro h0
          show blk.height ≤ blk.height
          exact le_refl _
    have hn0X : n0 ∈ (s ++ [n0]).filter
        (fun r => !(decide (r.branch = 0 ∧ r.height < blk.height))) :=
      hmemX.mpr (Or.inr rfl)
    have hn0m : n0 ∈ mainRows ((s ++ [n0]).filter
        (fun r => !(decide (r.branch = 0 ∧ r.height < blk.height)))) :=
      mem_mainRows.mpr ⟨hn0X, rfl⟩
    have hmainX : ∀ m ∈ mainRows ((s ++ [n0]).filter
        (fun r => !(decide (r.branch = 0 ∧ r.height < blk.height)))), m = n0 := by
      intro m hm
      rcases mem_mainRows.mp hm with ⟨hmX, hm0⟩
      rcases hmemX.mp hmX with ⟨hms, hmnz⟩ | he
      · exact absurd hm0 hmnz
      · exact he
    have hboundX : ∀ n : Nat, n ≤ blk.height → (n : Int) ≤ getLowestUnprunedHeight
        ((s ++ [n0]).filter (fun r => !(decide (r.branch = 0 ∧ r.height < blk.height)))) := by
      intro n hn
      apply le_getLowest (List.ne_nil_of_mem hn0m)
      intro m hm
      rw [hmainX m hm]
      exact hn
    refine ⟨?_, ?_, ?_, ?_, ?_, ?_, ?_, ?_⟩
    · refine List.Nodup.filter _ ?_
      refine hinv.nodup.append (List.nodup_singleton n0) ?_
      intro a ha hb
      rw [List.mem_singleton] at hb
      rw [hb] at ha
      exact hfr n0 ha rfl
    · intro x hx y hy hxy
      rcases hmemX.mp hx with ⟨hxs, -⟩ | rfl
      · rcases hmemX.mp hy with ⟨hys, -⟩ | rfl
        · exact hinv.uniqHash x hxs y hys hxy
        · exact absurd hxy (hfr x hxs)
      · rcases hmemX.mp hy with ⟨hys, -⟩ | rfl
        · exact absurd hxy.symm (hfr y hys)
        · rfl
    · intro x hx y hy hbr hht
      rcases hmemX.mp hx with ⟨hxs, hxnz⟩ | rfl
      · rcases hmemX.mp hy with ⟨hys, hynz⟩ | rfl
        · exact hinv.uniqBH x hxs y hys hbr hht
        · exact absurd hbr hxnz
      · rcases hmemX.mp hy with ⟨hys, hynz⟩ | rfl
        · exact absurd hbr.symm hynz
        · rfl
    · intro x hx y hy hbr hht
      rcases hmemX.mp hx with ⟨hxs, hxnz⟩ | rfl
      · rcases hmemX.mp hy with ⟨hys, hynz⟩ | rfl
        · rcases hinv.contig x hxs y hys hbr hht with ⟨p2, hp2s, hp2br, hp2h⟩
          have hp2nz : p2.branch ≠ 0 := by
            rw [hp2br]
            exact hxnz
          exact ⟨p2, hmemX.mpr (Or.inl ⟨hp2s, hp2nz⟩), hp2br, hp2h⟩
        · exact absurd hbr hxnz
      · rcases hmemX.mp hy with ⟨hys, hynz⟩ | rfl
        · exact absurd hbr.symm hynz
        · omega
    · intro x hx y hy hbr hht
      rcases hmemX.mp hx with ⟨hxs, hxnz⟩ | rfl
      · rcases hmemX.mp hy with ⟨hys, hynz⟩ | rfl
        · exact hinv.link x hxs y hys hbr hht
        · exact absurd hbr hxnz
      · rcases hmemX.mp hy with ⟨hys, hynz⟩ | rfl
        · exact absurd hbr.symm hynz
        · omega
    · intro hne
      exact ⟨n0, hn0X, rfl⟩
    · intro x hx hxnz hbot
      rcases hmemX.mp hx with ⟨hxs, -⟩ | rfl
      · have habot : isBottom s x := by
          intro q hq hqbr
          have hqnz : q.branch ≠ 0 := by
            rw [hqbr]
            exact hxnz
          exact hbot q (hmemX.mpr (Or.inl ⟨hq, hqnz⟩)) hqbr
        rcases hinv.branchTerm x hxs hxnz habot with
          ⟨p2, hp2s, hp2h, hp2br, hp2ht⟩ | ⟨habs, hble⟩
        · by_cases hp20 : p2.branch = 0
          · refine Or.inr ⟨?_, ?_⟩
            · intro q hq hc
              rcases hmemX.mp hq with ⟨hqs, hqnz⟩ | rfl
              · have hqp2 : q = p2 := hinv.uniqHash q hqs p2 hp2s (hc.trans hp2h.symm)
                rw [hqp2] at hqnz
                exact hqnz hp20
              · exact hfr p2 hp2s (hp2h.trans hc.symm)
            · have := h1 p2 hp2s hp20
              exact hboundX x.height (by omega)
          · exact Or.inl ⟨p2, hmemX.mpr (Or.inl ⟨hp2s, hp20⟩), hp2h, hp2br, hp2ht⟩
        · by_cases hpar2 : x.parent = blk.hash
          · rcases h4 hfr x hxs hpar2 with h0 | hxh
            · exact absurd h0 hxnz
            · refine Or.inl ⟨n0, hn0X, ?_, ?_, ?_⟩
              · exact hpar2.symm
              · exact fun hc => hxnz hc.symm
              · exact hxh.symm
          · refine Or.inr ⟨?_, ?_⟩
            · intro q hq hc
              rcases hmemX.mp hq with ⟨hqs, -⟩ | rfl
              · exact habs q hqs hc
              · exact hpar2 hc.symm
            · by_cases hmp : mainRows s = []
              · exfalso
                rw [getLowest_of_no_main hmp] at hble
                omega
              · rcases getLowest_mem hmp with ⟨m0, hm0m, hm0h⟩
                rcases mem_mainRows.mp hm0m with ⟨hm0s, hm00⟩
                have := h1 m0 hm0s hm00
                exact hboundX x.height (by omega)
      · exact absurd rfl hxnz
    · intro x hx hx0 hbot q hq
      rcases hmemX.mp hx with ⟨-, hxnz⟩ | rfl
      · exact absurd hx0 hxnz
      · rcases hmemX.mp hq with ⟨hqs, hqnz⟩ | rfl
        · intro hc
          exact hqnz (h3 q hqs hc)
        · intro hc
          exact hselfp hc.symm
  · -- stored hash: relabel to the main chain, prune the old main rows
    rcases findByHash_def_some hfind with ⟨hr0s, hr0h⟩
    obtain ⟨hr0ht, hr0p, hr0bot⟩ := h2 r0 hr0s hr0h
    have hr0nz : r0.branch ≠ 0 := by
      intro h0
      have := h1 r0 hr0s h0
      omega
    have himp : importTip s blk = (relabel s (fun q => q.hash = blk.hash) 0).filter
        (fun r => !(decide (r.branch = 0 ∧ r.height < blk.height))) := by
      unfold importTip
      rw [hfind]
    rw [himp, relabel_eq_map_ite s (fun q => q.hash = blk.hash) 0]
    set R0 : BlockRec := { r0 with branch := 0 } with hR0def
    have hmemX : ∀ {x : BlockRec},
        x ∈ (s.map (fun q => if q.hash = blk.hash then { q with branch := 0 } else q)).filter
          (fun r => !(decide (r.branch = 0 ∧ r.height < blk.height))) ↔
        (x = R0 ∨ (x ∈ s ∧ x ≠ r0 ∧ x.branch ≠ 0)) := by
      intro x
      rw [List.mem_filter, List.mem_map]
      simp only [Bool.not_eq_eq_eq_not, Bool.not_true, decide_eq_false_iff_not,
        not_and, not_lt]
      constructor
      · rintro ⟨⟨q, hqs, rfl⟩, hcond⟩
        by_cases hqh : q.hash = blk.hash
        · left
          have hqr0 : q = r0 := hinv.uniqHash q hqs r0 hr0s (hqh.trans hr0h.symm)
          rw [if_pos hqh, hqr0]
        · right
          rw [if_neg hqh] at hcond ⊢
          refine ⟨hqs, ?_, ?_⟩
          · intro hc
            rw [hc] at hqh
            exact hqh hr0h
          · intro h0
            have h5 := hcond h0
            have := h1 q hqs h0
            omega
      · rintro (rfl | ⟨hxs, hxne, hxnz⟩)
        · refine ⟨⟨r0, hr0s, ?_⟩, ?_⟩
          · rw [if_pos hr0h]
          · intro h0
            show blk.height ≤ r0.height
            omega
        · refine ⟨⟨x, hxs, ?_⟩, ?_⟩
          · rw [if_neg (fun hc => hxne (hinv.uniqHash x hxs r0 hr0s (hc.trans hr0h.symm)))]
          · intro h0
            exact absurd h0 hxnz
    have hR0X : R0 ∈ (s.map (fun q => if q.hash = blk.hash then { q with branch := 0 }
        else q)).filter (fun r => !(decide (r.branch = 0 ∧ r.height < blk.height))) :=
      hmemX.mpr (Or.inl rfl)
    have hR0m : R0 ∈ mainRows ((s.map (fun q => if q.hash = blk.hash then
        { q with branch := 0 } else q)).filter
        (fun r => !(decide (r.branch = 0 ∧ r.height < blk.height)))) :=
      mem_mainRows.mpr ⟨hR0X, rfl⟩
    have hmainX : ∀ m ∈ mainRows ((s.map (fun q => if q.hash = blk.hash then
        { q with branch := 0 } else q)).filter
        (fun r => !(decide (r.branch = 0 ∧ r.height < blk.height)))), m = R0 := by
      intro m hm
      rcases mem_mainRows.mp hm with ⟨hmX, hm0⟩
      rcases hmemX.mp hmX with he | ⟨-, -, hmnz⟩
      · exact he
      · exact absurd hm0 hmnz
    have hboundX : ∀ n : Nat, n ≤ blk.height → (n : Int) ≤ getLowestUnprunedHeight
        ((s.map (fun q => if q.hash = blk.hash then { q with branch := 0 } else q)).filter
          (fun r => !(decide (r.branch = 0 ∧ r.height < blk.height)))) := by
      intro n hn
      apply le_getLowest (List.ne_nil_of_mem hR0m)
      intro m hm
      rw [hmainX m hm]
      show n ≤ r0.height
      omega
    refine ⟨?_, ?_, ?_, ?_, ?_, ?_, ?_, ?_⟩
    · refine List.Nodup.filter _ ?_
      refine hinv.nodup.map_on ?_
      intro a ha b hb heq
      have hih : ∀ q : BlockRec,
          (if q.hash = blk.hash then ({ q with branch := 0 } : BlockRec) else q).hash
            = q.hash := by
        intro q
        split_ifs <;> rfl
      exact hinv.uniqHash a ha b hb (by rw [← hih a, ← hih b, heq])
    · intro x hx y hy hxy
      rcases hmemX.mp hx with rfl | ⟨hxs, hxne, -⟩
      · rcases hmemX.mp hy with rfl | ⟨hys, hyne, -⟩
        · rfl
        · exact absurd (hinv.uniqHash y hys r0 hr0s hxy.symm) hyne
      · rcases hmemX.mp hy with rfl | ⟨hys, hyne, -⟩
        · exact absurd (hinv.uniqHash x hxs r0 hr0s hxy) hxne
        · exact hinv.uniqHash x hxs y hys hxy
    · intro x hx y hy hbr hht
      rcases hmemX.mp hx with rfl | ⟨hxs, hxne, hxnz⟩
      · rcases hmemX.mp hy with rfl | ⟨hys, hyne, hynz⟩
        · rfl
        · exact absurd hbr.symm hynz
      · rcases hmemX.mp hy with rfl | ⟨hys, hyne, hynz⟩
        · exact absurd hbr hxnz
        · exact hinv.uniqBH x hxs y hys hbr hht
    · intro x hx y hy hbr hht
      rcases hmemX.mp hx with rfl | ⟨hxs, hxne, hxnz⟩
      · rcases hmemX.mp hy with rfl | ⟨hys, hyne, hynz⟩
        · omega
        · exact absurd hbr.symm hynz
      · rcases hmemX.mp hy with rfl | ⟨hys, hyne, hynz⟩
        · exact absurd hbr hxnz
        · rcases hinv.contig x hxs y hys hbr hht with ⟨p2, hp2s, hp2br, hp2h⟩
          by_cases hp2r0 : p2 = r0
          · exfalso
            have hybr : y.branch = r0.branch := by
              rw [← hbr, ← hp2br, hp2r0]
            have hge := hr0bot y hys hybr
            have hyr0 : y = r0 := hinv.uniqBH y hys r0 hr0s hybr (by
              rw [hp2r0] at hp2h
              omega)
            exact hyne hyr0
          · have hp2nz : p2.branch ≠ 0 := by
              rw [hp2br]
              exact hxnz
            exact ⟨p2, hmemX.mpr (Or.inr ⟨hp2s, hp2r0, hp2nz⟩), hp2br, hp2h⟩
    · intro x hx y hy hbr hht
      rcases hmemX.mp hx with rfl | ⟨hxs, hxne, hxnz⟩
      · rcases hmemX.mp hy with rfl | ⟨hys, hyne, hynz⟩
        · omega
        · exact absurd hbr.symm hynz
      · rcases hmemX.mp hy with rfl | ⟨hys, hyne, hynz⟩
        · exact absurd hbr hxnz
        · exact hinv.link x hxs y hys hbr hht
    · intro hne
      exact ⟨R0, hR0X, rfl⟩
    · intro x hx hxnz hbot
      rcases hmemX.mp hx with rfl | ⟨hxs, hxne, -⟩
      · exact absurd rfl hxnz
      · by_cases hcbr : x.branch = r0.branch
        · have hge := hr0bot x hxs hcbr
          have hxh : blk.height + 1 ≤ x.height := by
            rcases Nat.lt_or_ge blk.height x.height with h | h
            · omega
            · exfalso
              exact hxne (hinv.uniqBH x hxs r0 hr0s hcbr (by omega))
          by_cases hxh2 : x.height = blk.height + 1
          · have hlink : x.parent = r0.hash :=
              hinv.link x hxs r0 hr0s hcbr (by omega)
            refine Or.inl ⟨R0, hR0X, ?_, ?_, ?_⟩
            · exact hlink.symm
            · exact fun hc => hxnz hc.symm
            · show r0.height + 1 = x.height
              omega
          · exfalso
            rcases hinv.contig x hxs r0 hr0s hcbr (by omega) with ⟨p2, hp2s, hp2br, hp2h⟩
            have hp2ne : p2 ≠ r0 := by
              intro hc
              rw [hc] at hp2h
              omega
            have hp2nz : p2.branch ≠ 0 := by
              rw [hp2br]
              exact hxnz
            have := hbot p2 (hmemX.mpr (Or.inr ⟨hp2s, hp2ne, hp2nz⟩)) hp2br
            omega
        · have habot : isBottom s x := by
            intro q hq hqbr
            have hqnz : q.branch ≠ 0 := by
              rw [hqbr]
              exact hxnz
            have hqne : q ≠ r0 := by
              intro hc
              rw [hc] at hqbr
              exact hcbr hqbr.symm
            exact hbot q (hmemX.mpr (Or.inr ⟨hq, hqne, hqnz⟩)) hqbr
          rcases hinv.branchTerm x hxs hxnz habot with
            ⟨p2, hp2s, hp2h, hp2br, hp2ht⟩ | ⟨habs, hble⟩
          · by_cases hp2r0 : p2 = r0
            · refine Or.inl ⟨R0, hR0X, ?_, ?_, ?_⟩
              · show r0.hash = x.parent
                rw [← hp2r0]
                exact hp2h
              · exact fun hc => hxnz hc.symm
              · show r0.height + 1 = x.height
                rw [← hp2r0]
                exact hp2ht
            · by_cases hp20 : p2.branch = 0
              · refine Or.inr ⟨?_, ?_⟩
                · intro q hq hc
                  rcases hmemX.mp hq with rfl | ⟨hqs, hqne, hqnz⟩
                  · exact hp2r0 (hinv.uniqHash p2 hp2s r0 hr0s (hp2h.trans hc.symm))
                  · have hqp2 : q = p2 := hinv.uniqHash q hqs p2 hp2s (hc.trans hp2h.symm)
                    rw [hqp2] at hqnz
                    exact hqnz hp20
                · have := h1 p2 hp2s hp20
                  exact hboundX x.height (by omega)
              · exact Or.inl ⟨p2, hmemX.mpr (Or.inr ⟨hp2s, hp2r0, hp20⟩), hp2h, hp2br, hp2ht⟩
          · refine Or.inr ⟨?_, ?_⟩
            · intro q hq hc
              rcases hmemX.mp hq with rfl | ⟨hqs, -, -⟩
              · exact habs r0 hr0s hc
              · exact habs q hqs hc
            · by_cases hmp : mainRows s = []
              · exfalso
                rw [getLowest_of_no_main hmp] at hble
                omega
              · rcases getLowest_mem hmp with ⟨m0, hm0m, hm0h⟩
                rcases mem_mainRows.mp hm0m with ⟨hm0s, hm00⟩
                have := h1 m0 hm0s hm00
                exact hboundX x.height (by omega)
    · intro x hx hx0 hbot q hq
      rcases hmemX.mp hx with rfl | ⟨-, -, hxnz⟩
      · rcases hmemX.mp hq with rfl | ⟨hqs, hqne, hqnz⟩
        · intro hc
          apply hselfp
          rw [← hr0p, ← hc, hr0h]
        · intro hc
          exact hqnz (h3 q hqs (hc.trans hr0p))
      · exact absurd hx0 hxnz

theorem setTip_ok_cases {s : Store} {blk : BlockData} {s2 : Store} {old : String}
    (h : setTip s blk = .ok s2 old) :
    mainRows s ≠ [] ∧
    ((∃ r, findByHash s blk.hash = some r ∧ blk.parent = r.parent ∧ blk.height = r.height ∧
      markAsTip s blk = some s2) ∨
    (findByHash s blk.hash = none ∧ ∃ p, findByHash s blk.parent = some p ∧
      blk.height = p.height + 1 ∧
      markAsTip (insertBlock s blk (getFreeBranchNumber s)) blk = some s2)) := by
  unfold setTip at h
  split at h
  · exact SetTipResult.noConfusion h
  next tip htip =>
    have hmne : mainRows s ≠ [] := fun hc =>
      Option.noConfusion (htip.symm.trans (tipRow_eq_none_iff.mpr hc))
    refine ⟨hmne, ?_⟩
    split at h
    next r hfind =>
      split at h
      next hmatch =>
        split at h
        next => exact SetTipResult.noConfusion h
        next s3 hm =>
          obtain ⟨rfl, -⟩ : s3 = s2 ∧ tip.hash = old := SetTipResult.ok.inj h
          exact Or.inl ⟨r, hfind, hmatch.1, hmatch.2, hm⟩
      next => exact SetTipResult.noConfusion h
    next hfind =>
      split at h
      · exact SetTipResult.noConfusion h
      next p hp =>
        split at h
        next hh =>
          split at h
          next => exact SetTipResult.noConfusion h
          next s3 hm =>
            obtain ⟨rfl, -⟩ : s3 = s2 ∧ tip.hash = old := SetTipResult.ok.inj h
            exact Or.inr ⟨hfind, p, hp, hh, hm⟩
        next => exact SetTipResult.noConfusion h

theorem markAsTip_cases {s : Store} {blk : BlockData} {s2 : Store}
    (h : markAsTip s blk = some s2) :
    (∃ r, findByHash s blk.hash = some r ∧ r.branch = 0 ∧
      s2 = relabel s (fun q => decide (q.branch = 0 ∧ blk.height < q.height))
        (getFreeBranchNumber s)) ∨
    (∃ r, findByHash s blk.hash = some r ∧ ¬ r.branch = 0 ∧
      ∃ path lastR, getForkBranch s blk.hash = some path ∧ path.getLast? = some lastR ∧
        s2 = path.foldl (fun acc d => relabel acc (fun q => q.hash = d.hash) 0)
          (relabel s (fun q => decide (q.branch = 0 ∧ lastR.height ≤ q.height))
            (getFreeBranchNumber s))) := by
  unfold markAsTip at h
  split at h
  · exact Option.noConfusion h
  next r hfind =>
    split at h
    next hrb => exact Or.inl ⟨r, hfind, hrb, (Option.some.inj h).symm⟩
    next hrb =>
      split at h
      · exact Option.noConfusion h
      next path hpath =>
        split at h
        · exact Option.noConfusion h
        next lastR hlast =>
          exact Or.inr ⟨r, hfind, hrb, path, lastR, hpath, hlast, (Option.some.inj h).symm⟩

theorem chainInv_empty : ChainInv ([] : Store) := by
  refine ⟨List.nodup_nil, ?_, ?_, ?_, ?_, ?_, ?_, ?_⟩
  · intro r hr
    cases hr
  · intro r hr
    cases hr
  · intro r hr
    cases hr
  · intro r hr
    cases hr
  · intro h
    exact absurd rfl h
  · intro r hr
    cases hr
  · intro r hr
    cases hr

theorem chainInv_applyOp {s s1 : Store} {op : ChainOp} (hinv : ChainInv s)
    (hok : opOk s op) (happ : applyOp s op = some s1) : ChainInv s1 := by
  cases op with
  | importOp blk =>
      simp only [applyOp] at happ
      obtain rfl : importTip s blk = s1 := Option.some.inj happ
      exact chainInv_import hinv hok
  | pruneOp u =>
      simp only [applyOp] at happ
      obtain rfl : pruneStore s u = s1 := Option.some.inj happ
      exact chainInv_prune hinv hok
  | setTipOp blk =>
      obtain ⟨hnoabort, hstored, hfreshcond⟩ := hok
      simp only [applyOp] at happ
      split at happ
      next hst =>
        obtain rfl : s = s1 := Option.some.inj happ
        exact hinv
      next hst =>
        obtain rfl : s = s1 := Option.some.inj happ
        exact hinv
      next hst => exact absurd hst hnoabort
      next s2 old hst =>
        obtain rfl : s2 = s1 := Option.some.inj happ
        obtain ⟨hmne, hcases⟩ := setTip_ok_cases hst
        rcases hcases with ⟨r, hfind, hbp, hbh, hm⟩ | ⟨hfind, p, hpfind, hbh, hm⟩
        · rcases findByHash_def_some hfind with ⟨hrs, hrh⟩
          rcases markAsTip_cases hm with
            ⟨r2, hfind2, hr2b, hs2⟩ | ⟨r2, hfind2, hr2b, path, lastR, hpath, hlast, hs2⟩
          · have hr2r : r2 = r := by
              rw [hfind] at hfind2
              exact (Option.some.inj hfind2).symm
            rw [hs2]
            exact chainInv_main_relabel hinv (by rw [hr2r]; exact hrs) hr2b
              (by rw [hr2r]; exact hbh.symm)
          · obtain ⟨hpp, hend⟩ := getForkBranchGo_props hinv (s.length + 1) blk.hash [] path
              ⟨trivial, fun x hx => absurd hx (List.not_mem_nil x),
                fun x hx => absurd hx (List.not_mem_nil x)⟩
              (fun z hz => by simp at hz) hpath
            have hterm2 := hstored r2 ((findByHash_def_some hfind2).1)
              ((findByHash_def_some hfind2).2) hr2b
            rw [hpath] at hterm2
            have hterm : (∃ p2 ∈ s, p2.hash = lastR.parent ∧ p2.branch = 0 ∧
                p2.height + 1 = lastR.height) ∨
                ((∀ q ∈ s, q.hash ≠ lastR.parent) ∧
                  (lastR.height : Int) = getLowestUnprunedHeight s) := by
              rcases hend lastR hlast with hpres | ⟨habs, hle⟩
              · exact Or.inl hpres
              · unfold pathTerminalOk at hterm2
                simp only [hlast] at hterm2
                rcases hterm2 with ⟨p2, hp2, hp2h, hp2b⟩ | ⟨habs2, heq⟩
                · exact absurd hp2h (habs p2 hp2)
                · exact Or.inr ⟨habs, heq⟩
            rw [hs2, relabel_foldl_as_phi hinv.uniqHash hpp.2.1 lastR.height
              (getFreeBranchNumber s)]
            exact chainInv_branch_relabel hinv hpp hlast hterm
        · have hfr := findByHash_def_none hfind
          rcases findByHash_def_some hpfind with ⟨hps, hpH⟩
          obtain ⟨hCB2, htermF⟩ := hfreshcond hfr
          have hmain : ∃ r ∈ s, r.branch = 0 := by
            rcases List.exists_mem_of_ne_nil _ hmne with ⟨m, hm2⟩
            rcases mem_mainRows.mp hm2 with ⟨hms, hm0⟩
            exact ⟨m, hms, hm0⟩
          have hinv1 : ChainInv (insertBlock s blk (getFreeBranchNumber s)) :=
            chainInv_insert hinv hps hpH hbh hfr hCB2 hmain
          have htermS1 := htermF p hps hpH
          rcases markAsTip_cases hm with
            ⟨r2, hfind2, hr2b, hs2⟩ | ⟨r2, hfind2, hr2b, path, lastR, hpath, hlast, hs2⟩
          · exfalso
            have hnrmem : (⟨blk.hash, blk.parent, blk.height, getFreeBranchNumber s⟩ :
                BlockRec) ∈ insertBlock s blk (getFreeBranchNumber s) := by
              unfold insertBlock
              exact List.mem_append_right _ (List.mem_singleton_self _)
            have hfound := findByHash_of_mem hinv1.uniqHash hnrmem
            have hr2nr : r2 = ⟨blk.hash, blk.parent, blk.height, getFreeBranchNumber s⟩ := by
              rw [hfind2] at hfound
              exact Option.some.inj hfound
            rw [hr2nr] at hr2b
            have := getFreeBranchNumber_pos s
            have hz : getFreeBranchNumber s = 0 := hr2b
            omega
          · obtain ⟨hpp, hend⟩ := getForkBranchGo_props hinv1
              ((insertBlock s blk (getFreeBranchNumber s)).length + 1) blk.hash [] path
              ⟨trivial, fun x hx => absurd hx (List.not_mem_nil x),
                fun x hx => absurd hx (List.not_mem_nil x)⟩
              (fun z hz => by simp at hz) hpath
            rw [hpath] at htermS1
            have hterm : (∃ p2 ∈ insertBlock s blk (getFreeBranchNumber s),
                p2.hash = lastR.parent ∧ p2.branch = 0 ∧ p2.height + 1 = lastR.height) ∨
                ((∀ q ∈ insertBlock s blk (getFreeBranchNumber s), q.hash ≠ lastR.parent) ∧
                  (lastR.height : Int) =
                    getLowestUnprunedHeight (insertBlock s blk (getFreeBranchNumber s))) := by
              rcases hend lastR hlast with hpres | ⟨habs, hle⟩
              · exact Or.inl hpres
              · unfold pathTerminalOk at htermS1
                simp only [hlast] at htermS1
                rcases htermS1 with ⟨p2, hp2, hp2h, hp2b⟩ | ⟨habs2, heq⟩
                · exact absurd hp2h (habs p2 hp2)
                · exact Or.inr ⟨habs, heq⟩
            rw [hs2, relabel_foldl_as_phi hinv1.uniqHash hpp.2.1 lastR.height
              (getFreeBranchNumber (insertBlock s blk (getFreeBranchNumber s)))]
            exact chainInv_branch_relabel hinv1 hpp hlast hterm

theorem chainInv_applyOps : ∀ {ops : List ChainOp} {s s1 : Store}, ChainInv s →
    opsOk s ops → applyOps s ops = some s1 → ChainInv s1 := by
  intro ops
  induction ops with
  | nil =>
      intro s s1 hinv _ happ
      obtain rfl : s = s1 := Option.some.inj happ
      exact hinv
  | cons op rest ih =>
      intro s s1 hinv hok happ
      obtain ⟨hop, hrest⟩ := hok
      simp only [applyOps] at happ
      split at happ
      next h => exact Option.noConfusion happ
      next s2 h =>
        have hinv2 := chainInv_applyOp hinv hop h
        refine ih hinv2 ?_ happ
        simp only [h] at hrest
        exact hrest

/-- C2 (amended): starting from an empty chainstate, every sequence of
ImportTip, SetTip and Prune operations that respects the documented
calling conditions (ImportTip above the whole main chain with consistent
stored data, SetTip without aborting CHECKs and with fork walks ending
on the main chain or exactly at the pruning horizon, Prune strictly
below the tip) leaves a store satisfying the claimed branch invariant:
branches are contiguous and parent-linked, every non-main branch bottom
chains to a stored block of another branch or ends at most at the lowest
unpruned height, and the main chain bottom chains to a pruned or unknown
block. -/
theorem branch_invariant_holds (ops : List ChainOp) (s : Store)
    (hok : opsOk [] ops) (happ : applyOps [] ops = some s) : branchInvariant s :=
  (fun hinv => ⟨hinv.contig, hinv.link, hinv.branchTerm, hinv.mainTerm⟩)
    (chainInv_applyOps chainInv_empty hok happ)

/-- C2 witness: a concrete conditioned run, importing a genesis block at
height ten and attaching one child, satisfies the operation conditions
and yields a store satisfying the branch invariant. -/
theorem branch_invariant_holds_witness :
    opsOk [] [ChainOp.importOp ⟨"g", "p", 10⟩, ChainOp.setTipOp ⟨"b", "g", 11⟩] ∧
    branchInvariant [⟨"g", "p", 10, 0⟩, ⟨"b", "g", 11, 0⟩] := by
  constructor
  · decide
  · exact branch_invariant_holds
      [ChainOp.importOp ⟨"g", "p", 10⟩, ChainOp.setTipOp ⟨"b", "g", 11⟩]
      [⟨"g", "p", 10, 0⟩, ⟨"b", "g", 11, 0⟩] (by decide) (by decide)

end XayaX
